import Mathlib

/-!
# Verification development for `stackallocator.h`

A shallow embedding of the bump arena (`StackStorage`, `StackAllocator`) and of the
allocator-aware doubly linked ring (`List`), followed by theorems about them.

Memory is modelled explicitly: an address is a natural number, the three fields of a
node (`prev`, `next`, `value`) are three maps from addresses, and every list object is
described by the address of its member `fakeNode_` together with its members `sz_` and
`nodeAlloc_`.  Exceptions are modelled by the `Outcome` type.  A ghost trace records the
calls made to the allocator and the construction and destruction of element values.
-/

namespace StackList

/-- An address.  `nullptr` is address `0`. -/
abbrev Ptr := Nat

/-- The null pointer. -/
def nullptr : Ptr := 0

/-- The number of values of `size_t` (and of a pointer): arithmetic on `size_t` is
taken modulo this number. -/
def SIZE_RANGE : Nat := 2 ^ 64

/-! ## The arena: `StackStorage<N>` -/

/-- The library function `std::align(a, size, ptr, space)` of the C++ standard: when
`size` bytes aligned to `a` fit in the `space` bytes starting at `ptr`, the result is
the aligned address and the space left from there on (the two reference arguments after
the call); otherwise the result is `none` (a null result, arguments untouched). -/
def stdAlign (a size ptr space : Nat) : Option (Nat × Nat) :=
  if space < size then none
  else
    let aligned := (ptr + (a - 1)) / a * a
    let diff := aligned - ptr
    if diff > space - size then none
    else some (aligned, space - diff)

/-- The members of `StackStorage<N>`: `storage` is the address of the array `storage_`
(fixed for the life of the object), `top` is the address held by `top_`, `free` is
`free_`. -/
structure StackStorage (N : Nat) where
  storage : Nat
  top : Nat
  free : Nat
deriving DecidableEq, Repr

/-- A default-constructed arena whose buffer lives at address `base`:
`top_ = storage_`, `free_ = N`. -/
def StackStorage.fresh (N : Nat) (base : Nat) : StackStorage N :=
  { storage := base, top := base, free := N }

/-- `StackStorage::allocate(count, a, size_of_T)`.  The product `size_of_T * count` is
computed in `size_t`.  The result is the returned pointer (`nullptr` on failure) and the
arena afterwards. -/
def StackStorage.allocate {N : Nat} (s : StackStorage N) (count a size_of_T : Nat) :
    Nat × StackStorage N :=
  let bytes := (size_of_T * count) % SIZE_RANGE
  match stdAlign a bytes s.top s.free with
  | some (top1, free1) =>
      let result := top1
      (result, { s with top := top1 + bytes, free := free1 - bytes })
  | none => (nullptr, s)

/-- The states an arena object can be in: the buffer of `N` bytes lies in the address
space above address zero, and the cursor splits it into the used part and the `free`
bytes that remain.  The address one past the buffer is a pointer value. -/
structure StackStorage.Valid {N : Nat} (s : StackStorage N) : Prop where
  pos : 0 < s.storage
  fits : s.storage + N < SIZE_RANGE
  cursor : s.top + s.free = s.storage + N
  free_le : s.free ≤ N

/-- The padding that rounds the cursor up to the next multiple of `a`. -/
def padding (a : Nat) (top : Nat) : Nat := (top + (a - 1)) / a * a - top

/-! ## Memory, allocators and element types -/

/-- The node memory: the fields `prev`, `next` and `value` of the node (or sentinel
`BaseNode`) at each address.  `value p = none` when no element value is alive there. -/
structure Heap (T : Type) where
  prev : Ptr → Ptr
  next : Ptr → Ptr
  value : Ptr → Option T

/-- The assignment `p->prev = q`. -/
def Heap.setPrev {T : Type} (h : Heap T) (p q : Ptr) : Heap T :=
  { h with prev := fun x => if x = p then q else h.prev x }

/-- The assignment `p->next = q`. -/
def Heap.setNext {T : Type} (h : Heap T) (p q : Ptr) : Heap T :=
  { h with next := fun x => if x = p then q else h.next x }

/-- The value stored at `p` becomes `v` (`none`: the value has been destroyed). -/
def Heap.setValue {T : Type} (h : Heap T) (p : Ptr) (v : Option T) : Heap T :=
  { h with value := fun x => if x = p then v else h.value x }

/-- A heap in which every link is null and no value is alive. -/
def Heap.empty (T : Type) : Heap T :=
  { prev := fun _ => nullptr, next := fun _ => nullptr, value := fun _ => none }

/-- What the list needs from its node allocator type `NodeAlloc` (through
`std::allocator_traits`): `H` is the type of the allocator object stored in the list,
`σ` the state of the memory resource behind it.  `allocate` is `allocate(alloc, 1)`:
`none` stands for an exception, `some p` for the returned pointer. -/
structure AllocModel (H σ : Type) where
  allocate : H → σ → Option Ptr × σ
  deallocate : H → Ptr → σ → σ
  propagate_on_container_copy_assignment : Bool
  select_on_container_copy_construction : H → H
  defaultAlloc : H

/-- What the list needs from its element type `T`: whether the copy construction of a
given value throws, whether default construction throws (both may depend on the number
of constructions attempted so far), and the value a default construction produces. -/
structure ElemModel (T : Type) where
  copyThrows : Nat → T → Bool
  defaultThrows : Nat → Bool
  defaultValue : T

/-- Ghost events: the calls `allocate` (with the pointer it returned), `construct`,
`destroy` and `deallocate` made through `NodeTraits`. -/
inductive Event where
  | allocate (p : Ptr)
  | construct (p : Ptr)
  | destroy (p : Ptr)
  | deallocate (p : Ptr)
deriving DecidableEq, Repr

/-- The state of the program outside the list objects themselves. -/
structure World (σ T : Type) where
  heap : Heap T
  alloc : σ
  ctors : Nat
  trace : List Event

/-- The members of a `List<T, Alloc>` object: the address of `fakeNode_` (whose two
links live in the heap at that address), `sz_` and `nodeAlloc_`. -/
structure ListObj (H : Type) where
  fakeNode : Ptr
  sz : Nat
  nodeAlloc : H

/-- How a call ends: normally, by an exception, without an answer within the given
number of loop iterations, or by reading an element value that is not alive. -/
inductive Outcome (S : Type) where
  | ok (s : S)
  | thrown (s : S)
  | outOfFuel
  | undefined

/-- The increment `++sz_` on `size_t`. -/
def incr (n : Nat) : Nat := (n + 1) % SIZE_RANGE

/-- The decrement `--sz_` on `size_t`: zero wraps around to the largest value. -/
def decr (n : Nat) : Nat := if n = 0 then SIZE_RANGE - 1 else n - 1

section Operations

variable {H σ T : Type}

/-- `NodeTraits::allocate(nodeAlloc_, 1)`, recording the returned pointer. -/
def nodeAllocate (A : AllocModel H σ) (a : H) (w : World σ T) : Option Ptr × World σ T :=
  match A.allocate a w.alloc with
  | (some p, s) => (some p, { w with alloc := s, trace := w.trace ++ [Event.allocate p] })
  | (none, s) => (none, { w with alloc := s })

/-- `NodeTraits::deallocate(nodeAlloc_, p, 1)`. -/
def nodeDeallocate (A : AllocModel H σ) (a : H) (p : Ptr) (w : World σ T) : World σ T :=
  { w with alloc := A.deallocate a p w.alloc, trace := w.trace ++ [Event.deallocate p] }

/-- `NodeTraits::construct(nodeAlloc_, &p->value, value)`: the first component is
`false` when the copy constructor of `T` throws, and then no value is stored. -/
def constructCopy (E : ElemModel T) (p : Ptr) (value : T) (w : World σ T) :
    Bool × World σ T :=
  if E.copyThrows w.ctors value then
    (false, { w with ctors := w.ctors + 1 })
  else
    (true, { w with heap := w.heap.setValue p (some value), ctors := w.ctors + 1,
                    trace := w.trace ++ [Event.construct p] })

/-- `NodeTraits::destroy(nodeAlloc_, &p->value)`. -/
def destroyValue (p : Ptr) (w : World σ T) : World σ T :=
  { w with heap := w.heap.setValue p none, trace := w.trace ++ [Event.destroy p] }

/-- `List::size()`. -/
def size (l : ListObj H) : Nat := l.sz

/-- `List::begin()`: `iterator(fakeNode_.next)`. -/
def begin (l : ListObj H) (w : World σ T) : Ptr := w.heap.next l.fakeNode

/-- `List::end()` on a non-const list: `iterator(&fakeNode_)`. -/
def end_ (l : ListObj H) : Ptr := l.fakeNode

/-- `List::cbegin()`. -/
def cbegin (l : ListObj H) (w : World σ T) : Ptr := w.heap.next l.fakeNode

/-- `List::cend()` (and `end()` on a const list): `const_iterator(fakeNode_.next->prev)`. -/
def cend (l : ListObj H) (w : World σ T) : Ptr := w.heap.prev (w.heap.next l.fakeNode)

/-- `List::insert(it, value)`. -/
def insert (A : AllocModel H σ) (E : ElemModel T) (l : ListObj H) (w : World σ T)
    (it : Ptr) (value : T) : Outcome (ListObj H × World σ T) :=
  match nodeAllocate A l.nodeAlloc w with
  | (none, w1) => Outcome.thrown (l, w1)
  | (some new_node, w1) =>
    match constructCopy E new_node value w1 with
    | (false, w2) => Outcome.thrown (l, nodeDeallocate A l.nodeAlloc new_node w2)
    | (true, w2) =>
      let h0 := w2.heap
      let h1 := h0.setNext (h0.prev it) new_node
      let h2 := h1.setPrev new_node (h1.prev it)
      let h3 := h2.setPrev it new_node
      let h4 := h3.setNext new_node it
      Outcome.ok ({ l with sz := incr l.sz }, { w2 with heap := h4 })

/-- `List::erase(it)`. -/
def erase (A : AllocModel H σ) (l : ListObj H) (w : World σ T) (it : Ptr) :
    ListObj H × World σ T :=
  let h0 := w.heap
  let h1 := h0.setNext (h0.prev it) (h0.next it)
  let h2 := h1.setPrev (h1.next it) (h1.prev it)
  let w1 := destroyValue it { w with heap := h2 }
  let w2 := nodeDeallocate A l.nodeAlloc it w1
  ({ l with sz := decr l.sz }, w2)

/-- `List::push_back(value)`. -/
def push_back (A : AllocModel H σ) (E : ElemModel T) (l : ListObj H) (w : World σ T)
    (value : T) : Outcome (ListObj H × World σ T) :=
  insert A E l w (end_ l) value

/-- `List::push_front(value)`. -/
def push_front (A : AllocModel H σ) (E : ElemModel T) (l : ListObj H) (w : World σ T)
    (value : T) : Outcome (ListObj H × World σ T) :=
  insert A E l w (begin l w) value

/-- `List::pop_back()`: `erase(--end())`. -/
def pop_back (A : AllocModel H σ) (l : ListObj H) (w : World σ T) : ListObj H × World σ T :=
  erase A l w (w.heap.prev (end_ l))

/-- `List::pop_front()`: `erase(begin())`. -/
def pop_front (A : AllocModel H σ) (l : ListObj H) (w : World σ T) : ListObj H × World σ T :=
  erase A l w (begin l w)

/-- `List(const Alloc& alloc)` for the object whose `fakeNode_` is at `fake`. -/
def mkEmpty (fake : Ptr) (alloc : H) (w : World σ T) : ListObj H × World σ T :=
  ({ fakeNode := fake, sz := 0, nodeAlloc := alloc },
   { w with heap := (w.heap.setPrev fake fake).setNext fake fake })

/-- `List()` for the object whose `fakeNode_` is at `fake`. -/
def mkDefault (A : AllocModel H σ) (fake : Ptr) (w : World σ T) : ListObj H × World σ T :=
  mkEmpty fake A.defaultAlloc w

/-- The loop `while (sz_ > 0) erase(begin());` of the destructor, run for at most
`fuel` iterations. -/
def eraseWhile (A : AllocModel H σ) : Nat → ListObj H → World σ T → ListObj H × World σ T
  | 0, l, w => (l, w)
  | fuel + 1, l, w =>
    if 0 < l.sz then
      let r := erase A l w (begin l w)
      eraseWhile A fuel r.1 r.2
    else (l, w)

/-- `List::~List()`.  Every iteration of the loop takes one from `sz_`, so `sz_`
iterations are all the loop can make. -/
def destructor (A : AllocModel H σ) (l : ListObj H) (w : World σ T) : World σ T :=
  (eraseWhile A l.sz l w).2

/-- The loop `for (auto& el : other) push_back(el);` of the copy constructors, from the
iterator `it` up to the iterator `last` (the value of `other.end()`, taken once before
the loop), for at most `fuel` iterations. -/
def copyLoop (A : AllocModel H σ) (E : ElemModel T) :
    Nat → Ptr → Ptr → ListObj H → World σ T → Outcome (ListObj H × World σ T)
  | 0, it, last, l, w => if it = last then Outcome.ok (l, w) else Outcome.outOfFuel
  | fuel + 1, it, last, l, w =>
    if it = last then Outcome.ok (l, w)
    else
      match w.heap.value it with
      | none => Outcome.undefined
      | some el =>
        match push_back A E l w el with
        | Outcome.ok (l1, w1) => copyLoop A E fuel (w1.heap.next it) last l1 w1
        | r => r

/-- What a constructor that delegated to `List(alloc)` or `List()` does when its body
throws: the object counts as constructed, so its destructor runs before the exception
leaves. -/
def unwind (A : AllocModel H σ) (r : Outcome (ListObj H × World σ T)) :
    Outcome (ListObj H × World σ T) :=
  match r with
  | Outcome.thrown (l, w) => Outcome.thrown (l, destructor A l w)
  | r => r

/-- `List(const List& other, const Alloc& alloc)` for the object whose `fakeNode_` is at
`fake`. -/
def copyConstructAlloc (A : AllocModel H σ) (E : ElemModel T) (fuel : Nat) (fake : Ptr)
    (other : ListObj H) (alloc : H) (w : World σ T) : Outcome (ListObj H × World σ T) :=
  let r := mkEmpty fake alloc w
  unwind A (copyLoop A E fuel (cbegin other r.2) (cend other r.2) r.1 r.2)

/-- `List(const List& other)` for the object whose `fakeNode_` is at `fake`. -/
def copyConstruct (A : AllocModel H σ) (E : ElemModel T) (fuel : Nat) (fake : Ptr)
    (other : ListObj H) (w : World σ T) : Outcome (ListObj H × World σ T) :=
  let r := mkDefault A fake w
  let l := { r.1 with nodeAlloc := A.select_on_container_copy_construction other.nodeAlloc }
  unwind A (copyLoop A E fuel (cbegin other r.2) (cend other r.2) l r.2)

/-- `List::operator=(const List& other)`; `tmp` is the address of the `fakeNode_` of the
local `new_list`.  The result is the assigned-to list and the world after `new_list` has
been destroyed. -/
def assign (A : AllocModel H σ) (E : ElemModel T) (fuel : Nat) (tmp : Ptr)
    (self other : ListObj H) (w : World σ T) : Outcome (ListObj H × World σ T) :=
  let new_alloc :=
    if A.propagate_on_container_copy_assignment then other.nodeAlloc else self.nodeAlloc
  match copyConstructAlloc A E fuel tmp other new_alloc w with
  | Outcome.ok (new_list, w1) =>
    let h0 := w1.heap
    -- std::swap(fakeNode_.next, new_list.fakeNode_.next);
    let h1 := (h0.setNext self.fakeNode (h0.next new_list.fakeNode)).setNext
                new_list.fakeNode (h0.next self.fakeNode)
    -- std::swap(fakeNode_.prev, new_list.fakeNode_.prev);
    let h2 := (h1.setPrev self.fakeNode (h1.prev new_list.fakeNode)).setPrev
                new_list.fakeNode (h1.prev self.fakeNode)
    let h3 := h2.setNext (h2.prev self.fakeNode) self.fakeNode
    let h4 := h3.setPrev (h3.next self.fakeNode) self.fakeNode
    let h5 := h4.setNext (h4.prev new_list.fakeNode) new_list.fakeNode
    let h6 := h5.setPrev (h5.next new_list.fakeNode) new_list.fakeNode
    let self1 : ListObj H := { self with sz := new_list.sz, nodeAlloc := new_list.nodeAlloc }
    let new_list1 : ListObj H := { new_list with sz := self.sz, nodeAlloc := self.nodeAlloc }
    Outcome.ok (self1, destructor A new_list1 { w1 with heap := h6 })
  | Outcome.thrown (_, w1) => Outcome.thrown (self, w1)
  | Outcome.outOfFuel => Outcome.outOfFuel
  | Outcome.undefined => Outcome.undefined

end Operations

/-! ## The allocators -/

/-- `StackAllocator<Node, N>` as the node allocator of a list: the allocator object is
the pointer `stack_storage_`, the resource state gives the arena object at each address.
`allocate(1)` forwards `(1, alignof(Node), sizeof(Node))` to the arena and returns what
the arena returns (a null pointer included: nothing is thrown); `deallocate` does
nothing.  `StackAllocator` declares neither `propagate_on_container_copy_assignment` nor
`select_on_container_copy_construction`, so `std::allocator_traits` supplies `false` and
a plain copy.  `dflt` is the indeterminate pointer of a default-constructed allocator. -/
def stackAllocator (N nodeSize nodeAlign : Nat) (dflt : Ptr) :
    AllocModel Ptr (Ptr → StackStorage N) where
  allocate := fun stack_storage s =>
    let r := (s stack_storage).allocate 1 nodeAlign nodeSize
    (some r.1, fun x => if x = stack_storage then r.2 else s x)
  deallocate := fun _ _ s => s
  propagate_on_container_copy_assignment := false
  select_on_container_copy_construction := fun a => a
  defaultAlloc := dflt

/-- A conforming allocator in the manner of `std::allocator` (the default `Alloc` of
`List`), used to run the list on concrete inputs: the state is the next unused address,
`allocate` returns it, or throws when the address space is used up; `deallocate` keeps
the memory. -/
def countingAllocator : AllocModel Unit Nat where
  allocate := fun _ s => if 0 < s ∧ s < SIZE_RANGE then (some s, s + 1) else (none, s)
  deallocate := fun _ _ s => s
  propagate_on_container_copy_assignment := false
  select_on_container_copy_construction := fun a => a
  defaultAlloc := ()

/-- An element type whose constructors never throw. -/
def plainElem (T : Type) (d : T) : ElemModel T where
  copyThrows := fun _ _ => false
  defaultThrows := fun _ => false
  defaultValue := d

/-- An element type whose copy constructor throws on the construction numbered `n`. -/
def throwingElem (T : Type) (d : T) (n : Nat) : ElemModel T where
  copyThrows := fun k _ => decide (k = n)
  defaultThrows := fun k => decide (k = n)
  defaultValue := d

/-- A world with an empty heap and trace. -/
def World.init {σ : Type} (T : Type) (s : σ) : World σ T :=
  { heap := Heap.empty T, alloc := s, ctors := 0, trace := [] }

/-- The state in which a call has left the program (`d` when there is none). -/
def Outcome.stateD {S : Type} (d : S) : Outcome S → S
  | Outcome.ok s => s
  | Outcome.thrown s => s
  | Outcome.outOfFuel => d
  | Outcome.undefined => d

/-- A concrete scenario: a default-constructed `List<Nat>` whose `fakeNode_` is at
address `fake`, in the world `w`, after `push_back` of the values `vals` in turn. -/
def demoList (fake : Ptr) (vals : List Nat) (w : World Nat Nat) :
    ListObj Unit × World Nat Nat :=
  vals.foldl
    (fun r v => (push_back countingAllocator (plainElem Nat 0) r.1 r.2 v).stateD r)
    (mkDefault countingAllocator fake w)

/-- A concrete scenario: an empty world whose allocator hands out addresses from
`4096` on. -/
def demoWorld : World Nat Nat := World.init Nat 4096

/-- A concrete scenario: an empty world in which every `StackStorage<16>` object is
fresh, with its buffer at address `4096`. -/
def demoArenaWorld : World (Ptr → StackStorage 16) Nat :=
  World.init Nat (fun _ => StackStorage.fresh 16 4096)

/-! ## Well-formed rings -/

section Predicates

variable {H σ T : Type}

/-- The nodes `u` and `v` are neighbours: `u->next == v` and `v->prev == u`. -/
def Link (h : Heap T) (u v : Ptr) : Prop := h.next u = v ∧ h.prev v = u

instance instDecidableLink (h : Heap T) : DecidableRel (Link h) :=
  fun u v => inferInstanceAs (Decidable (h.next u = v ∧ h.prev v = u))

/-- Every two consecutive addresses of the list are neighbours. -/
def Path (h : Heap T) : List Ptr → Prop
  | [] => True
  | [_] => True
  | u :: v :: rest => Link h u v ∧ Path h (v :: rest)

/-- Whether `Path h l` holds can be computed. -/
def Path.decide (h : Heap T) : (l : List Ptr) → Decidable (Path h l)
  | [] => isTrue trivial
  | [_] => isTrue trivial
  | u :: v :: rest =>
    @instDecidableAnd (Link h u v) (Path h (v :: rest)) (instDecidableLink h u v)
      (Path.decide h (v :: rest))

instance instDecidablePath (h : Heap T) (l : List Ptr) : Decidable (Path h l) :=
  Path.decide h l

/-- The sentinel at `fake` and the nodes `ps`, in this order, form a ring: following
`next` from the sentinel visits `ps` and comes back to the sentinel, `prev` is the
inverse, the addresses are pairwise distinct, non-null and fit in a pointer. -/
structure Ring (h : Heap T) (fake : Ptr) (ps : List Ptr) : Prop where
  path : Path h (fake :: ps ++ [fake])
  nodup : (fake :: ps).Nodup
  range : ∀ p ∈ fake :: ps, 0 < p ∧ p < SIZE_RANGE

/-- The list object `l` is well formed in the heap `h`, with nodes `ps` (front to back)
holding the element values `xs`. -/
structure WellFormed (l : ListObj H) (h : Heap T) (ps : List Ptr) (xs : List T) : Prop where
  ring : Ring h l.fakeNode ps
  size : l.sz = ps.length
  values : ps.map h.value = xs.map some

/-- The last address of `a :: l`. -/
def lastOr (a : Ptr) : List Ptr → Ptr
  | [] => a
  | b :: l => lastOr b l

/-- The first address of `l ++ [b]`. -/
def firstOr (b : Ptr) : List Ptr → Ptr
  | [] => b
  | x :: _ => x

/-- The nodes met by following `next` from `cur` until the sentinel `fake` is reached;
`none` when it is not reached within `fuel` steps. -/
def walk (h : Heap T) (fake : Ptr) : Nat → Ptr → Option (List Ptr)
  | 0, cur => if cur = fake then some [] else none
  | fuel + 1, cur =>
    if cur = fake then some []
    else (walk h fake fuel (h.next cur)).map (fun r => cur :: r)

/-- The contract of a conforming allocator, relative to a description `avail` of the
addresses the resource may still hand out: `allocate` returns a non-null address that was
available and no longer is, and only `deallocate` of an address makes it available
again. -/
structure AllocContract (A : AllocModel H σ) (avail : σ → Ptr → Prop) : Prop where
  allocate_fresh : ∀ a s p s1, A.allocate a s = (some p, s1) →
    avail s p ∧ 0 < p ∧ p < SIZE_RANGE ∧ ∀ q, avail s1 q → avail s q ∧ q ≠ p
  allocate_throw : ∀ a s s1, A.allocate a s = (none, s1) → ∀ q, avail s1 q → avail s q
  deallocate_frees : ∀ a s p q, avail (A.deallocate a p s) q → avail s q ∨ q = p

/-- The next `n` calls of `allocate` through the allocator object `a` all return a
pointer. -/
def AllocSucceeds (A : AllocModel H σ) (a : H) : Nat → σ → Prop
  | 0, _ => True
  | n + 1, s => (A.allocate a s).1 ≠ none ∧ AllocSucceeds A a n (A.allocate a s).2

/-- The memory of the list (its sentinel and its nodes `ps`) is not available to the
allocator. -/
def Owned (avail : σ → Ptr → Prop) (l : ListObj H) (w : World σ T) (ps : List Ptr) : Prop :=
  ∀ q ∈ l.fakeNode :: ps, ¬ avail w.alloc q

/-- The heap `h1` has, at every address of `qs`, the links and the value that `h` has
there. -/
def SameOn (h1 h : Heap T) (qs : List Ptr) : Prop :=
  ∀ q ∈ qs, h1.next q = h.next q ∧ h1.prev q = h.prev q ∧ h1.value q = h.value q

/-- The iterator `it` of the list `l` is valid: it is reached from `end()` by following
`next` links. -/
def IsPosition (l : ListObj H) (w : World σ T) (it : Ptr) : Prop :=
  Relation.ReflTransGen (fun a b => w.heap.next a = b) l.fakeNode it

/-- The list objects (with their worlds) obtained from the list object `l0` in the world
`w0` by a finite sequence of calls on that list: `insert` at a valid position (returning
normally or by an exception), `erase` at a valid position other than `end()`,
`push_back`, `push_front`, and `pop_back`, `pop_front` on a list whose size is not
zero. -/
inductive ReachableFrom (A : AllocModel H σ) (E : ElemModel T) (l0 : ListObj H)
    (w0 : World σ T) : ListObj H → World σ T → Prop where
  | start : ReachableFrom A E l0 w0 l0 w0
  | insert {l l1 : ListObj H} {w w1 : World σ T} {it : Ptr} {v : T} :
      ReachableFrom A E l0 w0 l w → IsPosition l w it →
      insert A E l w it v = Outcome.ok (l1, w1) → ReachableFrom A E l0 w0 l1 w1
  | insert_thrown {l l1 : ListObj H} {w w1 : World σ T} {it : Ptr} {v : T} :
      ReachableFrom A E l0 w0 l w → IsPosition l w it →
      insert A E l w it v = Outcome.thrown (l1, w1) → ReachableFrom A E l0 w0 l1 w1
  | erase {l : ListObj H} {w : World σ T} {it : Ptr} :
      ReachableFrom A E l0 w0 l w → IsPosition l w it → it ≠ end_ l →
      ReachableFrom A E l0 w0 (erase A l w it).1 (erase A l w it).2
  | push_back {l l1 : ListObj H} {w w1 : World σ T} {v : T} :
      ReachableFrom A E l0 w0 l w →
      push_back A E l w v = Outcome.ok (l1, w1) → ReachableFrom A E l0 w0 l1 w1
  | push_front {l l1 : ListObj H} {w w1 : World σ T} {v : T} :
      ReachableFrom A E l0 w0 l w →
      push_front A E l w v = Outcome.ok (l1, w1) → ReachableFrom A E l0 w0 l1 w1
  | pop_back {l : ListObj H} {w : World σ T} :
      ReachableFrom A E l0 w0 l w → 0 < size l →
      ReachableFrom A E l0 w0 (pop_back A l w).1 (pop_back A l w).2
  | pop_front {l : ListObj H} {w : World σ T} :
      ReachableFrom A E l0 w0 l w → 0 < size l →
      ReachableFrom A E l0 w0 (pop_front A l w).1 (pop_front A l w).2

/-- The list objects obtained by such a sequence of calls from the empty list that
`List(alloc)` builds at the address `fake` in the world `w0`. -/
def Reachable (A : AllocModel H σ) (E : ElemModel T) (fake : Ptr) (alloc : H)
    (w0 : World σ T) (l : ListObj H) (w : World σ T) : Prop :=
  ReachableFrom A E (mkEmpty fake alloc w0).1 (mkEmpty fake alloc w0).2 l w

/-- What a copy construction at the address `fake` from the source list `other` (nodes
`qs`, values `ys`, in the world `w`) has to achieve with its outcome `r`: it returns
normally with a list `l1`; `l1` is well formed and holds the values `ys`, in their
order, in nodes `ps`; its size is the size of the source; the source is still well
formed with the same nodes and values, its memory being untouched; no node or sentinel
is shared; and whatever sequence of `insert`, `erase`, `push_*` and `pop_*` is then
called on `l1`, the links and values of the source stay as they were. -/
def CopyResult (A : AllocModel H σ) (E : ElemModel T) (w : World σ T) (other : ListObj H)
    (qs : List Ptr) (ys : List T) (fake : Ptr) (r : Outcome (ListObj H × World σ T)) : Prop :=
  ∃ l1 w1 ps, r = Outcome.ok (l1, w1) ∧ l1.fakeNode = fake ∧
    WellFormed l1 w1.heap ps ys ∧ size l1 = size other ∧
    WellFormed other w1.heap qs ys ∧
    SameOn w1.heap w.heap (other.fakeNode :: qs) ∧
    (∀ q ∈ other.fakeNode :: qs, q ∉ l1.fakeNode :: ps) ∧
    (∀ l2 w2, ReachableFrom A E l1 w1 l2 w2 →
      SameOn w2.heap w.heap (other.fakeNode :: qs) ∧ WellFormed other w2.heap qs ys)

end Predicates

/-! ## The sized constructors, the iterators and the calls on an arena -/

section Constructors

variable {H σ T : Type}

/-- `NodeTraits::construct(nodeAlloc_, &p->value)`: the first component is `false` when
the default constructor of `T` throws, and then no value is stored. -/
def constructDefault (E : ElemModel T) (p : Ptr) (w : World σ T) : Bool × World σ T :=
  if E.defaultThrows w.ctors then
    (false, { w with ctors := w.ctors + 1 })
  else
    (true, { w with heap := w.heap.setValue p (some E.defaultValue), ctors := w.ctors + 1,
                    trace := w.trace ++ [Event.construct p] })

/-- The four assignments with which the sized constructors link `new_node` at the back:
`new_node->next = &fakeNode_; new_node->prev = fakeNode_.prev;
fakeNode_.prev->next = new_node; fakeNode_.prev = new_node;`. -/
def linkBack (h : Heap T) (fake new_node : Ptr) : Heap T :=
  let h1 := h.setNext new_node fake
  let h2 := h1.setPrev new_node (h1.prev fake)
  let h3 := h2.setNext (h2.prev fake) new_node
  h3.setPrev fake new_node

/-- The `try` block of `List(sz)`, `List(sz, value)` and `List(sz, value, alloc)`: the
loop `for (i = 0; i < sz; ++i)` with `n` iterations left; `construct` is the call of
`NodeTraits::construct` of the constructor at hand.  The state carries the local
`last_node` along with the list and the world. -/
def sizedLoop (A : AllocModel H σ) (construct : Ptr → World σ T → Bool × World σ T) :
    Nat → Ptr → ListObj H → World σ T → Outcome (Ptr × ListObj H × World σ T)
  | 0, last_node, l, w => Outcome.ok (last_node, l, w)
  | n + 1, last_node, l, w =>
    match nodeAllocate A l.nodeAlloc w with
    | (none, w1) => Outcome.thrown (last_node, l, w1)
    | (some new_node, w1) =>
      match construct new_node w1 with
      | (false, w2) => Outcome.thrown (new_node, l, w2)
      | (true, w2) =>
        sizedLoop A construct n new_node { l with sz := incr l.sz }
          { w2 with heap := linkBack w2.heap l.fakeNode new_node }

/-- The `catch (...)` block of those constructors:
`deallocate(last_node); while (sz_ > 0) erase(begin()); throw;`. -/
def sizedCatch (A : AllocModel H σ) (r : Outcome (Ptr × ListObj H × World σ T)) :
    Outcome (ListObj H × World σ T) :=
  match r with
  | Outcome.ok (_, l, w) => Outcome.ok (l, w)
  | Outcome.thrown (last_node, l, w) =>
    let w1 := nodeDeallocate A l.nodeAlloc last_node w
    Outcome.thrown (eraseWhile A l.sz l w1)
  | Outcome.outOfFuel => Outcome.outOfFuel
  | Outcome.undefined => Outcome.undefined

/-- `List(size_t sz)` for the object whose `fakeNode_` is at `fake`; `garbage` is the
indeterminate value of the uninitialised local `last_node`. -/
def sizedDefault (A : AllocModel H σ) (E : ElemModel T) (fake garbage : Ptr) (sz : Nat)
    (w : World σ T) : Outcome (ListObj H × World σ T) :=
  let r := mkDefault A fake w
  unwind A (sizedCatch A (sizedLoop A (constructDefault E) sz garbage r.1 r.2))

/-- `List(size_t sz, const T& value)` for the object whose `fakeNode_` is at `fake`. -/
def sizedValue (A : AllocModel H σ) (E : ElemModel T) (fake garbage : Ptr) (sz : Nat)
    (value : T) (w : World σ T) : Outcome (ListObj H × World σ T) :=
  let r := mkDefault A fake w
  unwind A (sizedCatch A
    (sizedLoop A (fun p w1 => constructCopy E p value w1) sz garbage r.1 r.2))

/-- `List(size_t sz, const T& value, Alloc alloc)` for the object whose `fakeNode_` is at
`fake`. -/
def sizedValueAlloc (A : AllocModel H σ) (E : ElemModel T) (fake garbage : Ptr) (sz : Nat)
    (value : T) (alloc : H) (w : World σ T) : Outcome (ListObj H × World σ T) :=
  let r := mkEmpty fake alloc w
  unwind A (sizedCatch A
    (sizedLoop A (fun p w1 => constructCopy E p value w1) sz garbage r.1 r.2))

/-- The loop of `List(size_t sz, Alloc& alloc)`, with `n` iterations left: no `try`
block, and `sz_` is not touched. -/
def sizedAllocLoop (A : AllocModel H σ) (E : ElemModel T) :
    Nat → ListObj H → World σ T → Outcome (ListObj H × World σ T)
  | 0, l, w => Outcome.ok (l, w)
  | n + 1, l, w =>
    match nodeAllocate A l.nodeAlloc w with
    | (none, w1) => Outcome.thrown (l, w1)
    | (some new_node, w1) =>
      match constructDefault E new_node w1 with
      | (false, w2) => Outcome.thrown (l, w2)
      | (true, w2) =>
        sizedAllocLoop A E n l { w2 with heap := linkBack w2.heap l.fakeNode new_node }

/-- `List(size_t sz, Alloc& alloc)` for the object whose `fakeNode_` is at `fake`:
`sz_ = sz;` and then the loop. -/
def sizedAlloc (A : AllocModel H σ) (E : ElemModel T) (fake : Ptr) (sz : Nat) (alloc : H)
    (w : World σ T) : Outcome (ListObj H × World σ T) :=
  let r := mkEmpty fake alloc w
  unwind A (sizedAllocLoop A E sz { r.1 with sz := sz } r.2)

/-- `BasicIterator::operator++`: `ptr_ = ptr_->next`. -/
def increment (w : World σ T) (it : Ptr) : Ptr := w.heap.next it

/-- `BasicIterator::operator--`: `ptr_ = ptr_->prev`. -/
def decrement (w : World σ T) (it : Ptr) : Ptr := w.heap.prev it

/-- `BasicIterator::operator*`: the value of the node the iterator designates (`none`
where no value is alive). -/
def deref (w : World σ T) (it : Ptr) : Option T := w.heap.value it

/-- The iteration `for (it = begin(); it != end(); ++it)` over a list, collecting `*it`,
for at most `fuel` steps. -/
def elements (l : ListObj H) (w : World σ T) (fuel : Nat) : Option (List (Option T)) :=
  (walk w.heap (end_ l) fuel (begin l w)).map (fun ps => ps.map (deref w))

/-- An allocator as `countingAllocator`, except that it throws once its counter has
reached `limit`. -/
def boundedAllocator (limit : Nat) : AllocModel Unit Nat where
  allocate := fun _ s =>
    if 0 < s ∧ s < limit ∧ s < SIZE_RANGE then (some s, s + 1) else (none, s)
  deallocate := fun _ _ s => s
  propagate_on_container_copy_assignment := false
  select_on_container_copy_construction := fun a => a
  defaultAlloc := ()

/-- `StackAllocator(StackStorage<N>& storage)`: `stack_storage_(&storage)`. -/
def StackAllocator.bind (storage : Ptr) : Ptr := storage

/-- The converting constructor `StackAllocator(const StackAllocator<U, N>& other)`, by
which `rebind<U>::other` objects are made: `stack_storage_(other.stack_storage_)`. -/
def StackAllocator.convert (other : Ptr) : Ptr := other

/-- A call made on an arena through some `StackAllocator<T, N>` bound to it:
`allocate(count, a)` with `size_of_T = sizeof(T)`, or `deallocate(p, count)`. -/
inductive ArenaCall where
  | allocate (size_of_T count a : Nat)
  | deallocate (p : Ptr) (count : Nat)
deriving DecidableEq, Repr

/-- The arena after a call: `StackAllocator::allocate` forwards to
`StackStorage::allocate`, `StackAllocator::deallocate` has an empty body. -/
def ArenaCall.run {N : Nat} (c : ArenaCall) (s : StackStorage N) : StackStorage N :=
  match c with
  | ArenaCall.allocate size_of_T count a => (s.allocate count a size_of_T).2
  | ArenaCall.deallocate _ _ => s

/-- The arena after a sequence of calls. -/
def runCalls {N : Nat} (cs : List ArenaCall) (s : StackStorage N) : StackStorage N :=
  cs.foldl (fun s1 c => c.run s1) s

/-- The alignment of a call is a power of two (`deallocate` has none). -/
def ArenaCall.Aligned : ArenaCall → Prop
  | ArenaCall.allocate _ _ a => ∃ k, a = 2 ^ k
  | ArenaCall.deallocate _ _ => True

/-- The pointers returned by `n` successive calls `allocate(alloc, 1)` through the
allocator object `a` (`none` for a call that throws), and the resource afterwards. -/
def allocateTimes (A : AllocModel H σ) (a : H) : Nat → σ → List (Option Ptr) × σ
  | 0, s => ([], s)
  | n + 1, s =>
    let r := A.allocate a s
    let rest := allocateTimes A a n r.2
    (r.1 :: rest.1, rest.2)

/-- The regions `[p, p + size)` of a list of (pointer, size) pairs lie one after the
other in the order of the list, without overlap. -/
def DisjointInOrder : List (Nat × Nat) → Prop
  | [] => True
  | r :: rest => (∀ q ∈ rest, r.1 + r.2 ≤ q.1) ∧ DisjointInOrder rest

/-- The events of destroying and releasing the nodes `ps` one after the other, as the
destructor loop does: `destroy p, deallocate p` for each. -/
def releaseEvents : List Ptr → List Event
  | [] => []
  | p :: ps => Event.destroy p :: Event.deallocate p :: releaseEvents ps

/-- The events of allocating and constructing the nodes `ps` one after the other:
`allocate p, construct p` for each. -/
def buildEvents : List Ptr → List Event
  | [] => []
  | p :: ps => Event.allocate p :: Event.construct p :: buildEvents ps

/-- What a sized constructor has to achieve with its outcome `r`, for the size `sz` and
the element value `v`: it returns normally with a well-formed list of `sz` nodes that
all hold `v`; the size counter is `sz` and is the number of nodes met by following `next`
from `begin()` to the sentinel. -/
def SizedResult (sz : Nat) (v : T) (fake : Ptr) (r : Outcome (ListObj H × World σ T)) : Prop :=
  ∃ l1 w1 ps, r = Outcome.ok (l1, w1) ∧ l1.fakeNode = fake ∧
    WellFormed l1 w1.heap ps (List.replicate sz v) ∧ size l1 = sz ∧
    walk w1.heap l1.fakeNode (size l1) (begin l1 w1) = some ps ∧ ps.length = sz

/-- The shared-arena scenario: a `StackAllocator` for nodes of 24 bytes aligned to 8 is
bound to the arena at `h`, and ten one-node allocations are made through it; it is then
converted to a `StackAllocator` for nodes of 32 bytes aligned to `a2`, through which five
one-node allocations are made.  The result is the pointers of the first ten calls, those
of the last five, and the arenas afterwards. -/
def sharedArenaRun (a2 : Nat) (h d1 d2 : Ptr) (s : Ptr → StackStorage 1024) :
    List (Option Ptr) × List (Option Ptr) × (Ptr → StackStorage 1024) :=
  let r1 := allocateTimes (stackAllocator 1024 24 8 d1) (StackAllocator.bind h) 10 s
  let r2 := allocateTimes (stackAllocator 1024 32 a2 d2)
    (StackAllocator.convert (StackAllocator.bind h)) 5 r1.2
  (r1.1, r2.1, r2.2)

/-- A resource state for concrete runs of the shared-arena scenario: at every address a
default-constructed arena of 1024 bytes whose buffer starts at address 4096. -/
def demoArenas : Ptr → StackStorage 1024 := fun _ => StackStorage.fresh 1024 4096

/-- What a sized constructor with a `try` block does, with outcome `r` from the world
`w`, when `allocate` throws for the element number `i`: the exception leaves the
constructor, and the events `evs` are the building of the `i` nodes `ps` (pairwise
distinct), then the `deallocate(last_node)` of the `catch` block, then the destruction
and release of each node of `ps`.  `last_node` is the last node of `ps`, or the
indeterminate `garbage` when there is none: when `0 < i` the last node, allocated once,
is released twice, and when `i = 0` the only event is the release of `garbage`. -/
def AllocFailureCleanup (i : Nat) (garbage : Ptr) (w : World σ T)
    (r : Outcome (ListObj H × World σ T)) : Prop :=
  ∃ l1 w1 ps evs, r = Outcome.thrown (l1, w1) ∧ ps.length = i ∧ ps.Nodup ∧
    w1.trace = w.trace ++ evs ∧
    evs = buildEvents ps ++ Event.deallocate (lastOr garbage ps) :: releaseEvents ps ∧
    (0 < i → lastOr garbage ps ∈ ps ∧
      evs.count (Event.allocate (lastOr garbage ps)) = 1 ∧
      evs.count (Event.deallocate (lastOr garbage ps)) = 2) ∧
    (i = 0 → evs = [Event.deallocate garbage])

/-- What `List(sz, alloc)` does, from the world `w`, when the default construction of
the element number `i` throws: `body` is the outcome of the constructor body and `r` that
of the constructor.  The body ends by the exception with `sz_` equal to `sz` while only
the `i` nodes `ps` are linked; the destructor then runs with that `sz_`.  The events
`evs` are the building of `ps`, the allocation of the node `pf` whose construction
throws, the destruction and release of each node of `ps`, and then `sz - i` times the
destruction and release of the sentinel `fake`.  The node `pf` is never released, and the
sentinel, which was never allocated, is released. -/
def DefaultFailureUnwind (sz i : Nat) (fake : Ptr) (w : World σ T)
    (body r : Outcome (ListObj H × World σ T)) : Prop :=
  ∃ l0 w0 w1 ps pf evs, body = Outcome.thrown (l0, w0) ∧ size l0 = sz ∧
    Ring w0.heap fake ps ∧ ps.length = i ∧ pf ∉ fake :: ps ∧
    r = Outcome.thrown (l0, w1) ∧ w1.trace = w.trace ++ evs ∧
    evs = buildEvents ps ++ Event.allocate pf ::
      (releaseEvents ps ++ releaseEvents (List.replicate (sz - i) fake)) ∧
    Event.allocate pf ∈ evs ∧ Event.deallocate pf ∉ evs ∧
    Event.allocate fake ∉ evs ∧ evs.count (Event.deallocate fake) = sz - i

/-- The heap read backwards: `next` and `prev` exchanged. -/
def Heap.flip (h : Heap T) : Heap T :=
  { prev := h.next, next := h.prev, value := h.value }

/-- The end-to-end scenario: `push_back` of 1, 2, 3, 4, 5 on an empty list, then
`pop_front()` twice, then `push_back(6)`. -/
def scenario : ListObj Unit × World Nat Nat :=
  let r5 := demoList 16 [1, 2, 3, 4, 5] demoWorld
  let r4 := pop_front countingAllocator r5.1 r5.2
  let r3 := pop_front countingAllocator r4.1 r4.2
  (push_back countingAllocator (plainElem Nat 0) r3.1 r3.2 6).stateD r3

end Constructors

/-! ## Auxiliary facts -/

section Lemmas

variable {H σ T : Type}

theorem incr_eq {n : Nat} (h : n + 1 < SIZE_RANGE) : incr n = n + 1 := by
  unfold incr; exact Nat.mod_eq_of_lt h

theorem decr_eq {n : Nat} (h0 : 0 < n) : decr n = n - 1 := by
  unfold decr
  rw [if_neg (by omega)]

/-- The decrement on `size_t`, as arithmetic modulo the range of `size_t`. -/
theorem decr_eq_mod {n : Nat} (h : n < SIZE_RANGE) :
    decr n = (n + (SIZE_RANGE - 1)) % SIZE_RANGE := by
  unfold decr SIZE_RANGE at *
  split <;> omega

/-- Pairwise distinct addresses below a bound are at most as many as the bound. -/
theorem length_le_of_nodup_lt {l : List Nat} {n : Nat} (hd : l.Nodup)
    (hb : ∀ x ∈ l, x < n) : l.length ≤ n := by
  have h1 : l.toFinset ⊆ Finset.range n := by
    intro x hx
    exact Finset.mem_range.mpr (hb x (List.mem_toFinset.mp hx))
  have h2 := Finset.card_le_card h1
  rw [List.toFinset_card_of_nodup hd, Finset.card_range] at h2
  exact h2

/-- Pairwise distinct non-null addresses are fewer than there are pointer values. -/
theorem length_lt_of_nodup_range {l : List Nat} (hd : l.Nodup)
    (hb : ∀ x ∈ l, 0 < x ∧ x < SIZE_RANGE) : l.length < SIZE_RANGE := by
  have h0 : (0 :: l).Nodup := by
    refine List.nodup_cons.mpr ⟨fun hm => ?_, hd⟩
    exact absurd (hb 0 hm).1 (lt_irrefl 0)
  have h1 : ∀ x ∈ 0 :: l, x < SIZE_RANGE := by
    intro x hx
    rcases List.mem_cons.mp hx with rfl | hx
    · unfold SIZE_RANGE; norm_num
    · exact (hb x hx).2
  have := length_le_of_nodup_lt h0 h1
  simpa using this

theorem path_iff {h : Heap T} : ∀ (l : List Ptr), Path h l ↔ List.Chain' (Link h) l
  | [] => by simp [Path]
  | [_] => by simp [Path]
  | u :: v :: rest => by
    rw [List.chain'_cons, ← path_iff (v :: rest)]
    rfl

theorem path_frame {h h1 : Heap T} : ∀ (l : List Ptr), Path h l →
    (∀ u ∈ l.dropLast, h1.next u = h.next u) →
    (∀ v ∈ l.tail, h1.prev v = h.prev v) → Path h1 l
  | [], _, _, _ => trivial
  | [_], _, _, _ => trivial
  | u :: v :: rest, hp, hn, hv => by
    obtain ⟨hl, hp⟩ := hp
    refine ⟨⟨?_, ?_⟩, path_frame (v :: rest) hp ?_ ?_⟩
    · rw [hn u (by simp)]; exact hl.1
    · rw [hv v (by simp)]; exact hl.2
    · intro x hx
      exact hn x (by simp [List.dropLast] at hx ⊢; exact Or.inr hx)
    · intro x hx
      exact hv x (by simp at hx ⊢; exact Or.inr hx)

theorem chain_frame {h h1 : Heap T} {l : List Ptr} (hp : List.Chain' (Link h) l)
    (hn : ∀ u ∈ l.dropLast, h1.next u = h.next u)
    (hv : ∀ v ∈ l.tail, h1.prev v = h.prev v) : List.Chain' (Link h1) l :=
  (path_iff l).mp (path_frame l ((path_iff l).mpr hp) hn hv)

theorem dropLast_append_lastOr (a : Ptr) (L : List Ptr) :
    (a :: L).dropLast ++ [lastOr a L] = a :: L := by
  induction L generalizing a with
  | nil => rfl
  | cons b L ih =>
    have := ih b
    simp only [List.dropLast_cons₂, lastOr, List.cons_append]
    rw [this]

theorem getLast?_cons_lastOr (a : Ptr) (L : List Ptr) :
    (a :: L).getLast? = some (lastOr a L) := by
  induction L generalizing a with
  | nil => rfl
  | cons b L ih => rw [List.getLast?_cons_cons]; exact ih b

theorem lastOr_mem (a : Ptr) (L : List Ptr) : lastOr a L ∈ a :: L := by
  induction L generalizing a with
  | nil => simp [lastOr]
  | cons b L ih => exact List.mem_cons_of_mem _ (ih b)

theorem head?_append_firstOr (R : List Ptr) (b : Ptr) :
    (R ++ [b]).head? = some (firstOr b R) := by
  cases R <;> rfl

theorem firstOr_mem (R : List Ptr) (b : Ptr) : firstOr b R ∈ R ++ [b] := by
  cases R <;> simp [firstOr]

theorem lastOr_append_cons (a x : Ptr) (L R : List Ptr) :
    lastOr a (L ++ x :: R) = lastOr x R := by
  induction L generalizing a with
  | nil => rfl
  | cons b L ih => exact ih b

theorem lastOr_concat (a x : Ptr) (L : List Ptr) : lastOr a (L ++ [x]) = x :=
  lastOr_append_cons a x L []

theorem firstOr_append_cons (b x : Ptr) (L R : List Ptr) :
    firstOr b (L ++ x :: R) = firstOr x L := by
  cases L <;> rfl

/-- The separation facts of a ring split as `L ++ R`: the node before the split point is
`lastOr fake L`, the node after it is `firstOr fake R`. -/
theorem split_sep {fake : Ptr} {L R : List Ptr} (hd : (fake :: (L ++ R)).Nodup) :
    (∀ u ∈ (fake :: L).dropLast, u ≠ lastOr fake L) ∧
    (∀ v ∈ L, v ≠ firstOr fake R) ∧
    (∀ u ∈ R, u ≠ lastOr fake L) ∧
    (∀ v ∈ (R ++ [fake]).tail, v ≠ firstOr fake R) := by
  have hA : ((fake :: L).dropLast ++ [lastOr fake L]).Nodup := by
    rw [dropLast_append_lastOr]
    have : (fake :: L).Sublist (fake :: (L ++ R)) :=
      (List.sublist_append_left L R).cons₂ fake
    exact hd.sublist this
  have hlast : lastOr fake L ∈ fake :: L := lastOr_mem _ _
  have hhead : firstOr fake R ∈ R ++ [fake] := firstOr_mem _ _
  rw [List.nodup_cons, List.nodup_append] at hd
  obtain ⟨hf, hL, hR, hLR⟩ := hd
  refine ⟨?_, ?_, ?_, ?_⟩
  · intro u hu he
    rw [List.nodup_append] at hA
    exact hA.2.2 hu (by simp [he])
  · intro v hv he
    rcases List.mem_append.mp hhead with h | h
    · exact hLR hv (he ▸ h)
    · rw [List.mem_singleton] at h
      exact hf (by rw [← h, ← he]; exact List.mem_append_left _ hv)
  · intro u hu he
    rcases List.mem_cons.mp hlast with h | h
    · exact hf (by rw [← h, ← he]; exact List.mem_append_right _ hu)
    · exact hLR (he ▸ h) hu
  · intro v hv he
    rcases R with _ | ⟨r, R1⟩
    · simp at hv
    · simp only [List.cons_append, List.tail_cons, firstOr] at hv he
      rw [List.nodup_cons] at hR
      rcases List.mem_append.mp hv with h | h
      · exact hR.1 (he ▸ h)
      · rw [List.mem_singleton] at h
        exact hf (by rw [← h, he]; simp)

/-- Splicing a fresh node `p` into a ring between the last node of `L` and the first
node of `R`. -/
theorem ring_insert {h h1 : Heap T} {fake p : Ptr} {L R : List Ptr}
    (hr : Ring h fake (L ++ R)) (hp : p ∉ fake :: (L ++ R))
    (hp0 : 0 < p ∧ p < SIZE_RANGE)
    (hnext : ∀ u, h1.next u =
      if u = p then firstOr fake R else if u = lastOr fake L then p else h.next u)
    (hprev : ∀ v, h1.prev v =
      if v = firstOr fake R then p else if v = p then lastOr fake L else h.prev v) :
    Ring h1 fake (L ++ p :: R) := by
  obtain ⟨s1, s2, s3, s4⟩ := split_sep hr.nodup
  have hpL : p ∉ fake :: L := fun hm => hp (by
    rcases List.mem_cons.mp hm with h | h
    · exact h ▸ List.mem_cons_self _ _
    · exact List.mem_cons_of_mem _ (List.mem_append_left _ h))
  have hpR : p ∉ R ++ [fake] := fun hm => hp (by
    rcases List.mem_append.mp hm with h | h
    · exact List.mem_cons_of_mem _ (List.mem_append_right _ h)
    · rw [List.mem_singleton] at h; exact h ▸ List.mem_cons_self _ _)
  have hlast : lastOr fake L ∈ fake :: L := lastOr_mem _ _
  have hhead : firstOr fake R ∈ R ++ [fake] := firstOr_mem _ _
  have hpa : lastOr fake L ≠ p := fun he => hpL (he ▸ hlast)
  have hpb : firstOr fake R ≠ p := fun he => hpR (he ▸ hhead)
  have hpath := hr.path
  have e1 : fake :: (L ++ R) ++ [fake] = (fake :: L) ++ (R ++ [fake]) := by simp
  have e2 : fake :: (L ++ p :: R) ++ [fake] = (fake :: L) ++ (p :: (R ++ [fake])) := by simp
  rw [path_iff] at hpath
  rw [e1, List.chain'_append] at hpath
  obtain ⟨hA, hB, hAB⟩ := hpath
  refine ⟨?_, ?_, ?_⟩
  · rw [path_iff, e2]
    refine List.chain'_append.mpr ⟨?_, List.chain'_cons'.mpr ⟨?_, ?_⟩, ?_⟩
    · refine chain_frame hA ?_ ?_
      · intro u hu
        rw [hnext, if_neg, if_neg (s1 u hu)]
        exact fun he => hpL (he ▸ List.dropLast_subset _ hu)
      · intro v hv
        simp only [List.tail_cons] at hv
        rw [hprev, if_neg (s2 v hv), if_neg]
        exact fun he => hpL (he ▸ List.mem_cons_of_mem _ hv)
    · intro y hy
      rw [head?_append_firstOr] at hy
      simp only [Option.mem_def, Option.some.injEq] at hy
      subst hy
      exact ⟨by rw [hnext, if_pos rfl], by rw [hprev, if_pos rfl]⟩
    · refine chain_frame hB ?_ ?_
      · intro u hu
        simp only [List.dropLast_concat] at hu
        rw [hnext, if_neg, if_neg (s3 u hu)]
        exact fun he => hpR (he ▸ List.mem_append_left _ hu)
      · intro v hv
        rw [hprev, if_neg (s4 v hv), if_neg]
        exact fun he => hpR (he ▸ List.mem_of_mem_tail hv)
    · intro x hx y hy
      rw [getLast?_cons_lastOr] at hx
      simp only [Option.mem_def, Option.some.injEq, List.head?_cons] at hx hy
      subst hx; subst hy
      exact ⟨by rw [hnext, if_neg hpa, if_pos rfl], by rw [hprev, if_neg hpb.symm, if_pos rfl]⟩
  · have hd := hr.nodup
    rw [List.nodup_cons, List.nodup_append] at hd ⊢
    obtain ⟨hf, hL, hR, hLR⟩ := hd
    refine ⟨?_, hL, ?_, ?_⟩
    · intro hm
      rcases List.mem_append.mp hm with h | h
      · exact hf (List.mem_append_left _ h)
      · rcases List.mem_cons.mp h with h | h
        · exact hp (h ▸ List.mem_cons_self _ _)
        · exact hf (List.mem_append_right _ h)
    · rw [List.nodup_cons]
      exact ⟨fun hm => hp (List.mem_cons_of_mem _ (List.mem_append_right _ hm)), hR⟩
    · intro x hx1 hx2
      rcases List.mem_cons.mp hx2 with h | h
      · exact hp (h ▸ List.mem_cons_of_mem _ (List.mem_append_left _ hx1))
      · exact hLR hx1 h
  · intro q hq
    have : q = p ∨ q ∈ fake :: (L ++ R) := by
      simp only [List.mem_cons, List.mem_append] at hq ⊢
      tauto
    rcases this with h | h
    · exact h ▸ hp0
    · exact hr.range q h

/-- Unlinking the node `x` from a ring. -/
theorem ring_erase {h h1 : Heap T} {fake x : Ptr} {L R : List Ptr}
    (hr : Ring h fake (L ++ x :: R))
    (hnext : ∀ u, h1.next u = if u = lastOr fake L then firstOr fake R else h.next u)
    (hprev : ∀ v, h1.prev v = if v = firstOr fake R then lastOr fake L else h.prev v) :
    Ring h1 fake (L ++ R) := by
  have hsub : (fake :: (L ++ R)).Sublist (fake :: (L ++ x :: R)) :=
    ((List.Sublist.refl L).append (List.sublist_cons_self x R)).cons₂ fake
  have hd : (fake :: (L ++ R)).Nodup := hr.nodup.sublist hsub
  obtain ⟨s1, s2, s3, s4⟩ := split_sep hd
  have hpath := hr.path
  have e1 : fake :: (L ++ x :: R) ++ [fake] = (fake :: L) ++ (x :: (R ++ [fake])) := by simp
  have e2 : fake :: (L ++ R) ++ [fake] = (fake :: L) ++ (R ++ [fake]) := by simp
  rw [path_iff] at hpath
  rw [e1] at hpath
  obtain ⟨hA, hxB, _⟩ := List.chain'_append.mp hpath
  have hB := (List.chain'_cons'.mp hxB).2
  refine ⟨?_, hd, fun q hq => hr.range q (hsub.subset hq)⟩
  rw [path_iff, e2, List.chain'_append]
  refine ⟨?_, ?_, ?_⟩
  · refine chain_frame hA ?_ ?_
    · intro u hu
      rw [hnext, if_neg (s1 u hu)]
    · intro v hv
      simp only [List.tail_cons] at hv
      rw [hprev, if_neg (s2 v hv)]
  · refine chain_frame hB ?_ ?_
    · intro u hu
      simp only [List.dropLast_concat] at hu
      rw [hnext, if_neg (s3 u hu)]
    · intro v hv
      rw [hprev, if_neg (s4 v hv)]
  · intro a ha b hb
    rw [getLast?_cons_lastOr] at ha
    rw [head?_append_firstOr] at hb
    simp only [Option.mem_def, Option.some.injEq] at ha hb
    subst ha; subst hb
    exact ⟨by rw [hnext, if_pos rfl], by rw [hprev, if_pos rfl]⟩

/-- The links around a split point of a ring. -/
theorem ring_split_link {h : Heap T} {fake : Ptr} {L R : List Ptr}
    (hr : Ring h fake (L ++ R)) : Link h (lastOr fake L) (firstOr fake R) := by
  have hpath := hr.path
  have e1 : fake :: (L ++ R) ++ [fake] = (fake :: L) ++ (R ++ [fake]) := by simp
  rw [path_iff] at hpath
  rw [e1, List.chain'_append] at hpath
  exact hpath.2.2 _ (by rw [getLast?_cons_lastOr]; rfl) _
    (by rw [head?_append_firstOr]; rfl)

/-- What a call of `insert` that returns normally has done. -/
theorem insert_ok_inv {A : AllocModel H σ} {E : ElemModel T} {l l1 : ListObj H}
    {w w1 : World σ T} {it : Ptr} {v : T}
    (hok : insert A E l w it v = Outcome.ok (l1, w1)) :
    ∃ p s1, A.allocate l.nodeAlloc w.alloc = (some p, s1) ∧
      E.copyThrows w.ctors v = false ∧
      l1 = { l with sz := incr l.sz } ∧ w1.alloc = s1 ∧ w1.ctors = w.ctors + 1 ∧
      w1.trace = w.trace ++ [Event.allocate p, Event.construct p] ∧
      (∀ u, w1.heap.next u =
        if u = p then it else if u = w.heap.prev it then p else w.heap.next u) ∧
      (∀ u, w1.heap.prev u =
        if u = it then p else if u = p then w.heap.prev it else w.heap.prev u) ∧
      (∀ u, w1.heap.value u = if u = p then some v else w.heap.value u) := by
  unfold insert nodeAllocate at hok
  rcases hA : A.allocate l.nodeAlloc w.alloc with ⟨_ | p, s1⟩
  · rw [hA] at hok; simp at hok
  · rw [hA] at hok
    simp only [constructCopy] at hok
    by_cases hc : E.copyThrows w.ctors v = true
    · simp [hc] at hok
    · simp only [hc] at hok
      simp only [Bool.false_eq_true, if_false, Outcome.ok.injEq, Prod.mk.injEq] at hok
      obtain ⟨h1, h2⟩ := hok
      subst h1; subst h2
      refine ⟨p, s1, rfl, by simpa using hc, rfl, rfl, rfl, by simp, ?_, ?_, ?_⟩
      · intro u; simp [Heap.setNext, Heap.setPrev, Heap.setValue]
      · intro u; simp [Heap.setNext, Heap.setPrev, Heap.setValue]
      · intro u; simp [Heap.setNext, Heap.setPrev, Heap.setValue]

/-- When the allocator returns `p` and the copy constructor does not throw, `insert`
returns normally. -/
theorem insert_ok_of {A : AllocModel H σ} {E : ElemModel T} (l : ListObj H)
    (w : World σ T) (it : Ptr) (v : T) {p : Ptr} {s1 : σ}
    (hA : A.allocate l.nodeAlloc w.alloc = (some p, s1))
    (hc : E.copyThrows w.ctors v = false) :
    ∃ w1, insert A E l w it v = Outcome.ok ({ l with sz := incr l.sz }, w1) := by
  unfold insert nodeAllocate
  rw [hA]
  simp [constructCopy, hc]

/-- The position number `k` of a ring is the node after the first `k` nodes. -/
theorem position_eq {fake it : Ptr} {ps : List Ptr} {k : Nat}
    (hit : (ps ++ [fake])[k]? = some it) :
    k ≤ ps.length ∧ it = firstOr fake (ps.drop k) := by
  induction ps generalizing k with
  | nil =>
    cases k with
    | zero => simp at hit; exact ⟨le_refl _, hit.symm⟩
    | succ k => simp at hit
  | cons q ps ih =>
    cases k with
    | zero => simp at hit; exact ⟨Nat.zero_le _, hit.symm⟩
    | succ k =>
      simp only [List.cons_append, List.getElem?_cons_succ] at hit
      obtain ⟨h1, h2⟩ := ih hit
      exact ⟨by simpa using h1, by simpa using h2⟩

/-- The values held by nodes are kept by a heap that agrees on them. -/
theorem map_value_congr {h h1 : Heap T} {ps : List Ptr}
    (hv : ∀ q ∈ ps, h1.value q = h.value q) : ps.map h1.value = ps.map h.value :=
  List.map_congr_left hv

/-- The effect of a normal return of `insert` on a well-formed list, with the new node
named. -/
theorem insert_wellFormed {l l1 : ListObj H}
    {w w1 : World σ T} {it p : Ptr} {v : T} {ps : List Ptr} {xs : List T} {k : Nat}
    (hwf : WellFormed l w.heap ps xs)
    (hit : (ps ++ [l.fakeNode])[k]? = some it)
    (hp : p ∉ l.fakeNode :: ps) (hp0 : 0 < p ∧ p < SIZE_RANGE)
    (hl : l1 = { l with sz := incr l.sz })
    (hnext : ∀ u, w1.heap.next u =
        if u = p then it else if u = w.heap.prev it then p else w.heap.next u)
    (hprev : ∀ u, w1.heap.prev u =
        if u = it then p else if u = p then w.heap.prev it else w.heap.prev u)
    (hval : ∀ u, w1.heap.value u = if u = p then some v else w.heap.value u) :
    WellFormed l1 w1.heap (ps.take k ++ p :: ps.drop k) (xs.take k ++ v :: xs.drop k) ∧
      l1.sz = l.sz + 1 := by
  obtain ⟨hk, hfirst⟩ := position_eq hit
  have hps : ps.take k ++ ps.drop k = ps := List.take_append_drop k ps
  have hr : Ring w.heap l.fakeNode (ps.take k ++ ps.drop k) := by rw [hps]; exact hwf.ring
  have hlink := ring_split_link hr
  rw [← hfirst] at hlink
  have hfake : l1.fakeNode = l.fakeNode := by rw [hl]
  have hring : Ring w1.heap l.fakeNode (ps.take k ++ p :: ps.drop k) := by
    refine ring_insert hr (by rw [hps]; exact hp) hp0 ?_ ?_
    · intro u; rw [hnext, ← hfirst, hlink.2]
    · intro u; rw [hprev, ← hfirst, hlink.2]
  have hlen : (ps.take k ++ p :: ps.drop k).length = ps.length + 1 := by
    have := congrArg List.length hps
    simp only [List.length_append, List.length_cons] at this ⊢
    omega
  have hlt := length_lt_of_nodup_range hring.nodup hring.range
  rw [List.length_cons, hlen] at hlt
  have hsz : l1.sz = l.sz + 1 := by
    rw [hl]
    show incr l.sz = l.sz + 1
    exact incr_eq (by rw [hwf.size]; omega)
  have hpps : p ∉ ps := fun hm => hp (List.mem_cons_of_mem _ hm)
  have hvals : ∀ q ∈ ps, w1.heap.value q = w.heap.value q := by
    intro q hq
    have hne : q ≠ p := fun he => hpps (he ▸ hq)
    rw [hval, if_neg hne]
  refine ⟨⟨hfake ▸ hring, by rw [hsz, hlen, hwf.size], ?_⟩, hsz⟩
  have h1 : (ps.take k).map w1.heap.value = (xs.take k).map some := by
    rw [map_value_congr (fun q hq => hvals q (List.mem_of_mem_take hq)),
      List.map_take, hwf.values, ← List.map_take]
  have h2 : (ps.drop k).map w1.heap.value = (xs.drop k).map some := by
    rw [map_value_congr (fun q hq => hvals q (List.mem_of_mem_drop hq)),
      List.map_drop, hwf.values, ← List.map_drop]
  rw [List.map_append, List.map_cons, List.map_append, List.map_cons, h1, h2, hval,
    if_pos rfl]

/-- What `erase` does to the list object and to the world. -/
theorem erase_effect (A : AllocModel H σ) (l : ListObj H) (w : World σ T) (x : Ptr) :
    (erase A l w x).1 = { l with sz := decr l.sz } ∧
    (erase A l w x).2.alloc = A.deallocate l.nodeAlloc x w.alloc ∧
    (erase A l w x).2.ctors = w.ctors ∧
    (erase A l w x).2.trace = w.trace ++ [Event.destroy x, Event.deallocate x] ∧
    (∀ u, (erase A l w x).2.heap.next u =
      if u = w.heap.prev x then w.heap.next x else w.heap.next u) ∧
    (∀ u, (erase A l w x).2.heap.prev u =
      if u = w.heap.next x then w.heap.prev x else w.heap.prev u) ∧
    (∀ u, (erase A l w x).2.heap.value u = if u = x then none else w.heap.value u) := by
  refine ⟨rfl, rfl, rfl, by simp [erase, nodeDeallocate, destroyValue], ?_, ?_, ?_⟩
  · intro u; simp [erase, nodeDeallocate, destroyValue, Heap.setNext, Heap.setPrev,
      Heap.setValue]
  · intro u; simp [erase, nodeDeallocate, destroyValue, Heap.setNext, Heap.setPrev,
      Heap.setValue]
  · intro u; simp [erase, nodeDeallocate, destroyValue, Heap.setNext, Heap.setPrev,
      Heap.setValue]

/-- A list splits around its element number `k`. -/
theorem split_at_index {α : Type} {ps : List α} {k : Nat} {x : α} (hx : ps[k]? = some x) :
    ps = ps.take k ++ x :: ps.drop (k + 1) := by
  induction ps generalizing k with
  | nil => simp at hx
  | cons q ps ih =>
    cases k with
    | zero => simp at hx; simp [hx]
    | succ k =>
      simp only [List.getElem?_cons_succ] at hx
      have := ih hx
      simp only [List.take_succ_cons, List.drop_succ_cons, List.cons_append]
      rw [← this]

/-- The neighbours of the node `x` of a ring. -/
theorem ring_neighbours {h : Heap T} {fake x : Ptr} {L R : List Ptr}
    (hr : Ring h fake (L ++ x :: R)) :
    h.prev x = lastOr fake L ∧ h.next x = firstOr fake R := by
  have h1 := ring_split_link hr
  have hr2 : Ring h fake ((L ++ [x]) ++ R) := by simpa using hr
  have h2 := ring_split_link hr2
  rw [lastOr_concat] at h2
  exact ⟨h1.2, h2.1⟩

/-- The effect of `erase` at the node number `k` of a well-formed list. -/
theorem erase_wellFormed (A : AllocModel H σ) {l : ListObj H} {w : World σ T} {x : Ptr}
    {ps : List Ptr} {xs : List T} {k : Nat}
    (hwf : WellFormed l w.heap ps xs) (hx : ps[k]? = some x) :
    WellFormed (erase A l w x).1 (erase A l w x).2.heap
        (ps.take k ++ ps.drop (k + 1)) (xs.take k ++ xs.drop (k + 1)) ∧
      (erase A l w x).1.sz + 1 = l.sz ∧ x ∉ ps.take k ++ ps.drop (k + 1) := by
  obtain ⟨e1, _, _, _, enext, eprev, eval⟩ := erase_effect A l w x
  have hps := split_at_index hx
  have hr : Ring w.heap l.fakeNode (ps.take k ++ x :: ps.drop (k + 1)) := by
    rw [← hps]; exact hwf.ring
  obtain ⟨hprevx, hnextx⟩ := ring_neighbours hr
  have hring : Ring (erase A l w x).2.heap l.fakeNode (ps.take k ++ ps.drop (k + 1)) := by
    refine ring_erase hr ?_ ?_
    · intro u; rw [enext, hprevx, hnextx]
    · intro u; rw [eprev, hprevx, hnextx]
  have hxn : x ∉ ps.take k ++ ps.drop (k + 1) := by
    have hd := hr.nodup
    rw [List.nodup_cons, List.nodup_append, List.nodup_cons] at hd
    intro hm
    rcases List.mem_append.mp hm with h | h
    · exact hd.2.2.2 h (List.mem_cons_self _ _)
    · exact hd.2.2.1.1 h
  have hlen : ps.length = (ps.take k ++ ps.drop (k + 1)).length + 1 := by
    have := congrArg List.length hps
    simp only [List.length_append, List.length_cons] at this ⊢
    omega
  have hlt := length_lt_of_nodup_range hwf.ring.nodup hwf.ring.range
  rw [List.length_cons] at hlt
  have hsz : (erase A l w x).1.sz + 1 = l.sz := by
    rw [e1]
    show decr l.sz + 1 = l.sz
    rw [decr_eq (by rw [hwf.size]; omega)]
    rw [hwf.size]; omega
  refine ⟨⟨by rw [e1]; exact hring, by rw [hwf.size] at hsz; omega, ?_⟩, hsz, hxn⟩
  have hvals : ∀ q ∈ ps.take k ++ ps.drop (k + 1), (erase A l w x).2.heap.value q =
      w.heap.value q := by
    intro q hq
    have hne : q ≠ x := fun he => hxn (he ▸ hq)
    rw [eval, if_neg hne]
  rw [map_value_congr hvals, List.map_append, List.map_append, List.map_take,
    List.map_drop, hwf.values, ← List.map_take, ← List.map_drop]

/-- In a ring, the neighbours of a member are members, and `prev` and `next` are
inverse to each other there. -/
theorem ring_mem_links {h : Heap T} {fake q : Ptr} {ps : List Ptr}
    (hr : Ring h fake ps) (hq : q ∈ fake :: ps) :
    h.next q ∈ fake :: ps ∧ h.prev q ∈ fake :: ps ∧
      h.next (h.prev q) = q ∧ h.prev (h.next q) = q := by
  have hfirst : ∀ R, firstOr fake R ∈ fake :: R := by
    intro R
    have := firstOr_mem R fake
    rcases List.mem_append.mp this with h1 | h1
    · exact List.mem_cons_of_mem _ h1
    · rw [List.mem_singleton] at h1; rw [h1]; exact List.mem_cons_self _ _
  rcases List.mem_cons.mp hq with rfl | hq
  · have h1 : Ring h q ([] ++ ps) := by simpa using hr
    have h2 : Ring h q (ps ++ []) := by simpa using hr
    have l1 := ring_split_link h1
    have l2 := ring_split_link h2
    simp only [lastOr, firstOr] at l1 l2
    refine ⟨l1.1 ▸ hfirst ps, l2.2 ▸ lastOr_mem q ps, ?_, ?_⟩
    · rw [l2.2]; exact l2.1
    · rw [l1.1]; exact l1.2
  · obtain ⟨L, R, rfl⟩ := List.append_of_mem hq
    obtain ⟨hp, hn⟩ := ring_neighbours hr
    have l1 := ring_split_link hr
    have hr2 : Ring h fake ((L ++ [q]) ++ R) := by simpa using hr
    have l2 := ring_split_link hr2
    rw [lastOr_concat] at l2
    simp only [firstOr] at l1
    refine ⟨?_, ?_, ?_, ?_⟩
    · rw [hn]
      rcases List.mem_cons.mp (hfirst R) with h1 | h1
      · rw [h1]; exact List.mem_cons_self _ _
      · exact List.mem_cons_of_mem _ (List.mem_append_right _ (List.mem_cons_of_mem _ h1))
    · rw [hp]
      rcases List.mem_cons.mp (lastOr_mem fake L) with h1 | h1
      · rw [h1]; exact List.mem_cons_self _ _
      · exact List.mem_cons_of_mem _ (List.mem_append_left _ h1)
    · rw [hp]; exact l1.1
    · rw [hn]; exact l2.2

/-- The valid positions of a well-formed list are its sentinel and its nodes. -/
theorem position_mem {l : ListObj H} {w : World σ T} {ps : List Ptr} {it : Ptr}
    (hr : Ring w.heap l.fakeNode ps) (hit : IsPosition l w it) : it ∈ l.fakeNode :: ps := by
  induction hit with
  | refl => exact List.mem_cons_self _ _
  | tail _ hstep ih => exact hstep ▸ (ring_mem_links hr ih).1

/-- A member of a ring is at some position number. -/
theorem mem_position_index {fake it : Ptr} {ps : List Ptr} (hit : it ∈ fake :: ps) :
    ∃ k : Nat, (ps ++ [fake])[k]? = some it := by
  have : it ∈ ps ++ [fake] := by
    rcases List.mem_cons.mp hit with h | h
    · exact List.mem_append_right _ (by simp [h])
    · exact List.mem_append_left _ h
  exact List.getElem?_of_mem this

/-- Following `next` from the first node of a ring visits its nodes and ends at the
sentinel. -/
theorem walk_ring {h : Heap T} {fake : Ptr} (L R : List Ptr)
    (hr : Ring h fake (L ++ R)) : walk h fake R.length (firstOr fake R) = some R := by
  induction R generalizing L with
  | nil => simp [walk, firstOr]
  | cons r R ih =>
    have hne : r ≠ fake := by
      have hd := hr.nodup
      rw [List.nodup_cons] at hd
      intro he
      exact hd.1 (he ▸ List.mem_append_right _ (List.mem_cons_self _ _))
    have hn := (ring_neighbours hr).2
    have hr2 : Ring h fake ((L ++ [r]) ++ R) := by simpa using hr
    have := ih (L ++ [r]) hr2
    show (if r = fake then some [] else
      (walk h fake R.length (h.next r)).map (fun x => r :: x)) = some (r :: R)
    rw [if_neg hne, hn, this]
    rfl

/-- The first node of a ring is the successor of the sentinel. -/
theorem ring_begin {h : Heap T} {fake : Ptr} {ps : List Ptr} (hr : Ring h fake ps) :
    h.next fake = firstOr fake ps ∧ h.prev fake = lastOr fake ps := by
  have h1 : Ring h fake ([] ++ ps) := by simpa using hr
  have h2 : Ring h fake (ps ++ []) := by simpa using hr
  have l1 := ring_split_link h1
  have l2 := ring_split_link h2
  simp only [lastOr, firstOr] at l1 l2
  exact ⟨l1.1, l2.2⟩

/-- The empty list that `List(alloc)` builds is well formed. -/
theorem mkEmpty_wellFormed (fake : Ptr) (alloc : H) (w : World σ T)
    (hfake : 0 < fake ∧ fake < SIZE_RANGE) :
    WellFormed (mkEmpty fake alloc w).1 (mkEmpty fake alloc w).2.heap [] [] := by
  refine ⟨⟨?_, by simp [mkEmpty], ?_⟩, rfl, rfl⟩
  · show Link _ fake fake ∧ True
    exact ⟨⟨by simp [mkEmpty, Heap.setNext, Heap.setPrev],
      by simp [mkEmpty, Heap.setNext, Heap.setPrev]⟩, trivial⟩
  · intro p hp
    simp [mkEmpty] at hp
    exact hp ▸ hfake

/-- What a call of `insert` that ends by an exception has done. -/
theorem insert_thrown_inv {A : AllocModel H σ} {E : ElemModel T} {l l1 : ListObj H}
    {w w1 : World σ T} {it : Ptr} {v : T}
    (hthrown : insert A E l w it v = Outcome.thrown (l1, w1)) :
    l1 = l ∧ w1.heap = w.heap ∧
      ((∃ s1, A.allocate l.nodeAlloc w.alloc = (none, s1) ∧ w1.alloc = s1 ∧
          w1.trace = w.trace) ∨
       (∃ p s1, A.allocate l.nodeAlloc w.alloc = (some p, s1) ∧
          E.copyThrows w.ctors v = true ∧
          w1.alloc = A.deallocate l.nodeAlloc p s1 ∧
          w1.trace = w.trace ++ [Event.allocate p, Event.deallocate p])) := by
  unfold insert nodeAllocate at hthrown
  rcases hA : A.allocate l.nodeAlloc w.alloc with ⟨_ | p, s1⟩
  · rw [hA] at hthrown
    simp only [Outcome.thrown.injEq, Prod.mk.injEq] at hthrown
    obtain ⟨h1, h2⟩ := hthrown
    subst h1; subst h2
    exact ⟨rfl, rfl, Or.inl ⟨s1, rfl, rfl, rfl⟩⟩
  · rw [hA] at hthrown
    simp only [constructCopy] at hthrown
    by_cases hc : E.copyThrows w.ctors v = true
    · simp only [hc, if_true, Outcome.thrown.injEq, Prod.mk.injEq] at hthrown
      obtain ⟨h1, h2⟩ := hthrown
      subst h1; subst h2
      exact ⟨rfl, rfl, Or.inr ⟨p, s1, rfl, hc, rfl, by simp [nodeDeallocate]⟩⟩
    · simp [hc] at hthrown

/-- The last node of a non-empty ring is a node. -/
theorem lastOr_mem_of_ne_nil (a : Ptr) {L : List Ptr} (hL : L ≠ []) : lastOr a L ∈ L := by
  cases L with
  | nil => exact absurd rfl hL
  | cons b L => exact lastOr_mem b L

/-- The first node of a non-empty ring is a node. -/
theorem firstOr_mem_of_ne_nil (b : Ptr) {R : List Ptr} (hR : R ≠ []) : firstOr b R ∈ R := by
  cases R with
  | nil => exact absurd rfl hR
  | cons x R => exact List.mem_cons_self _ _

/-- The allocator `countingAllocator` conforms: the addresses it may still hand out
are those from its counter on. -/
theorem countingAllocator_contract :
    AllocContract countingAllocator (fun s q => s ≤ q) := by
  refine ⟨?_, ?_, ?_⟩
  · intro a s p s1 h
    simp only [countingAllocator] at h
    split at h
    · rename_i hs
      simp only [Prod.mk.injEq, Option.some.injEq] at h
      obtain ⟨rfl, rfl⟩ := h
      exact ⟨le_refl _, hs.1, hs.2, fun q hq => ⟨Nat.le_of_succ_le hq, Nat.ne_of_gt hq⟩⟩
    · simp at h
  · intro a s s1 h q hq
    simp only [countingAllocator] at h
    split at h
    · simp at h
    · simp only [Prod.mk.injEq, true_and] at h
      exact h ▸ hq
  · intro a s p q hq
    exact Or.inl hq

/-- Rounding `top` up to a multiple of `a`: the result is a multiple of `a`, not below
`top`, and less than `a` above it. -/
theorem round_up_spec {a : Nat} (ha : 0 < a) (top : Nat) :
    a ∣ (top + (a - 1)) / a * a ∧ top ≤ (top + (a - 1)) / a * a ∧
      (top + (a - 1)) / a * a ≤ top + (a - 1) := by
  refine ⟨Dvd.intro_left _ rfl, ?_, Nat.div_mul_le_self _ _⟩
  have h1 := Nat.div_add_mod (top + (a - 1)) a
  have h2 := Nat.mod_lt (top + (a - 1)) ha
  have h3 : a * ((top + (a - 1)) / a) = (top + (a - 1)) / a * a := Nat.mul_comm _ _
  omega

theorem padding_lt {a : Nat} (ha : 0 < a) (top : Nat) : padding a top ≤ a - 1 := by
  unfold padding
  have := (round_up_spec ha top).2.2
  omega

/-- The function `std::align` in terms of the padding. -/
theorem stdAlign_eq (a size ptr space : Nat) :
    stdAlign a size ptr space =
      if padding a ptr + size ≤ space then
        some ((ptr + (a - 1)) / a * a, space - padding a ptr)
      else none := by
  unfold stdAlign padding
  dsimp only
  generalize (ptr + (a - 1)) / a * a - ptr = d
  by_cases h1 : space < size
  · rw [if_pos h1, if_neg (by omega)]
  · rw [if_neg h1]
    by_cases h2 : d > space - size
    · rw [if_pos h2, if_neg (by omega)]
    · rw [if_neg h2, if_pos (by omega)]

/-- The two ways `StackStorage::allocate` can go, in terms of the padding and of the
number of bytes it computes. -/
theorem allocate_cases {N : Nat} (s : StackStorage N) (count a size_of_T : Nat)
    (ha : 0 < a) :
    (padding a s.top + (size_of_T * count) % SIZE_RANGE ≤ s.free ∧
      (s.allocate count a size_of_T).1 = s.top + padding a s.top ∧
      a ∣ (s.allocate count a size_of_T).1 ∧
      (s.allocate count a size_of_T).2 =
        { s with top := s.top + padding a s.top + (size_of_T * count) % SIZE_RANGE,
                 free := s.free - padding a s.top - (size_of_T * count) % SIZE_RANGE }) ∨
    (s.free < padding a s.top + (size_of_T * count) % SIZE_RANGE ∧
      (s.allocate count a size_of_T).1 = nullptr ∧ (s.allocate count a size_of_T).2 = s) := by
  obtain ⟨hd, hle, _⟩ := round_up_spec ha s.top
  have hal : (s.top + (a - 1)) / a * a = s.top + padding a s.top :=
    (Nat.add_sub_of_le hle).symm
  unfold StackStorage.allocate
  dsimp only
  rw [stdAlign_eq]
  by_cases h : padding a s.top + (size_of_T * count) % SIZE_RANGE ≤ s.free
  · rw [if_pos h]
    dsimp only
    rw [hal] at hd ⊢
    exact Or.inl ⟨h, rfl, hd, rfl⟩
  · rw [if_neg h]
    exact Or.inr ⟨by omega, rfl, rfl⟩

theorem pow_two_pos {a : Nat} (ha : ∃ k, a = 2 ^ k) : 0 < a := by
  obtain ⟨k, rfl⟩ := ha
  exact Nat.pos_pow_of_pos k (by norm_num)

theorem sameOn_refl (h : Heap T) (qs : List Ptr) : SameOn h h qs :=
  fun _ _ => ⟨rfl, rfl, rfl⟩

theorem sameOn_trans {h2 h1 h : Heap T} {qs : List Ptr} (h21 : SameOn h2 h1 qs)
    (h10 : SameOn h1 h qs) : SameOn h2 h qs := by
  intro q hq
  obtain ⟨a1, a2, a3⟩ := h21 q hq
  obtain ⟨b1, b2, b3⟩ := h10 q hq
  exact ⟨a1.trans b1, a2.trans b2, a3.trans b3⟩

/-- A ring is kept by a heap that agrees on its sentinel and nodes. -/
theorem ring_sameOn {h h1 : Heap T} {fake : Ptr} {ps : List Ptr} (hr : Ring h fake ps)
    (hs : SameOn h1 h (fake :: ps)) : Ring h1 fake ps := by
  refine ⟨path_frame _ hr.path ?_ ?_, hr.nodup, hr.range⟩
  · intro u hu
    have hm : u ∈ fake :: ps := by
      have := List.dropLast_subset _ hu
      simp only [List.cons_append, List.mem_cons, List.mem_append, List.mem_singleton] at this
      simp only [List.mem_cons]
      tauto
    exact (hs u hm).1
  · intro v hv
    have hm : v ∈ fake :: ps := by
      simp only [List.cons_append, List.tail_cons, List.mem_append, List.mem_singleton] at hv
      simp only [List.mem_cons]
      tauto
    exact (hs v hm).2.1

/-- A well-formed list is kept by a heap that agrees on its sentinel and nodes. -/
theorem wellFormed_sameOn {l : ListObj H} {h h1 : Heap T} {ps : List Ptr} {xs : List T}
    (hwf : WellFormed l h ps xs) (hs : SameOn h1 h (l.fakeNode :: ps)) :
    WellFormed l h1 ps xs := by
  refine ⟨ring_sameOn hwf.ring hs, hwf.size, ?_⟩
  rw [← hwf.values]
  exact map_value_congr (fun q hq => (hs q (List.mem_cons_of_mem _ hq)).2.2)

/-- A normal return of `insert` changes the heap only at the new node, at `it` and at
the node before `it`. -/
theorem insert_sameOn {A : AllocModel H σ} {E : ElemModel T} {l l1 : ListObj H}
    {w w1 : World σ T} {it p : Ptr} {v : T} {s1 : σ} {Q : List Ptr}
    (hok : insert A E l w it v = Outcome.ok (l1, w1))
    (hA : A.allocate l.nodeAlloc w.alloc = (some p, s1))
    (hp : p ∉ Q) (hit : it ∉ Q) (hprev : w.heap.prev it ∉ Q) :
    SameOn w1.heap w.heap Q := by
  obtain ⟨p1, s2, hA1, _, _, _, _, _, hnext, hprv, hval⟩ := insert_ok_inv hok
  rw [hA] at hA1
  simp only [Prod.mk.injEq, Option.some.injEq] at hA1
  obtain ⟨rfl, rfl⟩ := hA1
  intro q hq
  have h1 : q ≠ p := fun he => hp (he ▸ hq)
  have h2 : q ≠ it := fun he => hit (he ▸ hq)
  have h3 : q ≠ w.heap.prev it := fun he => hprev (he ▸ hq)
  exact ⟨by rw [hnext, if_neg h1, if_neg h3], by rw [hprv, if_neg h2, if_neg h1],
    by rw [hval, if_neg h1]⟩

/-- The call `erase` changes the heap only at the erased node and at its two
neighbours. -/
theorem erase_sameOn (A : AllocModel H σ) (l : ListObj H) (w : World σ T) (x : Ptr)
    {Q : List Ptr} (hx : x ∉ Q) (hprev : w.heap.prev x ∉ Q) (hnext : w.heap.next x ∉ Q) :
    SameOn (erase A l w x).2.heap w.heap Q := by
  obtain ⟨_, _, _, _, enext, eprev, eval⟩ := erase_effect A l w x
  intro q hq
  have h1 : q ≠ x := fun he => hx (he ▸ hq)
  have h2 : q ≠ w.heap.prev x := fun he => hprev (he ▸ hq)
  have h3 : q ≠ w.heap.next x := fun he => hnext (he ▸ hq)
  exact ⟨(enext q).trans (if_neg h2), (eprev q).trans (if_neg h3), (eval q).trans (if_neg h1)⟩

/-- A normal return of `insert` at a valid position keeps a list well formed and its
memory out of the allocator, and leaves alone a set `Q` of addresses that are neither in
the list nor available to the allocator. -/
theorem insert_ok_preserves {A : AllocModel H σ} {E : ElemModel T}
    {avail : σ → Ptr → Prop} (C : AllocContract A avail) {l l1 : ListObj H}
    {w w1 : World σ T} {it : Ptr} {v : T} {ps : List Ptr} {xs : List T} {Q : List Ptr}
    (hwf : WellFormed l w.heap ps xs) (hown : Owned avail l w ps)
    (hQ : ∀ q ∈ Q, q ∉ l.fakeNode :: ps) (hQa : ∀ q ∈ Q, ¬ avail w.alloc q)
    (hit : it ∈ l.fakeNode :: ps)
    (hok : insert A E l w it v = Outcome.ok (l1, w1)) :
    ∃ ps1 xs1, WellFormed l1 w1.heap ps1 xs1 ∧ Owned avail l1 w1 ps1 ∧
      (∀ q ∈ Q, q ∉ l1.fakeNode :: ps1) ∧ (∀ q ∈ Q, ¬ avail w1.alloc q) ∧
      SameOn w1.heap w.heap Q := by
  obtain ⟨p, s1, hA, _, hl, halloc, _, _, hnext, hprev, hval⟩ := insert_ok_inv hok
  obtain ⟨hav, hp0, hp1, hrest⟩ := C.allocate_fresh _ _ _ _ hA
  obtain ⟨k, hk⟩ := mem_position_index hit
  have hfresh : p ∉ l.fakeNode :: ps := fun hm => hown p hm hav
  obtain ⟨hwf1, _⟩ := insert_wellFormed (v := v) hwf hk hfresh ⟨hp0, hp1⟩ hl hnext hprev hval
  have hmem : ∀ q, q ∈ l1.fakeNode :: (ps.take k ++ p :: ps.drop k) →
      q = p ∨ q ∈ l.fakeNode :: ps := by
    intro q hq
    rw [hl] at hq
    simp only [List.mem_cons, List.mem_append] at hq
    rcases hq with h | h | h | h
    · exact Or.inr (h ▸ List.mem_cons_self _ _)
    · exact Or.inr (List.mem_cons_of_mem _ (List.mem_of_mem_take h))
    · exact Or.inl h
    · exact Or.inr (List.mem_cons_of_mem _ (List.mem_of_mem_drop h))
  have hpQ : p ∉ Q := fun hm => hQa p hm hav
  refine ⟨_, _, hwf1, ?_, ?_, ?_, ?_⟩
  · intro q hq hq2
    rw [halloc] at hq2
    obtain ⟨hq3, hq4⟩ := hrest q hq2
    rcases hmem q hq with h | h
    · exact hq4 h
    · exact hown q h hq3
  · intro q hq hm
    rcases hmem q hm with h | h
    · exact hpQ (h ▸ hq)
    · exact hQ q hq h
  · intro q hq hq2
    rw [halloc] at hq2
    exact hQa q hq (hrest q hq2).1
  · exact insert_sameOn hok hA hpQ (fun hm => hQ it hm hit)
      (fun hm => hQ _ hm (ring_mem_links hwf.ring hit).2.1)

/-- A call of `insert` that ends by an exception keeps a list well formed and its memory
out of the allocator, and changes no node. -/
theorem insert_thrown_preserves {A : AllocModel H σ} {E : ElemModel T}
    {avail : σ → Ptr → Prop} (C : AllocContract A avail) {l l1 : ListObj H}
    {w w1 : World σ T} {it : Ptr} {v : T} {ps : List Ptr} {xs : List T} {Q : List Ptr}
    (hwf : WellFormed l w.heap ps xs) (hown : Owned avail l w ps)
    (hQ : ∀ q ∈ Q, q ∉ l.fakeNode :: ps) (hQa : ∀ q ∈ Q, ¬ avail w.alloc q)
    (hthrown : insert A E l w it v = Outcome.thrown (l1, w1)) :
    WellFormed l1 w1.heap ps xs ∧ Owned avail l1 w1 ps ∧
      (∀ q ∈ Q, q ∉ l1.fakeNode :: ps) ∧ (∀ q ∈ Q, ¬ avail w1.alloc q) ∧
      SameOn w1.heap w.heap Q := by
  obtain ⟨hl, hh, hcase⟩ := insert_thrown_inv hthrown
  subst hl
  have hav : ∀ q, avail w1.alloc q → avail w.alloc q := by
    intro q hq2
    rcases hcase with ⟨s1, hA, halloc, _⟩ | ⟨p, s1, hA, _, halloc, _⟩
    · rw [halloc] at hq2
      exact C.allocate_throw _ _ _ hA q hq2
    · rw [halloc] at hq2
      obtain ⟨hav, _, _, hrest⟩ := C.allocate_fresh _ _ _ _ hA
      rcases C.deallocate_frees _ _ _ _ hq2 with h | h
      · exact (hrest q h).1
      · exact h ▸ hav
  refine ⟨by rw [hh]; exact hwf, fun q hq hq2 => hown q hq (hav q hq2), hQ,
    fun q hq hq2 => hQa q hq (hav q hq2), ?_⟩
  rw [hh]; exact sameOn_refl _ _

/-- The call `erase` at a node keeps a list well formed and its memory out of the
allocator, and leaves alone a set `Q` of addresses that are neither in the list nor
available to the allocator. -/
theorem erase_preserves {A : AllocModel H σ} {avail : σ → Ptr → Prop}
    (C : AllocContract A avail) {l : ListObj H} {w : World σ T} {x : Ptr}
    {ps : List Ptr} {xs : List T} {Q : List Ptr}
    (hwf : WellFormed l w.heap ps xs) (hown : Owned avail l w ps)
    (hQ : ∀ q ∈ Q, q ∉ l.fakeNode :: ps) (hQa : ∀ q ∈ Q, ¬ avail w.alloc q)
    (hx : x ∈ ps) :
    ∃ ps1 xs1, WellFormed (erase A l w x).1 (erase A l w x).2.heap ps1 xs1 ∧
      Owned avail (erase A l w x).1 (erase A l w x).2 ps1 ∧
      (∀ q ∈ Q, q ∉ (erase A l w x).1.fakeNode :: ps1) ∧
      (∀ q ∈ Q, ¬ avail (erase A l w x).2.alloc q) ∧
      SameOn (erase A l w x).2.heap w.heap Q := by
  obtain ⟨k, hk⟩ := List.getElem?_of_mem hx
  obtain ⟨hwf1, _, hxn⟩ := erase_wellFormed A hwf hk
  obtain ⟨e1, e2, _⟩ := erase_effect A l w x
  have hxT : x ∈ l.fakeNode :: ps := List.mem_cons_of_mem _ hx
  have hmem : ∀ q, q ∈ (erase A l w x).1.fakeNode :: (ps.take k ++ ps.drop (k + 1)) →
      q ∈ l.fakeNode :: ps := by
    intro q hq
    rw [e1] at hq
    simp only [List.mem_cons, List.mem_append] at hq
    rcases hq with h | h | h
    · exact h ▸ List.mem_cons_self _ _
    · exact List.mem_cons_of_mem _ (List.mem_of_mem_take h)
    · exact List.mem_cons_of_mem _ (List.mem_of_mem_drop h)
  have hl := ring_mem_links hwf.ring hxT
  refine ⟨_, _, hwf1, ?_, fun q hq hm => hQ q hq (hmem q hm), ?_, ?_⟩
  · intro q hq hq2
    rw [e2] at hq2
    rcases C.deallocate_frees _ _ _ _ hq2 with h | h
    · exact hown q (hmem q hq) h
    · subst h
      rw [e1] at hq
      simp only [List.mem_cons] at hq
      rcases hq with h | h
      · have hd := hwf.ring.nodup
        rw [List.nodup_cons] at hd
        exact hd.1 (h ▸ hx)
      · exact hxn h
  · intro q hq hq2
    rw [e2] at hq2
    rcases C.deallocate_frees _ _ _ _ hq2 with h | h
    · exact hQa q hq h
    · exact hQ q hq (h ▸ hxT)
  · exact erase_sameOn A l w x (fun hm => hQ x hm hxT) (fun hm => hQ _ hm hl.2.1)
      (fun hm => hQ _ hm hl.1)

/-- Every list obtained by the operations from a well-formed list whose memory is out of
the allocator is well formed with its memory out of the allocator; a set `Q` of
addresses that were neither in the list nor available to the allocator is still so, and
the heap is unchanged there. -/
theorem reachableFrom_inv {A : AllocModel H σ} {E : ElemModel T}
    {avail : σ → Ptr → Prop} (C : AllocContract A avail) {l0 : ListObj H}
    {w0 : World σ T} {ps0 : List Ptr} {xs0 : List T} {Q : List Ptr}
    (hwf0 : WellFormed l0 w0.heap ps0 xs0) (hown0 : Owned avail l0 w0 ps0)
    (hQ0 : ∀ q ∈ Q, q ∉ l0.fakeNode :: ps0) (hQa0 : ∀ q ∈ Q, ¬ avail w0.alloc q)
    {l : ListObj H} {w : World σ T} (hreach : ReachableFrom A E l0 w0 l w) :
    ∃ ps xs, WellFormed l w.heap ps xs ∧ Owned avail l w ps ∧
      (∀ q ∈ Q, q ∉ l.fakeNode :: ps) ∧ (∀ q ∈ Q, ¬ avail w.alloc q) ∧
      SameOn w.heap w0.heap Q := by
  induction hreach with
  | start => exact ⟨ps0, xs0, hwf0, hown0, hQ0, hQa0, sameOn_refl _ _⟩
  | insert _ hpos hok ih =>
    obtain ⟨ps, xs, hwf, ho, hQ, hQa, hs⟩ := ih
    obtain ⟨ps1, xs1, h1, h2, h3, h4, h5⟩ :=
      insert_ok_preserves C hwf ho hQ hQa (position_mem hwf.ring hpos) hok
    exact ⟨ps1, xs1, h1, h2, h3, h4, sameOn_trans h5 hs⟩
  | insert_thrown _ _ hthrown ih =>
    obtain ⟨ps, xs, hwf, ho, hQ, hQa, hs⟩ := ih
    obtain ⟨h1, h2, h3, h4, h5⟩ := insert_thrown_preserves C hwf ho hQ hQa hthrown
    exact ⟨ps, xs, h1, h2, h3, h4, sameOn_trans h5 hs⟩
  | erase _ hpos hne ih =>
    obtain ⟨ps, xs, hwf, ho, hQ, hQa, hs⟩ := ih
    have hm := position_mem hwf.ring hpos
    rcases List.mem_cons.mp hm with h | h
    · exact absurd h hne
    · obtain ⟨ps1, xs1, h1, h2, h3, h4, h5⟩ := erase_preserves C hwf ho hQ hQa h
      exact ⟨ps1, xs1, h1, h2, h3, h4, sameOn_trans h5 hs⟩
  | push_back _ hok ih =>
    obtain ⟨ps, xs, hwf, ho, hQ, hQa, hs⟩ := ih
    obtain ⟨ps1, xs1, h1, h2, h3, h4, h5⟩ :=
      insert_ok_preserves C hwf ho hQ hQa (List.mem_cons_self _ _) hok
    exact ⟨ps1, xs1, h1, h2, h3, h4, sameOn_trans h5 hs⟩
  | @push_front l _ w _ _ _ hok ih =>
    obtain ⟨ps, xs, hwf, ho, hQ, hQa, hs⟩ := ih
    have hm : begin l w ∈ l.fakeNode :: ps :=
      (ring_mem_links hwf.ring (List.mem_cons_self _ _)).1
    obtain ⟨ps1, xs1, h1, h2, h3, h4, h5⟩ := insert_ok_preserves C hwf ho hQ hQa hm hok
    exact ⟨ps1, xs1, h1, h2, h3, h4, sameOn_trans h5 hs⟩
  | @pop_back l w _ hsz ih =>
    obtain ⟨ps, xs, hwf, ho, hQ, hQa, hs⟩ := ih
    have hne : ps ≠ [] := by
      intro he
      rw [he] at hwf
      have := hwf.size
      simp only [size, List.length_nil] at hsz this
      omega
    have hm : w.heap.prev (end_ l) ∈ ps := by
      show w.heap.prev l.fakeNode ∈ ps
      rw [(ring_begin hwf.ring).2]
      exact lastOr_mem_of_ne_nil _ hne
    obtain ⟨ps1, xs1, h1, h2, h3, h4, h5⟩ := erase_preserves C hwf ho hQ hQa hm
    exact ⟨ps1, xs1, h1, h2, h3, h4, sameOn_trans h5 hs⟩
  | @pop_front l w _ hsz ih =>
    obtain ⟨ps, xs, hwf, ho, hQ, hQa, hs⟩ := ih
    have hne : ps ≠ [] := by
      intro he
      rw [he] at hwf
      have := hwf.size
      simp only [size, List.length_nil] at hsz this
      omega
    have hm : begin l w ∈ ps := by
      show w.heap.next l.fakeNode ∈ ps
      rw [(ring_begin hwf.ring).1]
      exact firstOr_mem_of_ne_nil _ hne
    obtain ⟨ps1, xs1, h1, h2, h3, h4, h5⟩ := erase_preserves C hwf ho hQ hQa hm
    exact ⟨ps1, xs1, h1, h2, h3, h4, sameOn_trans h5 hs⟩

/-- Every list obtained from the empty list by the operations is well formed with its
memory out of the allocator. -/
theorem reachable_wellFormed {A : AllocModel H σ} {E : ElemModel T}
    {avail : σ → Ptr → Prop} (C : AllocContract A avail) {fake : Ptr} {alloc : H}
    {w0 : World σ T} {l : ListObj H} {w : World σ T}
    (hfake : 0 < fake ∧ fake < SIZE_RANGE) (hown : ¬ avail w0.alloc fake)
    (hreach : Reachable A E fake alloc w0 l w) :
    ∃ ps xs, WellFormed l w.heap ps xs ∧ Owned avail l w ps := by
  have hown0 : Owned avail (mkEmpty fake alloc w0).1 (mkEmpty fake alloc w0).2 [] := by
    intro q hq
    simp only [mkEmpty, List.mem_singleton] at hq
    rw [hq]; exact hown
  obtain ⟨ps, xs, h1, h2, _⟩ :=
    reachableFrom_inv (Q := []) C (mkEmpty_wellFormed fake alloc w0 hfake) hown0
      (fun _ hq => absurd hq (List.not_mem_nil _)) (fun _ hq => absurd hq (List.not_mem_nil _))
      hreach
  exact ⟨ps, xs, h1, h2⟩

/-- The copy loop of the copy constructors, started at the node after `done` of the
source ring `qs = done ++ rest` with the values `yd` already copied into the list `l`:
when the remaining allocations succeed and the remaining copies do not throw, it ends
normally, the list holds all the values, and the source is untouched and disjoint from
the list. -/
theorem copyLoop_spec {A : AllocModel H σ} {E : ElemModel T} {avail : σ → Ptr → Prop}
    (C : AllocContract A avail) {h0 : Heap T} {fo : Ptr} {qs : List Ptr}
    (hS : Ring h0 fo qs) :
    ∀ (rest done : List Ptr) (yr yd : List T) (fuel : Nat) (l : ListObj H) (w : World σ T)
      (ps : List Ptr),
      qs = done ++ rest →
      rest.map h0.value = yr.map some →
      SameOn w.heap h0 (fo :: qs) →
      WellFormed l w.heap ps yd →
      (∀ q ∈ fo :: qs, q ∉ l.fakeNode :: ps) →
      (∀ q ∈ fo :: qs, ¬ avail w.alloc q) →
      Owned avail l w ps →
      AllocSucceeds A l.nodeAlloc rest.length w.alloc →
      (∀ n, ∀ y ∈ yr, E.copyThrows n y = false) →
      rest.length ≤ fuel →
      ∃ l1 w1 ps1, copyLoop A E fuel (firstOr fo rest) fo l w = Outcome.ok (l1, w1) ∧
        WellFormed l1 w1.heap ps1 (yd ++ yr) ∧
        l1.fakeNode = l.fakeNode ∧ l1.nodeAlloc = l.nodeAlloc ∧
        SameOn w1.heap h0 (fo :: qs) ∧
        (∀ q ∈ fo :: qs, q ∉ l1.fakeNode :: ps1) ∧
        (∀ q ∈ fo :: qs, ¬ avail w1.alloc q) ∧
        Owned avail l1 w1 ps1 := by
  intro rest
  induction rest with
  | nil =>
    intro done yr yd fuel l w ps _ hvals hsame hT hdisj hownS hownT _ _ _
    have hyr : yr = [] := by
      cases yr with
      | nil => rfl
      | cons y yr => simp at hvals
    subst hyr
    refine ⟨l, w, ps, ?_, by simpa using hT, rfl, rfl, hsame, hdisj, hownS, hownT⟩
    cases fuel <;> simp [copyLoop, firstOr]
  | cons r rest ih =>
    intro done yr yd fuel l w ps hqs hvals hsame hT hdisj hownS hownT hsucc hcopy hfuel
    obtain ⟨y, yr, rfl⟩ : ∃ y yr1, yr = y :: yr1 := by
      cases yr with
      | nil => simp at hvals
      | cons y yr => exact ⟨y, yr, rfl⟩
    simp only [List.map_cons, List.cons.injEq] at hvals
    obtain ⟨hvr, hvals⟩ := hvals
    obtain ⟨f, rfl⟩ : ∃ f, fuel = f + 1 := by
      cases fuel with
      | zero => simp at hfuel
      | succ f => exact ⟨f, rfl⟩
    have hrS : r ∈ fo :: qs := by
      rw [hqs]; exact List.mem_cons_of_mem _ (List.mem_append_right _ (List.mem_cons_self _ _))
    have hne : r ≠ fo := by
      have hd := hS.nodup
      rw [List.nodup_cons] at hd
      intro he
      exact hd.1 (by rw [← he, hqs]; exact List.mem_append_right _ (List.mem_cons_self _ _))
    have hval : w.heap.value r = some y := by rw [(hsame r hrS).2.2, hvr]
    -- the allocation
    obtain ⟨hnn, hsucc1⟩ := hsucc
    rcases hA : A.allocate l.nodeAlloc w.alloc with ⟨_ | p, s1⟩
    · rw [hA] at hnn; exact absurd rfl hnn
    rw [hA] at hsucc1
    obtain ⟨hav, hp0, hp1, hrest⟩ := C.allocate_fresh _ _ _ _ hA
    have hpT : p ∉ l.fakeNode :: ps := fun hm => hownT p hm hav
    have hpS : p ∉ fo :: qs := fun hm => hownS p hm hav
    -- the insertion
    obtain ⟨w1, hok⟩ := insert_ok_of (E := E) l w l.fakeNode y hA
      (hcopy _ y (List.mem_cons_self _ _))
    obtain ⟨p1, s2, hA1, _, hl, halloc, _, _, hnext, hprev, hvalue⟩ := insert_ok_inv hok
    rw [hA] at hA1
    simp only [Prod.mk.injEq, Option.some.injEq] at hA1
    obtain ⟨hp1e, hs2e⟩ := hA1
    subst hp1e; subst hs2e
    have hit : (ps ++ [l.fakeNode])[ps.length]? = some l.fakeNode := by simp
    obtain ⟨hwf1, _⟩ := insert_wellFormed (v := y) hT hit hpT ⟨hp0, hp1⟩ rfl hnext hprev hvalue
    have hlen : ps.length = yd.length := by
      have := congrArg List.length hT.values
      simpa using this
    have e1 : ps.take ps.length = ps := List.take_length _
    have e2 : ps.drop ps.length = [] := List.drop_length _
    have e3 : yd.take ps.length = yd := by rw [hlen]; exact List.take_length _
    have e4 : yd.drop ps.length = [] := by rw [hlen]; exact List.drop_length _
    rw [e1, e2, e3, e4] at hwf1
    have hfT : l.fakeNode ∉ fo :: qs := fun hm => hdisj _ hm (List.mem_cons_self _ _)
    have hprevT : w.heap.prev l.fakeNode ∉ fo :: qs := fun hm =>
      hdisj _ hm (ring_mem_links hT.ring (List.mem_cons_self _ _)).2.1
    have hsame1 : SameOn w1.heap h0 (fo :: qs) :=
      sameOn_trans (insert_sameOn hok hA hpS hfT hprevT) hsame
    have hdisj1 : ∀ q ∈ fo :: qs, q ∉ l.fakeNode :: (ps ++ [p]) := by
      intro q hq hm
      simp only [List.mem_cons, List.mem_append, List.not_mem_nil, or_false] at hm
      rcases hm with h | h | h
      · exact hdisj q hq (h ▸ List.mem_cons_self _ _)
      · exact hdisj q hq (List.mem_cons_of_mem _ h)
      · exact hpS (h ▸ hq)
    have hownS1 : ∀ q ∈ fo :: qs, ¬ avail w1.alloc q := by
      intro q hq hav1
      rw [halloc] at hav1
      exact hownS q hq (hrest q hav1).1
    have hownT1 : Owned avail { l with sz := incr l.sz } w1 (ps ++ [p]) := by
      intro q hq hav1
      rw [halloc] at hav1
      obtain ⟨h1, h2⟩ := hrest q hav1
      simp only [List.mem_cons, List.mem_append, List.not_mem_nil, or_false] at hq
      rcases hq with h | h | h
      · exact hownT q (h ▸ List.mem_cons_self _ _) h1
      · exact hownT q (List.mem_cons_of_mem _ h) h1
      · exact h2 h
    have hnextr : w1.heap.next r = firstOr fo rest := by
      rw [(hsame1 r hrS).1]
      have hr2 : Ring h0 fo (done ++ r :: rest) := hqs ▸ hS
      exact (ring_neighbours hr2).2
    have hsucc2 : AllocSucceeds A l.nodeAlloc rest.length w1.alloc := by
      rw [halloc]; exact hsucc1
    obtain ⟨l2, w2, ps2, hloop, hwf2, hf2, ha2, hsame2, hdisj2, hownS2, hownT2⟩ :=
      ih (done ++ [r]) yr (yd ++ [y]) f { l with sz := incr l.sz } w1 (ps ++ [p])
        (by rw [hqs]; simp) hvals hsame1 hwf1 hdisj1 hownS1 hownT1 hsucc2
        (fun n y1 hy1 => hcopy n y1 (List.mem_cons_of_mem _ hy1))
        (by simpa using hfuel)
    refine ⟨l2, w2, ps2, ?_, by simpa using hwf2, hf2, ha2, hsame2, hdisj2, hownS2, hownT2⟩
    have hpb : push_back A E l w y = Outcome.ok ({ l with sz := incr l.sz }, w1) := hok
    show copyLoop A E (f + 1) r fo l w = _
    simp only [copyLoop, if_neg hne, hval, hpb, hnextr]
    exact hloop

/-- The body shared by the two copy constructors, for the allocator object `a` they
give to the new list. -/
theorem copy_core {A : AllocModel H σ} {E : ElemModel T} {avail : σ → Ptr → Prop}
    (C : AllocContract A avail) {other : ListObj H} {w : World σ T} {qs : List Ptr}
    {ys : List T} {fake : Ptr} {fuel : Nat} (a : H)
    (hS : WellFormed other w.heap qs ys) (hownS : Owned avail other w qs)
    (hfake : 0 < fake ∧ fake < SIZE_RANGE) (hfresh : fake ∉ other.fakeNode :: qs)
    (hfa : ¬ avail w.alloc fake)
    (hsucc : AllocSucceeds A a qs.length w.alloc)
    (hcopy : ∀ n, ∀ y ∈ ys, E.copyThrows n y = false) (hfuel : qs.length ≤ fuel) :
    CopyResult A E w other qs ys fake
      (unwind A (copyLoop A E fuel (cbegin other (mkEmpty fake a w).2)
        (cend other (mkEmpty fake a w).2) { fakeNode := fake, sz := 0, nodeAlloc := a }
        (mkEmpty fake a w).2)) := by
  have hsame0 : SameOn (mkEmpty fake a w).2.heap w.heap (other.fakeNode :: qs) := by
    intro q hq
    have hne : q ≠ fake := fun he => hfresh (he ▸ hq)
    simp [mkEmpty, Heap.setNext, Heap.setPrev, hne]
  have hS0 := wellFormed_sameOn hS hsame0
  have hbegin : cbegin other (mkEmpty fake a w).2 = firstOr other.fakeNode qs :=
    (ring_begin hS0.ring).1
  have hend : cend other (mkEmpty fake a w).2 = other.fakeNode :=
    (ring_mem_links hS0.ring (List.mem_cons_self _ _)).2.2.2
  have hT0 := mkEmpty_wellFormed fake a w hfake
  obtain ⟨l1, w1, ps, hloop, hwf1, hf1, _, hsame1, hdisj1, hownS1, hownT1⟩ :=
    copyLoop_spec (E := E) C hS.ring qs [] ys [] fuel
      { fakeNode := fake, sz := 0, nodeAlloc := a } (mkEmpty fake a w).2 []
      rfl hS.values hsame0 hT0
      (by
        intro q hq hm
        simp only [List.mem_singleton] at hm
        exact hfresh (hm ▸ hq))
      hownS
      (by
        intro q hq
        simp only [List.mem_singleton] at hq
        rw [hq]; exact hfa)
      hsucc hcopy hfuel
  rw [hbegin, hend, hloop]
  simp only [List.nil_append] at hwf1
  have hsz : size l1 = size other := by
    have h1 := congrArg List.length hwf1.values
    have h2 := congrArg List.length hS.values
    simp only [List.length_map] at h1 h2
    show l1.sz = other.sz
    rw [hwf1.size, hS.size, h1, h2]
  refine ⟨l1, w1, ps, rfl, hf1, hwf1, hsz, wellFormed_sameOn hS hsame1, hsame1, hdisj1, ?_⟩
  intro l2 w2 hreach
  obtain ⟨_, _, _, _, _, _, hs2⟩ := reachableFrom_inv C hwf1 hownT1 hdisj1 hownS1 hreach
  have hs := sameOn_trans hs2 hsame1
  exact ⟨hs, wellFormed_sameOn hS hs⟩

/-- A call of `insert` at the position number `k` of a well-formed list, for which the
allocator returns unused storage and the copy does not throw, returns normally with the
new node spliced in. -/
theorem insert_at {A : AllocModel H σ} {E : ElemModel T} {l : ListObj H}
    {w : World σ T} {ps : List Ptr} {xs : List T} {k : Nat} {it p : Ptr} {s1 : σ} (v : T)
    (hwf : WellFormed l w.heap ps xs)
    (hit : (ps ++ [l.fakeNode])[k]? = some it)
    (hA : A.allocate l.nodeAlloc w.alloc = (some p, s1))
    (hfresh : p ∉ l.fakeNode :: ps) (hrange : 0 < p ∧ p < SIZE_RANGE)
    (hc : E.copyThrows w.ctors v = false) :
    ∃ l1 w1, insert A E l w it v = Outcome.ok (l1, w1) ∧
      WellFormed l1 w1.heap (ps.take k ++ p :: ps.drop k) (xs.take k ++ v :: xs.drop k) ∧
      l1.sz = l.sz + 1 ∧ w1.alloc = s1 ∧
      w1.trace = w.trace ++ [Event.allocate p, Event.construct p] := by
  obtain ⟨w1, hok⟩ := insert_ok_of (E := E) l w it v hA hc
  obtain ⟨p1, s2, hA1, _, hl, hal, _, htr, hnext, hprev, hval⟩ := insert_ok_inv hok
  rw [hA] at hA1
  simp only [Prod.mk.injEq, Option.some.injEq] at hA1
  obtain ⟨rfl, rfl⟩ := hA1
  obtain ⟨hwf1, hsz⟩ := insert_wellFormed (v := v) hwf hit hfresh hrange hl hnext hprev hval
  exact ⟨_, w1, hok, hwf1, hsz, hal, htr⟩

/-- The lengths of the nodes and of the values of a well-formed list agree. -/
theorem wellFormed_length {l : ListObj H} {h : Heap T} {ps : List Ptr} {xs : List T}
    (hwf : WellFormed l h ps xs) : ps.length = xs.length := by
  have := congrArg List.length hwf.values
  simpa using this

/-- The last address of a non-empty list of nodes. -/
theorem lastOr_eq_getLast? (a : Ptr) {L : List Ptr} (hL : L ≠ []) :
    L[L.length - 1]? = some (lastOr a L) := by
  induction L generalizing a with
  | nil => exact absurd rfl hL
  | cons b L ih =>
    cases L with
    | nil => rfl
    | cons c L =>
      have := ih b (by simp)
      simpa [lastOr] using this

/-- Following `next` along a path. -/
theorem iterate_next_path {h : Heap T} :
    ∀ (k : Nat) (a : Ptr) (rest : List Ptr), Path h (a :: rest) → k ≤ rest.length →
      (a :: rest)[k]? = some (Nat.iterate h.next k a)
  | 0, _, _, _, _ => by simp
  | k + 1, a, [], _, hk => by simp at hk
  | k + 1, a, b :: rest, hp, hk => by
    have hl : h.next a = b := hp.1.1
    have := iterate_next_path k b rest hp.2 (by simpa using hk)
    simp only [List.getElem?_cons_succ, Function.iterate_succ, Function.comp_apply, hl]
    exact this

/-- A path read backwards is a path of the heap read backwards. -/
theorem path_reverse {h : Heap T} {l : List Ptr} (hp : Path h l) :
    Path h.flip l.reverse := by
  rw [path_iff] at hp ⊢
  rw [List.chain'_reverse]
  exact hp.imp (fun a b hab => ⟨hab.2, hab.1⟩)

theorem releaseEvents_append (ps qs : List Ptr) :
    releaseEvents (ps ++ qs) = releaseEvents ps ++ releaseEvents qs := by
  induction ps with
  | nil => rfl
  | cons p ps ih => simp [releaseEvents, ih]

theorem buildEvents_append (ps qs : List Ptr) :
    buildEvents (ps ++ qs) = buildEvents ps ++ buildEvents qs := by
  induction ps with
  | nil => rfl
  | cons p ps ih => simp [buildEvents, ih]

theorem mem_releaseEvents {e : Event} {ps : List Ptr} (he : e ∈ releaseEvents ps) :
    ∃ p ∈ ps, e = Event.destroy p ∨ e = Event.deallocate p := by
  induction ps with
  | nil => simp [releaseEvents] at he
  | cons p ps ih =>
    simp only [releaseEvents, List.mem_cons] at he
    rcases he with h | h | h
    · exact ⟨p, List.mem_cons_self _ _, Or.inl h⟩
    · exact ⟨p, List.mem_cons_self _ _, Or.inr h⟩
    · obtain ⟨q, hq, hh⟩ := ih h
      exact ⟨q, List.mem_cons_of_mem _ hq, hh⟩

/-- In the release events of pairwise distinct nodes, every node is destroyed once and
released once. -/
theorem releaseEvents_count {ps : List Ptr} (hd : ps.Nodup) {p : Ptr} (hp : p ∈ ps) :
    (releaseEvents ps).count (Event.destroy p) = 1 ∧
    (releaseEvents ps).count (Event.deallocate p) = 1 := by
  induction ps with
  | nil => simp at hp
  | cons q ps ih =>
    rw [List.nodup_cons] at hd
    have hnot : ∀ r, r ∉ ps → (releaseEvents ps).count (Event.destroy r) = 0 ∧
        (releaseEvents ps).count (Event.deallocate r) = 0 := by
      intro r hr
      constructor
      · refine List.count_eq_zero.mpr (fun hm => ?_)
        obtain ⟨x, hx, h1 | h1⟩ := mem_releaseEvents hm
        · simp only [Event.destroy.injEq] at h1; exact hr (h1 ▸ hx)
        · simp at h1
      · refine List.count_eq_zero.mpr (fun hm => ?_)
        obtain ⟨x, hx, h1 | h1⟩ := mem_releaseEvents hm
        · simp at h1
        · simp only [Event.deallocate.injEq] at h1; exact hr (h1 ▸ hx)
    rcases List.mem_cons.mp hp with h | h
    · subst h
      obtain ⟨h1, h2⟩ := hnot p hd.1
      simp [releaseEvents, List.count_cons, h1, h2]
    · obtain ⟨h1, h2⟩ := ih hd.2 h
      have hne : q ≠ p := fun he => hd.1 (he ▸ h)
      simp [releaseEvents, List.count_cons, h1, h2, hne]

/-- The loop of the destructor after `k` iterations at most, on a well-formed list: the
first `k` nodes have been destroyed and released, front to back, and the others form a
well-formed list; memory outside the list is untouched. -/
theorem eraseWhile_spec (A : AllocModel H σ) {Q : List Ptr} :
    ∀ (k : Nat) (ps : List Ptr) (xs : List T) (l : ListObj H) (w : World σ T),
      WellFormed l w.heap ps xs → (∀ q ∈ Q, q ∉ l.fakeNode :: ps) →
      WellFormed (eraseWhile A k l w).1 (eraseWhile A k l w).2.heap (ps.drop k) (xs.drop k) ∧
      (eraseWhile A k l w).1.fakeNode = l.fakeNode ∧
      (eraseWhile A k l w).1.nodeAlloc = l.nodeAlloc ∧
      (eraseWhile A k l w).2.trace = w.trace ++ releaseEvents (ps.take k) ∧
      (eraseWhile A k l w).2.ctors = w.ctors ∧
      (eraseWhile A k l w).2.alloc
        = (ps.take k).foldl (fun s p => A.deallocate l.nodeAlloc p s) w.alloc ∧
      SameOn (eraseWhile A k l w).2.heap w.heap Q := by
  intro k
  induction k with
  | zero =>
    intro ps xs l w hwf _
    exact ⟨by simpa using hwf, rfl, rfl, by simp [eraseWhile, releaseEvents], rfl, rfl,
      sameOn_refl _ _⟩
  | succ k ih =>
    intro ps xs l w hwf hQ
    cases ps with
    | nil =>
      have hsz : ¬ 0 < l.sz := by rw [hwf.size]; simp
      have hxs : xs = [] := by
        have := wellFormed_length hwf
        exact List.length_eq_zero.mp this.symm
      subst hxs
      have hstep : eraseWhile A (k + 1) l w = (l, w) := by
        simp only [eraseWhile, if_neg hsz]
      rw [hstep]
      exact ⟨by simpa using hwf, rfl, rfl, by simp [releaseEvents], rfl, rfl, sameOn_refl _ _⟩
    | cons p ps =>
      have hsz : 0 < l.sz := by rw [hwf.size]; simp
      have hb : begin l w = p := (ring_begin hwf.ring).1
      have hx : (p :: ps)[0]? = some p := by simp
      obtain ⟨hwf1, _, _⟩ := erase_wellFormed A hwf hx
      obtain ⟨e1, e2, e3, e4, _⟩ := erase_effect A l w p
      simp only [List.take_zero, List.nil_append, zero_add, List.drop_succ_cons,
        List.drop_zero] at hwf1
      have hl := ring_mem_links hwf.ring (List.mem_cons_of_mem _ (List.mem_cons_self p ps))
      have hs1 : SameOn (erase A l w p).2.heap w.heap Q :=
        erase_sameOn A l w p (fun hm => hQ p hm (List.mem_cons_of_mem _ (List.mem_cons_self _ _)))
          (fun hm => hQ _ hm hl.2.1) (fun hm => hQ _ hm hl.1)
      have hQ1 : ∀ q ∈ Q, q ∉ (erase A l w p).1.fakeNode :: ps := by
        intro q hq hm
        rw [e1] at hm
        rcases List.mem_cons.mp hm with h | h
        · exact hQ q hq (h ▸ List.mem_cons_self _ _)
        · exact hQ q hq (List.mem_cons_of_mem _ (List.mem_cons_of_mem _ h))
      obtain ⟨i1, i2, i3, i4, i5, i6, i7⟩ := ih ps (xs.drop 1) _ _ hwf1 hQ1
      have hstep : eraseWhile A (k + 1) l w
          = eraseWhile A k (erase A l w p).1 (erase A l w p).2 := by
        simp only [eraseWhile, if_pos hsz, hb]
      rw [hstep]
      refine ⟨?_, by rw [i2, e1], by rw [i3, e1], ?_, by rw [i5, e3], ?_,
        sameOn_trans i7 hs1⟩
      · have : (xs.drop 1).drop k = xs.drop (k + 1) := by
          rw [List.drop_drop, Nat.add_comm]
        rw [this] at i1
        simpa using i1
      · rw [i4, e4]
        simp [releaseEvents]
      · rw [i6, e2, e1]
        simp

/-- The loop of the destructor does nothing on a list whose `sz_` is zero. -/
theorem eraseWhile_stop (A : AllocModel H σ) (fuel : Nat) (l : ListObj H) (w : World σ T)
    (hsz : l.sz = 0) : eraseWhile A fuel l w = (l, w) := by
  cases fuel with
  | zero => rfl
  | succ f => simp only [eraseWhile, hsz, lt_irrefl, if_false]

/-- Running the loop of the destructor for `k + m` iterations at most is running it for
`k` and then for `m`. -/
theorem eraseWhile_add (A : AllocModel H σ) (m : Nat) :
    ∀ (k : Nat) (l : ListObj H) (w : World σ T),
      eraseWhile A (k + m) l w
        = eraseWhile A m (eraseWhile A k l w).1 (eraseWhile A k l w).2 := by
  intro k
  induction k with
  | zero => intro l w; rw [Nat.zero_add]; rfl
  | succ k ih =>
    intro l w
    have e : k + 1 + m = (k + m) + 1 := by omega
    rw [e]
    by_cases hsz : 0 < l.sz
    · simp only [eraseWhile, if_pos hsz]
      exact ih _ _
    · simp only [eraseWhile, if_neg hsz]
      have h0 : l.sz = 0 := by omega
      cases m with
      | zero => rfl
      | succ m => simp only [eraseWhile, if_neg hsz]

/-- The links after `linkBack`. -/
theorem linkBack_effect (h : Heap T) (fake p : Ptr) :
    (∀ u, (linkBack h fake p).next u =
      if u = h.prev fake then p else if u = p then fake else h.next u) ∧
    (∀ u, (linkBack h fake p).prev u =
      if u = fake then p else if u = p then h.prev fake else h.prev u) ∧
    (linkBack h fake p).value = h.value := by
  refine ⟨?_, ?_, rfl⟩
  · intro u
    simp only [linkBack, Heap.setNext, Heap.setPrev]
    split <;> simp_all
  · intro u
    simp only [linkBack, Heap.setNext, Heap.setPrev]

/-- Linking a fresh node holding `v` at the back of a ring, as the sized constructors
do. -/
theorem linkBack_ring {h : Heap T} {fake p : Ptr} {ps : List Ptr} {xs : List T} (v : T)
    {Q : List Ptr} (hr : Ring h fake ps) (hvals : ps.map h.value = xs.map some)
    (hp : p ∉ fake :: ps) (hp0 : 0 < p ∧ p < SIZE_RANGE)
    (hQ : ∀ q ∈ Q, q ∉ fake :: ps) (hpQ : p ∉ Q) :
    Ring (linkBack (h.setValue p (some v)) fake p) fake (ps ++ [p]) ∧
    (ps ++ [p]).map (linkBack (h.setValue p (some v)) fake p).value
      = (xs ++ [v]).map some ∧
    SameOn (linkBack (h.setValue p (some v)) fake p) h Q := by
  obtain ⟨enext, eprev, eval⟩ := linkBack_effect (h.setValue p (some v)) fake p
  have hpf : (h.setValue p (some v)).prev fake = h.prev fake := rfl
  have hnx : ∀ u, (h.setValue p (some v)).next u = h.next u := fun _ => rfl
  have hpv : ∀ u, (h.setValue p (some v)).prev u = h.prev u := fun _ => rfl
  have hlast := (ring_begin hr).2
  have hlm := lastOr_mem fake ps
  have hne : lastOr fake ps ≠ p := fun he => hp (he ▸ hlm)
  have hr0 : Ring h fake (ps ++ []) := by simpa using hr
  refine ⟨ring_insert hr0 (by simpa using hp) hp0 ?_ ?_, ?_, ?_⟩
  · intro u
    rw [enext, hpf, hlast, hnx]
    show _ = if u = p then fake else if u = lastOr fake ps then p else h.next u
    by_cases h1 : u = p
    · have h2 : u ≠ lastOr fake ps := fun he => hne (he.symm.trans h1)
      simp only [if_pos h1, if_neg h2]
    · by_cases h2 : u = lastOr fake ps
      · simp only [if_pos h2, if_neg h1]
      · simp only [if_neg h2, if_neg h1]
  · intro u
    rw [eprev, hpf, hlast, hpv]
    rfl
  · rw [eval, List.map_append, List.map_append, ← hvals]
    have hpps : p ∉ ps := fun hm => hp (List.mem_cons_of_mem _ hm)
    have : ps.map (h.setValue p (some v)).value = ps.map h.value := by
      refine map_value_congr (fun q hq => ?_)
      have hq : q ≠ p := fun he => hpps (he ▸ hq)
      simp [Heap.setValue, hq]
    rw [this]
    simp [Heap.setValue]
  · intro q hq
    have h1 : q ≠ p := fun he => hpQ (he ▸ hq)
    have h2 : q ≠ fake := fun he => hQ q hq (he ▸ List.mem_cons_self _ _)
    have h3 : q ≠ lastOr fake ps := fun he => hQ q hq (he ▸ hlm)
    refine ⟨?_, ?_, ?_⟩
    · rw [enext, hpf, hlast, if_neg h3, if_neg h1]; rfl
    · rw [eprev, if_neg h2, if_neg h1]; rfl
    · rw [eval]; simp [Heap.setValue, h1]

/-- The loop of the sized constructors with a `try` block, when the allocations succeed
and every construction stores the value `v` without throwing: it ends normally with `n`
new nodes holding `v` linked at the back. -/
theorem sizedLoop_spec {A : AllocModel H σ} {avail : σ → Ptr → Prop}
    (C : AllocContract A avail) {construct : Ptr → World σ T → Bool × World σ T} {v : T}
    (hctor : ∀ (p : Ptr) (w1 : World σ T), construct p w1 =
      (true, { w1 with heap := w1.heap.setValue p (some v), ctors := w1.ctors + 1,
                       trace := w1.trace ++ [Event.construct p] })) :
    ∀ (n : Nat) (last : Ptr) (l : ListObj H) (w : World σ T) (ps : List Ptr) (xs : List T),
      WellFormed l w.heap ps xs → Owned avail l w ps →
      AllocSucceeds A l.nodeAlloc n w.alloc →
      ∃ last1 l1 w1 ps1, sizedLoop A construct n last l w = Outcome.ok (last1, l1, w1) ∧
        WellFormed l1 w1.heap (ps ++ ps1) (xs ++ List.replicate n v) ∧ ps1.length = n ∧
        l1.fakeNode = l.fakeNode := by
  intro n
  induction n with
  | zero =>
    intro last l w ps xs hwf _ _
    exact ⟨last, l, w, [], rfl, by simpa using hwf, rfl, rfl⟩
  | succ n ih =>
    intro last l w ps xs hwf hown hsucc
    obtain ⟨hnn, hsucc1⟩ := hsucc
    rcases hA : A.allocate l.nodeAlloc w.alloc with ⟨_ | p, s1⟩
    · rw [hA] at hnn; exact absurd rfl hnn
    rw [hA] at hsucc1
    obtain ⟨hav, hp0, hp1, hrest⟩ := C.allocate_fresh _ _ _ _ hA
    have hpT : p ∉ l.fakeNode :: ps := fun hm => hown p hm hav
    obtain ⟨hring, hvals, _⟩ := linkBack_ring (Q := []) v hwf.ring hwf.values hpT ⟨hp0, hp1⟩
      (fun _ hq => absurd hq (List.not_mem_nil _)) (List.not_mem_nil _)
    have hlt := length_lt_of_nodup_range hring.nodup hring.range
    simp only [List.length_cons, List.length_append, List.length_nil] at hlt
    have hsz : incr l.sz = (ps ++ [p]).length := by
      rw [incr_eq (by rw [hwf.size]; omega), hwf.size]; simp
    have hwf1 : WellFormed { l with sz := incr l.sz } (linkBack (w.heap.setValue p (some v))
        l.fakeNode p) (ps ++ [p]) (xs ++ [v]) := ⟨hring, hsz, hvals⟩
    have hown1 : ∀ q ∈ l.fakeNode :: (ps ++ [p]), ¬ avail s1 q := by
      intro q hq hav1
      obtain ⟨h1, h2⟩ := hrest q hav1
      simp only [List.mem_cons, List.mem_append, List.not_mem_nil, or_false] at hq
      rcases hq with h | h | h
      · exact hown q (h ▸ List.mem_cons_self _ _) h1
      · exact hown q (List.mem_cons_of_mem _ h) h1
      · exact h2 h
    obtain ⟨last1, l1, w1, ps1, hloop, hwf2, hlen, hf⟩ :=
      ih p { l with sz := incr l.sz }
        { heap := linkBack (w.heap.setValue p (some v)) l.fakeNode p, alloc := s1,
          ctors := w.ctors + 1,
          trace := w.trace ++ [Event.allocate p] ++ [Event.construct p] }
        (ps ++ [p]) (xs ++ [v]) hwf1 hown1 hsucc1
    refine ⟨last1, l1, w1, p :: ps1, ?_, ?_, by simp [hlen], hf⟩
    · simp only [sizedLoop, nodeAllocate, hA, hctor]
      exact hloop
    · have e : xs ++ List.replicate (n + 1) v = xs ++ [v] ++ List.replicate n v := by
        simp [List.replicate_succ]
      rw [e]
      simpa using hwf2

/-- The loop of `List(sz, alloc)`, when the allocations succeed and no default
construction throws: it ends normally with `n` new nodes holding the default value
linked at the back; `sz_` is as it was. -/
theorem sizedAllocLoop_spec {A : AllocModel H σ} {E : ElemModel T}
    {avail : σ → Ptr → Prop} (C : AllocContract A avail)
    (hdef : ∀ k, E.defaultThrows k = false) :
    ∀ (n : Nat) (l : ListObj H) (w : World σ T) (ps : List Ptr) (xs : List T),
      Ring w.heap l.fakeNode ps → ps.map w.heap.value = xs.map some →
      Owned avail l w ps → AllocSucceeds A l.nodeAlloc n w.alloc →
      ∃ w1 ps1, sizedAllocLoop A E n l w = Outcome.ok (l, w1) ∧
        Ring w1.heap l.fakeNode (ps ++ ps1) ∧
        (ps ++ ps1).map w1.heap.value = (xs ++ List.replicate n E.defaultValue).map some ∧
        ps1.length = n := by
  intro n
  induction n with
  | zero =>
    intro l w ps xs hr hv _ _
    exact ⟨w, [], rfl, by simpa using hr, by simpa using hv, rfl⟩
  | succ n ih =>
    intro l w ps xs hr hv hown hsucc
    obtain ⟨hnn, hsucc1⟩ := hsucc
    rcases hA : A.allocate l.nodeAlloc w.alloc with ⟨_ | p, s1⟩
    · rw [hA] at hnn; exact absurd rfl hnn
    rw [hA] at hsucc1
    obtain ⟨hav, hp0, hp1, hrest⟩ := C.allocate_fresh _ _ _ _ hA
    have hpT : p ∉ l.fakeNode :: ps := fun hm => hown p hm hav
    obtain ⟨hring, hvals, _⟩ := linkBack_ring (Q := []) E.defaultValue hr hv hpT ⟨hp0, hp1⟩
      (fun _ hq => absurd hq (List.not_mem_nil _)) (List.not_mem_nil _)
    have hown1 : ∀ q ∈ l.fakeNode :: (ps ++ [p]), ¬ avail s1 q := by
      intro q hq hav1
      obtain ⟨h1, h2⟩ := hrest q hav1
      simp only [List.mem_cons, List.mem_append, List.not_mem_nil, or_false] at hq
      rcases hq with h | h | h
      · exact hown q (h ▸ List.mem_cons_self _ _) h1
      · exact hown q (List.mem_cons_of_mem _ h) h1
      · exact h2 h
    obtain ⟨w1, ps1, hloop, hr2, hv2, hlen⟩ :=
      ih l
        { heap := linkBack (w.heap.setValue p (some E.defaultValue)) l.fakeNode p, alloc := s1,
          ctors := w.ctors + 1,
          trace := w.trace ++ [Event.allocate p] ++ [Event.construct p] }
        (ps ++ [p]) (xs ++ [E.defaultValue]) hring hvals hown1 hsucc1
    refine ⟨w1, p :: ps1, ?_, by simpa using hr2, ?_, by simp [hlen]⟩
    · simp only [sizedAllocLoop, nodeAllocate, hA, constructDefault, hdef]
      exact hloop
    · have e : xs ++ List.replicate (n + 1) E.defaultValue
          = xs ++ [E.defaultValue] ++ List.replicate n E.defaultValue := by
        simp [List.replicate_succ]
      rw [e]
      simpa using hv2

/-- A well-formed list is what a sized constructor has to return. -/
theorem sizedResult_of {l1 : ListObj H} {w1 : World σ T} {ps : List Ptr} {sz : Nat} {v : T}
    {fake : Ptr} (hf : l1.fakeNode = fake)
    (hwf : WellFormed l1 w1.heap ps (List.replicate sz v)) :
    SizedResult sz v fake (Outcome.ok (l1, w1)) := by
  have hlen : ps.length = sz := by
    have := wellFormed_length hwf
    simpa using this
  have hsz : size l1 = sz := by
    show l1.sz = sz
    rw [hwf.size, hlen]
  refine ⟨l1, w1, ps, rfl, hf, hwf, hsz, ?_, hlen⟩
  have hr : Ring w1.heap l1.fakeNode ([] ++ ps) := by simpa using hwf.ring
  have := walk_ring [] ps hr
  show walk w1.heap l1.fakeNode l1.sz (w1.heap.next l1.fakeNode) = some ps
  rw [hwf.size, (ring_begin hwf.ring).1]
  exact this

/-- The body shared by the three sized constructors with a `try` block. -/
theorem sized_core {A : AllocModel H σ} {avail : σ → Ptr → Prop}
    (C : AllocContract A avail) {construct : Ptr → World σ T → Bool × World σ T} {v : T}
    (hctor : ∀ (p : Ptr) (w1 : World σ T), construct p w1 =
      (true, { w1 with heap := w1.heap.setValue p (some v), ctors := w1.ctors + 1,
                       trace := w1.trace ++ [Event.construct p] }))
    {w : World σ T} {fake : Ptr} (garbage : Ptr) (sz : Nat) (a : H)
    (hfake : 0 < fake ∧ fake < SIZE_RANGE) (hfa : ¬ avail w.alloc fake)
    (hsucc : AllocSucceeds A a sz w.alloc) :
    SizedResult sz v fake (unwind A (sizedCatch A
      (sizedLoop A construct sz garbage (mkEmpty fake a w).1 (mkEmpty fake a w).2))) := by
  have hown0 : Owned avail (mkEmpty fake a w).1 (mkEmpty fake a w).2 [] := by
    intro q hq
    simp only [mkEmpty, List.mem_singleton] at hq
    rw [hq]; exact hfa
  obtain ⟨last1, l1, w1, ps1, hloop, hwf, _, hf⟩ :=
    sizedLoop_spec C hctor sz garbage (mkEmpty fake a w).1 (mkEmpty fake a w).2 [] []
      (mkEmpty_wellFormed fake a w hfake) hown0 hsucc
  rw [hloop]
  simp only [List.nil_append] at hwf
  exact sizedResult_of hf hwf

/-- A list is the list of its entries. -/
theorem map_range_of_getElem? {α : Type} {L : List α} {f : Nat → α}
    (h : ∀ k, k < L.length → L[k]? = some (f k)) : (List.range L.length).map f = L := by
  apply List.ext_getElem?
  intro k
  by_cases hk : k < L.length
  · rw [h k hk, List.getElem?_map, List.getElem?_range hk]
    rfl
  · have hk1 : L.length ≤ k := Nat.le_of_not_lt hk
    rw [List.getElem?_eq_none hk1, List.getElem?_eq_none (by simpa using hk1)]

/-- Following `next` from the sentinel of a ring visits the nodes in their order and
then the sentinel. -/
theorem iterate_next_ring {h : Heap T} {fake : Ptr} {ps : List Ptr} (hr : Ring h fake ps)
    (k : Nat) (hk : k ≤ ps.length) :
    (ps ++ [fake])[k]? = some (Nat.iterate h.next k (h.next fake)) := by
  have hpath : Path h (fake :: (ps ++ [fake])) := hr.path
  have := iterate_next_path (k + 1) _ _ hpath (by simp; omega)
  simpa [Function.iterate_succ_apply] using this

/-- Following `prev` from the sentinel of a ring visits the nodes in reverse order. -/
theorem iterate_prev_ring {h : Heap T} {fake : Ptr} {ps : List Ptr} (hr : Ring h fake ps)
    (k : Nat) (hk : k ≤ ps.length) :
    (fake :: ps.reverse)[k]? = some (Nat.iterate h.prev k fake) := by
  have hpath : Path h (fake :: (ps ++ [fake])) := hr.path
  have hrev := path_reverse hpath
  have e : (fake :: (ps ++ [fake])).reverse = fake :: (ps.reverse ++ [fake]) := by simp
  rw [e] at hrev
  have := iterate_next_path k _ _ hrev (by simp; omega)
  have hnx : h.flip.next = h.prev := rfl
  rw [hnx] at this
  rw [← this]
  cases k with
  | zero => simp
  | succ k =>
    simp only [List.getElem?_cons_succ]
    rw [List.getElem?_append_left (by simpa using hk)]

/-- The two ways `StackStorage::allocate` can go, field by field. -/
theorem allocate_fields {N : Nat} (s : StackStorage N) (count a size_of_T : Nat)
    (ha : 0 < a) :
    (padding a s.top + (size_of_T * count) % SIZE_RANGE ≤ s.free ∧
      (s.allocate count a size_of_T).1 = s.top + padding a s.top ∧
      a ∣ (s.allocate count a size_of_T).1 ∧
      (s.allocate count a size_of_T).2.top
        = s.top + padding a s.top + (size_of_T * count) % SIZE_RANGE ∧
      (s.allocate count a size_of_T).2.free
        = s.free - padding a s.top - (size_of_T * count) % SIZE_RANGE ∧
      (s.allocate count a size_of_T).2.storage = s.storage) ∨
    (s.free < padding a s.top + (size_of_T * count) % SIZE_RANGE ∧
      (s.allocate count a size_of_T).1 = nullptr ∧ (s.allocate count a size_of_T).2 = s) := by
  rcases allocate_cases s count a size_of_T ha with ⟨k1, k2, k3, k4⟩ | h
  · exact Or.inl ⟨k1, k2, k3, by rw [k4], by rw [k4], by rw [k4]⟩
  · exact Or.inr h

/-- A call with a power of two as alignment keeps an arena valid, keeps its buffer, and
does not give bytes back. -/
theorem arenaCall_run_valid {N : Nat} {c : ArenaCall} {s : StackStorage N}
    (hc : c.Aligned) (hv : s.Valid) :
    (c.run s).Valid ∧ (c.run s).storage = s.storage ∧ (c.run s).free ≤ s.free ∧
      s.top ≤ (c.run s).top := by
  cases c with
  | deallocate p n => exact ⟨hv, rfl, le_refl _, le_refl _⟩
  | allocate size_of_T count a =>
    have hpos : 0 < a := pow_two_pos hc
    have h1 := hv.pos; have h2 := hv.fits; have h3 := hv.cursor; have h4 := hv.free_le
    have e : (ArenaCall.allocate size_of_T count a).run s = (s.allocate count a size_of_T).2 :=
      rfl
    rw [e]
    rcases allocate_fields s count a size_of_T hpos with ⟨k1, _, _, k4, k5, k6⟩ | ⟨_, _, k3⟩
    · generalize (size_of_T * count) % SIZE_RANGE = B at k1 k4 k5
      generalize padding a s.top = P at k1 k4 k5
      refine ⟨⟨by rw [k6]; exact h1, by rw [k6]; exact h2, ?_, ?_⟩, k6, ?_, ?_⟩
      · rw [k4, k5, k6]; omega
      · rw [k5]; omega
      · rw [k5]; omega
      · rw [k4]; omega
    · rw [k3]
      exact ⟨hv, rfl, le_refl _, le_refl _⟩

theorem runCalls_cons {N : Nat} (c : ArenaCall) (cs : List ArenaCall) (s : StackStorage N) :
    runCalls (c :: cs) s = runCalls cs (c.run s) := rfl

/-- A sequence of calls keeps an arena valid, keeps its buffer, and does not give bytes
back. -/
theorem runCalls_valid {N : Nat} :
    ∀ (cs : List ArenaCall) (s : StackStorage N), (∀ c ∈ cs, c.Aligned) → s.Valid →
      (runCalls cs s).Valid ∧ (runCalls cs s).storage = s.storage ∧
      (runCalls cs s).free ≤ s.free ∧ s.top ≤ (runCalls cs s).top
  | [], s, _, hv => ⟨hv, rfl, le_refl _, le_refl _⟩
  | c :: cs, s, hall, hv => by
    obtain ⟨h1, h2, h3, h4⟩ := arenaCall_run_valid (hall c (List.mem_cons_self _ _)) hv
    obtain ⟨i1, i2, i3, i4⟩ :=
      runCalls_valid cs (c.run s) (fun d hd => hall d (List.mem_cons_of_mem _ hd)) h1
    rw [runCalls_cons]
    exact ⟨i1, i2.trans h2, le_trans i3 h3, le_trans h4 i4⟩

theorem disjointInOrder_append {L1 L2 : List (Nat × Nat)} (h1 : DisjointInOrder L1)
    (h2 : DisjointInOrder L2) (h12 : ∀ r ∈ L1, ∀ q ∈ L2, r.1 + r.2 ≤ q.1) :
    DisjointInOrder (L1 ++ L2) := by
  induction L1 with
  | nil => exact h2
  | cons r L1 ih =>
    obtain ⟨hr, hrest⟩ := h1
    refine ⟨?_, ih hrest (fun x hx => h12 x (List.mem_cons_of_mem _ hx))⟩
    intro q hq
    rcases List.mem_append.mp hq with h | h
    · exact hr q h
    · exact h12 r (List.mem_cons_self _ _) q h

/-- `n` one-node allocations through a `StackAllocator` bound to the arena at `h`, when
`n` nodes with the worst alignment padding each fit in the bytes that remain: all
succeed, the regions lie one after the other in the part of the buffer that was unused,
and at most the worst case is consumed. -/
theorem allocateTimes_stack {N : Nat} (nodeSize nodeAlign : Nat) (d h : Ptr)
    (hal : 0 < nodeAlign) (hsz : nodeSize < SIZE_RANGE) :
    ∀ (n : Nat) (s : Ptr → StackStorage N), (s h).Valid →
      n * (nodeSize + (nodeAlign - 1)) ≤ (s h).free →
      ∃ ptrs : List Nat,
        (allocateTimes (stackAllocator N nodeSize nodeAlign d) h n s).1 = ptrs.map some ∧
        ptrs.length = n ∧
        (∀ p ∈ ptrs, (s h).top ≤ p ∧ p ≠ 0 ∧ nodeAlign ∣ p ∧
          p + nodeSize ≤ ((allocateTimes (stackAllocator N nodeSize nodeAlign d) h n s).2 h).top) ∧
        DisjointInOrder (ptrs.map (fun p => (p, nodeSize))) ∧
        ((allocateTimes (stackAllocator N nodeSize nodeAlign d) h n s).2 h).Valid ∧
        ((allocateTimes (stackAllocator N nodeSize nodeAlign d) h n s).2 h).storage
          = (s h).storage ∧
        (s h).free ≤ ((allocateTimes (stackAllocator N nodeSize nodeAlign d) h n s).2 h).free
          + n * (nodeSize + (nodeAlign - 1)) ∧
        (s h).top ≤ ((allocateTimes (stackAllocator N nodeSize nodeAlign d) h n s).2 h).top := by
  intro n
  induction n with
  | zero =>
    intro s hv _
    exact ⟨[], rfl, rfl, fun _ hp => absurd hp (List.not_mem_nil _), trivial, hv, rfl,
      by simp [allocateTimes], le_refl _⟩
  | succ n ih =>
    intro s hv hfit
    have hb : (nodeSize * 1) % SIZE_RANGE = nodeSize := by
      rw [Nat.mul_one]; exact Nat.mod_eq_of_lt hsz
    have hpad := padding_lt hal (s h).top
    have h1 := hv.pos; have h2 := hv.fits; have h3 := hv.cursor; have h4 := hv.free_le
    have hexp : (n + 1) * (nodeSize + (nodeAlign - 1))
        = n * (nodeSize + (nodeAlign - 1)) + (nodeSize + (nodeAlign - 1)) := Nat.succ_mul _ _
    rw [hexp] at hfit ⊢
    generalize n * (nodeSize + (nodeAlign - 1)) = W at hfit ih ⊢
    obtain ⟨s1, hstep, hs1⟩ : ∃ s1 : Ptr → StackStorage N,
        (stackAllocator N nodeSize nodeAlign d).allocate h s
          = (some ((s h).allocate 1 nodeAlign nodeSize).1, s1) ∧
        s1 h = ((s h).allocate 1 nodeAlign nodeSize).2 :=
      ⟨_, rfl, by simp⟩
    have hres : allocateTimes (stackAllocator N nodeSize nodeAlign d) h (n + 1) s
        = (some ((s h).allocate 1 nodeAlign nodeSize).1 ::
            (allocateTimes (stackAllocator N nodeSize nodeAlign d) h n s1).1,
           (allocateTimes (stackAllocator N nodeSize nodeAlign d) h n s1).2) := by
      simp only [allocateTimes, hstep]
    rw [hres]
    dsimp only
    rcases allocate_fields (s h) 1 nodeAlign nodeSize hal with
      ⟨k1, k2, k3, k4, k5, k6⟩ | ⟨k1, _, _⟩
    · rw [hb] at k1 k4 k5
      rw [← hs1] at k4 k5 k6
      generalize padding nodeAlign (s h).top = P at k1 k2 k4 k5 hpad
      generalize ((s h).allocate 1 nodeAlign nodeSize).1 = r at k2 k3 ⊢
      have hv1 : (s1 h).Valid :=
        ⟨by rw [k6]; exact h1, by rw [k6]; exact h2, by rw [k4, k5, k6]; omega,
          by rw [k5]; omega⟩
      obtain ⟨ptrs, i1, i2, i3, i4, i5, i6, i7, i8⟩ := ih s1 hv1 (by rw [k5]; omega)
      rw [k4] at i3 i8
      rw [k5] at i7
      refine ⟨r :: ptrs, by simp [i1], by simp [i2], ?_, ?_, i5, i6.trans k6, ?_, ?_⟩
      · intro p hp
        rcases List.mem_cons.mp hp with h0 | h0
        · subst h0
          exact ⟨by omega, by omega, k3, by omega⟩
        · obtain ⟨j1, j2, j3, j4⟩ := i3 p h0
          exact ⟨by omega, j2, j3, j4⟩
      · refine ⟨?_, i4⟩
        intro q hq
        obtain ⟨p, hp, rfl⟩ := List.mem_map.mp hq
        have := (i3 p hp).1
        show r + nodeSize ≤ p
        omega
      · omega
      · omega
    · rw [hb] at k1
      omega

theorem mem_buildEvents {e : Event} {ps : List Ptr} (he : e ∈ buildEvents ps) :
    ∃ p ∈ ps, e = Event.allocate p ∨ e = Event.construct p := by
  induction ps with
  | nil => simp [buildEvents] at he
  | cons p ps ih =>
    simp only [buildEvents, List.mem_cons] at he
    rcases he with h | h | h
    · exact ⟨p, List.mem_cons_self _ _, Or.inl h⟩
    · exact ⟨p, List.mem_cons_self _ _, Or.inr h⟩
    · obtain ⟨q, hq, hh⟩ := ih h
      exact ⟨q, List.mem_cons_of_mem _ hq, hh⟩

/-- In the build events of pairwise distinct nodes, every node is allocated once. -/
theorem buildEvents_count {ps : List Ptr} (hd : ps.Nodup) {p : Ptr} (hp : p ∈ ps) :
    (buildEvents ps).count (Event.allocate p) = 1 := by
  induction ps with
  | nil => simp at hp
  | cons q ps ih =>
    rw [List.nodup_cons] at hd
    have hnot : ∀ r, r ∉ ps → (buildEvents ps).count (Event.allocate r) = 0 := by
      intro r hr
      refine List.count_eq_zero.mpr (fun hm => ?_)
      obtain ⟨x, hx, h1 | h1⟩ := mem_buildEvents hm
      · simp only [Event.allocate.injEq] at h1; exact hr (h1 ▸ hx)
      · simp at h1
    rcases List.mem_cons.mp hp with h | h
    · subst h
      have h1 := hnot p hd.1
      simp [buildEvents, List.count_cons, h1]
    · have h1 := ih hd.2 h
      have hne : q ≠ p := fun he => hd.1 (he ▸ h)
      simp [buildEvents, List.count_cons, h1, hne]

/-- The allocator `boundedAllocator limit` meets the allocator requirements: the
available addresses are those from the counter on. -/
theorem boundedAllocator_contract (limit : Nat) :
    AllocContract (boundedAllocator limit) (fun s q => s ≤ q) := by
  refine ⟨?_, ?_, ?_⟩
  · intro a s p s1 h
    simp only [boundedAllocator] at h
    split at h
    · rename_i hs
      simp only [Prod.mk.injEq, Option.some.injEq] at h
      obtain ⟨rfl, rfl⟩ := h
      exact ⟨le_refl _, hs.1, hs.2.2, fun q hq => ⟨Nat.le_of_succ_le hq, Nat.ne_of_gt hq⟩⟩
    · simp at h
  · intro a s s1 h q hq
    simp only [boundedAllocator] at h
    split at h
    · simp at h
    · simp only [Prod.mk.injEq, true_and] at h
      exact h ▸ hq
  · intro a s p q hq
    exact Or.inl hq

/-- The loop of the sized constructors with a `try` block, when the first `i`
allocations succeed, the next one throws, and every construction stores the value `v`
without throwing: the loop ends by the exception with `i` new nodes `ps1` linked at the
back, and `last_node` is the last of them (the value it had before the loop when there
is none). -/
theorem sizedLoop_allocate_fails {A : AllocModel H σ} {avail : σ → Ptr → Prop}
    (C : AllocContract A avail) {construct : Ptr → World σ T → Bool × World σ T} {v : T}
    (hctor : ∀ (p : Ptr) (w1 : World σ T), construct p w1 =
      (true, { w1 with heap := w1.heap.setValue p (some v), ctors := w1.ctors + 1,
                       trace := w1.trace ++ [Event.construct p] })) :
    ∀ (i n : Nat) (last : Ptr) (l : ListObj H) (w : World σ T) (ps : List Ptr) (xs : List T),
      WellFormed l w.heap ps xs → Owned avail l w ps → i < n →
      AllocSucceeds A l.nodeAlloc i w.alloc →
      (A.allocate l.nodeAlloc (allocateTimes A l.nodeAlloc i w.alloc).2).1 = none →
      ∃ l1 w1 ps1,
        sizedLoop A construct n last l w = Outcome.thrown (lastOr last ps1, l1, w1) ∧
        WellFormed l1 w1.heap (ps ++ ps1) (xs ++ List.replicate i v) ∧ ps1.length = i ∧
        l1.fakeNode = l.fakeNode ∧ l1.nodeAlloc = l.nodeAlloc ∧
        w1.trace = w.trace ++ buildEvents ps1 := by
  intro i
  induction i with
  | zero =>
    intro n last l w ps xs hwf _ hn _ hfail
    obtain ⟨n, rfl⟩ : ∃ m, n = m + 1 := ⟨n - 1, by omega⟩
    have hfail0 : (A.allocate l.nodeAlloc w.alloc).1 = none := hfail
    rcases hA : A.allocate l.nodeAlloc w.alloc with ⟨_ | p, s1⟩
    · refine ⟨l, { w with alloc := s1 }, [], ?_, by simpa using hwf, rfl, rfl, rfl,
        by simp [buildEvents]⟩
      simp only [sizedLoop, nodeAllocate, hA]
      rfl
    · rw [hA] at hfail0
      exact absurd hfail0 (by simp)
  | succ i ih =>
    intro n last l w ps xs hwf hown hn hsucc hfail
    obtain ⟨n, rfl⟩ : ∃ m, n = m + 1 := ⟨n - 1, by omega⟩
    obtain ⟨hnn, hsucc1⟩ := hsucc
    have hfail1 : (A.allocate l.nodeAlloc
        (allocateTimes A l.nodeAlloc i (A.allocate l.nodeAlloc w.alloc).2).2).1 = none := hfail
    rcases hA : A.allocate l.nodeAlloc w.alloc with ⟨_ | p, s1⟩
    · rw [hA] at hnn; exact absurd rfl hnn
    rw [hA] at hsucc1 hfail1
    obtain ⟨hav, hp0, hp1, hrest⟩ := C.allocate_fresh _ _ _ _ hA
    have hpT : p ∉ l.fakeNode :: ps := fun hm => hown p hm hav
    obtain ⟨hring, hvals, _⟩ := linkBack_ring (Q := []) v hwf.ring hwf.values hpT ⟨hp0, hp1⟩
      (fun _ hq => absurd hq (List.not_mem_nil _)) (List.not_mem_nil _)
    have hlt := length_lt_of_nodup_range hring.nodup hring.range
    simp only [List.length_cons, List.length_append, List.length_nil] at hlt
    have hsz : incr l.sz = (ps ++ [p]).length := by
      rw [incr_eq (by rw [hwf.size]; omega), hwf.size]; simp
    have hwf1 : WellFormed { l with sz := incr l.sz } (linkBack (w.heap.setValue p (some v))
        l.fakeNode p) (ps ++ [p]) (xs ++ [v]) := ⟨hring, hsz, hvals⟩
    have hown1 : ∀ q ∈ l.fakeNode :: (ps ++ [p]), ¬ avail s1 q := by
      intro q hq hav1
      obtain ⟨h1, h2⟩ := hrest q hav1
      simp only [List.mem_cons, List.mem_append, List.not_mem_nil, or_false] at hq
      rcases hq with h | h | h
      · exact hown q (h ▸ List.mem_cons_self _ _) h1
      · exact hown q (List.mem_cons_of_mem _ h) h1
      · exact h2 h
    obtain ⟨l1, w1, ps1, hloop, hwf2, hlen, hf, ha, htr⟩ :=
      ih n p { l with sz := incr l.sz }
        { heap := linkBack (w.heap.setValue p (some v)) l.fakeNode p, alloc := s1,
          ctors := w.ctors + 1,
          trace := w.trace ++ [Event.allocate p] ++ [Event.construct p] }
        (ps ++ [p]) (xs ++ [v]) hwf1 hown1 (by omega) hsucc1 hfail1
    refine ⟨l1, w1, p :: ps1, ?_, ?_, by simp [hlen], hf, ha, ?_⟩
    · simp only [sizedLoop, nodeAllocate, hA, hctor]
      exact hloop
    · have e : xs ++ List.replicate (i + 1) v = xs ++ [v] ++ List.replicate i v := by
        simp [List.replicate_succ]
      rw [e]
      simpa using hwf2
    · rw [htr]
      simp [buildEvents]

/-- The three sized constructors with a `try` block, when `allocate` throws for the
element number `i`. -/
theorem sized_allocate_fails_core {A : AllocModel H σ} {avail : σ → Ptr → Prop}
    (C : AllocContract A avail) {construct : Ptr → World σ T → Bool × World σ T} {v : T}
    (hctor : ∀ (p : Ptr) (w1 : World σ T), construct p w1 =
      (true, { w1 with heap := w1.heap.setValue p (some v), ctors := w1.ctors + 1,
                       trace := w1.trace ++ [Event.construct p] }))
    {w : World σ T} {fake : Ptr} (garbage : Ptr) (sz i : Nat) (a : H)
    (hfake : 0 < fake ∧ fake < SIZE_RANGE) (hfa : ¬ avail w.alloc fake) (hi : i < sz)
    (hsucc : AllocSucceeds A a i w.alloc)
    (hfail : (A.allocate a (allocateTimes A a i w.alloc).2).1 = none) :
    AllocFailureCleanup i garbage w (unwind A (sizedCatch A
      (sizedLoop A construct sz garbage (mkEmpty fake a w).1 (mkEmpty fake a w).2))) := by
  have hown0 : Owned avail (mkEmpty fake a w).1 (mkEmpty fake a w).2 [] := by
    intro q hq
    simp only [mkEmpty, List.mem_singleton] at hq
    rw [hq]; exact hfa
  obtain ⟨l1, w1, ps, hloop, hwf, hlen, hf, _, htr⟩ :=
    sizedLoop_allocate_fails C hctor i sz garbage (mkEmpty fake a w).1 (mkEmpty fake a w).2
      [] [] (mkEmpty_wellFormed fake a w hfake) hown0 hi hsucc hfail
  rw [hloop]
  simp only [List.nil_append] at hwf
  have htr0 : w1.trace = w.trace ++ buildEvents ps := htr
  have hwf2 : WellFormed l1 (nodeDeallocate A l1.nodeAlloc (lastOr garbage ps) w1).heap ps
      (List.replicate i v) := hwf
  obtain ⟨f1, _, _, f4, _⟩ := eraseWhile_spec (Q := []) A ps.length ps (List.replicate i v) l1
    (nodeDeallocate A l1.nodeAlloc (lastOr garbage ps) w1) hwf2
    (fun _ hq => absurd hq (List.not_mem_nil _))
  rw [List.drop_length] at f1
  rw [List.take_length] at f4
  have hnd : ps.Nodup := (List.nodup_cons.mp hwf.ring.nodup).2
  have hcatch : sizedCatch A (Outcome.thrown (lastOr garbage ps, l1, w1))
      = Outcome.thrown (eraseWhile A ps.length l1
          (nodeDeallocate A l1.nodeAlloc (lastOr garbage ps) w1)) := by
    show Outcome.thrown (eraseWhile A l1.sz l1 _) = _
    rw [hwf.size]
  rw [hcatch]
  generalize eraseWhile A ps.length l1 (nodeDeallocate A l1.nodeAlloc (lastOr garbage ps) w1)
    = r at f1 f4
  obtain ⟨l2, w2⟩ := r
  have hsz2 : l2.sz = 0 := f1.size
  have hun : unwind A (Outcome.thrown (l2, w2)) = Outcome.thrown (l2, w2) := by
    show Outcome.thrown (l2, (eraseWhile A l2.sz l2 w2).2) = _
    rw [eraseWhile_stop A _ l2 w2 hsz2]
  rw [hun]
  have htr2 : w2.trace = w.trace ++ (buildEvents ps
      ++ Event.deallocate (lastOr garbage ps) :: releaseEvents ps) := by
    have : w2.trace = (w1.trace ++ [Event.deallocate (lastOr garbage ps)])
        ++ releaseEvents ps := f4
    rw [this, htr0]
    simp
  refine ⟨l2, w2, ps, _, rfl, hlen, hnd, htr2, rfl, ?_, ?_⟩
  · intro hpos
    have hne : ps ≠ [] := by
      intro he; rw [he] at hlen; simp at hlen; omega
    have hmem := lastOr_mem_of_ne_nil garbage hne
    have hb := buildEvents_count hnd hmem
    have hr := (releaseEvents_count hnd hmem).2
    have hb0 : (buildEvents ps).count (Event.deallocate (lastOr garbage ps)) = 0 := by
      refine List.count_eq_zero.mpr (fun hm => ?_)
      obtain ⟨x, _, h1 | h1⟩ := mem_buildEvents hm <;> simp at h1
    have hr0 : (releaseEvents ps).count (Event.allocate (lastOr garbage ps)) = 0 := by
      refine List.count_eq_zero.mpr (fun hm => ?_)
      obtain ⟨x, _, h1 | h1⟩ := mem_releaseEvents hm <;> simp at h1
    refine ⟨hmem, ?_, ?_⟩
    · rw [List.count_append, List.count_cons, hb, hr0]
      simp
    · rw [List.count_append, List.count_cons, hb0, hr]
      simp
  · intro h0
    rw [h0] at hlen
    have : ps = [] := List.length_eq_zero.mp hlen
    subst this
    rfl

theorem releaseEvents_replicate_count (m : Nat) (p : Ptr) :
    (releaseEvents (List.replicate m p)).count (Event.deallocate p) = m := by
  induction m with
  | zero => rfl
  | succ m ih => simp [List.replicate_succ, releaseEvents, List.count_cons, ih]

/-- The loop of the destructor looks at `sz_` only to decide whether to go on: with `k`
iterations that `sz_` allows, another value of `sz_` that allows them gives the same
memory. -/
theorem eraseWhile_sz (A : AllocModel H σ) :
    ∀ (k : Nat) (l : ListObj H) (w : World σ T) (m : Nat), k ≤ l.sz → k ≤ m →
      (eraseWhile A k { l with sz := m } w).2 = (eraseWhile A k l w).2 ∧
      (eraseWhile A k { l with sz := m } w).1
        = { (eraseWhile A k l w).1 with sz := m - k } := by
  intro k
  induction k with
  | zero => intro l w m _ _; exact ⟨rfl, rfl⟩
  | succ k ih =>
    intro l w m hk hm
    have hpos : 0 < l.sz := by omega
    have hpos1 : 0 < m := by omega
    have hstep : eraseWhile A (k + 1) l w
        = eraseWhile A k (erase A l w (begin l w)).1 (erase A l w (begin l w)).2 := by
      simp only [eraseWhile, if_pos hpos]
    have e : erase A { l with sz := m } w (begin { l with sz := m } w)
        = ({ (erase A l w (begin l w)).1 with sz := decr m },
            (erase A l w (begin l w)).2) := rfl
    have hstep1 : eraseWhile A (k + 1) { l with sz := m } w
        = eraseWhile A k { (erase A l w (begin l w)).1 with sz := m - 1 }
            (erase A l w (begin l w)).2 := by
      have hp : 0 < ({ l with sz := m } : ListObj H).sz := hpos1
      simp only [eraseWhile, if_pos hp]
      rw [e, decr_eq hpos1]
    rw [hstep, hstep1]
    have hs : (erase A l w (begin l w)).1.sz = l.sz - 1 := decr_eq hpos
    obtain ⟨i1, i2⟩ := ih (erase A l w (begin l w)).1 (erase A l w (begin l w)).2 (m - 1)
      (by rw [hs]; omega) (by omega)
    refine ⟨i1, ?_⟩
    rw [i2]
    have : m - 1 - k = m - (k + 1) := by omega
    rw [this]

/-- The loop of the destructor on a list without nodes whose `sz_` is not zero: every
iteration erases the sentinel itself. -/
theorem eraseWhile_sentinel (A : AllocModel H σ) :
    ∀ (k : Nat) (l : ListObj H) (w : World σ T),
      w.heap.next l.fakeNode = l.fakeNode → w.heap.prev l.fakeNode = l.fakeNode →
      k ≤ l.sz →
      (eraseWhile A k l w).2.trace
        = w.trace ++ releaseEvents (List.replicate k l.fakeNode) ∧
      (eraseWhile A k l w).1.sz = l.sz - k := by
  intro k
  induction k with
  | zero => intro l w _ _ _; exact ⟨by simp [eraseWhile, releaseEvents], rfl⟩
  | succ k ih =>
    intro l w hn hp hk
    have hpos : 0 < l.sz := by omega
    have hstep : eraseWhile A (k + 1) l w
        = eraseWhile A k (erase A l w l.fakeNode).1 (erase A l w l.fakeNode).2 := by
      simp only [eraseWhile, if_pos hpos, begin, hn]
    obtain ⟨e1, _, _, e4, e5, e6, _⟩ := erase_effect A l w l.fakeNode
    have hf : (erase A l w l.fakeNode).1.fakeNode = l.fakeNode := by rw [e1]
    have hs : (erase A l w l.fakeNode).1.sz = l.sz - 1 := by rw [e1]; exact decr_eq hpos
    have hn1 : (erase A l w l.fakeNode).2.heap.next (erase A l w l.fakeNode).1.fakeNode
        = (erase A l w l.fakeNode).1.fakeNode := by
      rw [hf, e5, ite_self]; exact hn
    have hp1 : (erase A l w l.fakeNode).2.heap.prev (erase A l w l.fakeNode).1.fakeNode
        = (erase A l w l.fakeNode).1.fakeNode := by
      rw [hf, e6, ite_self]; exact hp
    obtain ⟨i1, i2⟩ := ih _ _ hn1 hp1 (by rw [hs]; omega)
    rw [hstep]
    refine ⟨?_, ?_⟩
    · rw [i1, e4, hf]
      simp [List.replicate_succ, releaseEvents]
    · rw [i2, hs]; omega

/-- The loop of `List(sz, alloc)` when the default construction of the element number
`i` throws, the constructions before it and the first `i + 1` allocations succeeding: the
loop ends by the exception with `i` new nodes `ps1` linked at the back and the node `pf`
allocated and linked nowhere; `sz_` is as it was. -/
theorem sizedAllocLoop_construct_fails {A : AllocModel H σ} {E : ElemModel T}
    {avail : σ → Ptr → Prop} (C : AllocContract A avail) :
    ∀ (i n : Nat) (l : ListObj H) (w : World σ T) (ps : List Ptr) (xs : List T),
      Ring w.heap l.fakeNode ps → ps.map w.heap.value = xs.map some →
      Owned avail l w ps → i < n → AllocSucceeds A l.nodeAlloc (i + 1) w.alloc →
      (∀ j, j < i → E.defaultThrows (w.ctors + j) = false) →
      E.defaultThrows (w.ctors + i) = true →
      ∃ w1 ps1 pf, sizedAllocLoop A E n l w = Outcome.thrown (l, w1) ∧
        Ring w1.heap l.fakeNode (ps ++ ps1) ∧
        (ps ++ ps1).map w1.heap.value = (xs ++ List.replicate i E.defaultValue).map some ∧
        ps1.length = i ∧ pf ∉ l.fakeNode :: (ps ++ ps1) ∧
        w1.trace = w.trace ++ buildEvents ps1 ++ [Event.allocate pf] := by
  intro i
  induction i with
  | zero =>
    intro n l w ps xs hr hv hown hn hsucc _ hthrow
    obtain ⟨n, rfl⟩ : ∃ m, n = m + 1 := ⟨n - 1, by omega⟩
    obtain ⟨hnn, _⟩ := hsucc
    rcases hA : A.allocate l.nodeAlloc w.alloc with ⟨_ | p, s1⟩
    · rw [hA] at hnn; exact absurd rfl hnn
    obtain ⟨hav, _, _, _⟩ := C.allocate_fresh _ _ _ _ hA
    have hpT : p ∉ l.fakeNode :: ps := fun hm => hown p hm hav
    have hthrow0 : E.defaultThrows w.ctors = true := hthrow
    refine ⟨{ w with alloc := s1, ctors := w.ctors + 1,
                     trace := w.trace ++ [Event.allocate p] }, [], p, ?_,
      by simpa using hr, by simpa using hv, rfl, by simpa using hpT,
      by simp [buildEvents]⟩
    simp only [sizedAllocLoop, nodeAllocate, hA, constructDefault, hthrow0, if_true]
  | succ i ih =>
    intro n l w ps xs hr hv hown hn hsucc hok hthrow
    obtain ⟨n, rfl⟩ : ∃ m, n = m + 1 := ⟨n - 1, by omega⟩
    obtain ⟨hnn, hsucc1⟩ := hsucc
    rcases hA : A.allocate l.nodeAlloc w.alloc with ⟨_ | p, s1⟩
    · rw [hA] at hnn; exact absurd rfl hnn
    rw [hA] at hsucc1
    obtain ⟨hav, hp0, hp1, hrest⟩ := C.allocate_fresh _ _ _ _ hA
    have hpT : p ∉ l.fakeNode :: ps := fun hm => hown p hm hav
    obtain ⟨hring, hvals, _⟩ := linkBack_ring (Q := []) E.defaultValue hr hv hpT ⟨hp0, hp1⟩
      (fun _ hq => absurd hq (List.not_mem_nil _)) (List.not_mem_nil _)
    have hown1 : ∀ q ∈ l.fakeNode :: (ps ++ [p]), ¬ avail s1 q := by
      intro q hq hav1
      obtain ⟨h1, h2⟩ := hrest q hav1
      simp only [List.mem_cons, List.mem_append, List.not_mem_nil, or_false] at hq
      rcases hq with h | h | h
      · exact hown q (h ▸ List.mem_cons_self _ _) h1
      · exact hown q (List.mem_cons_of_mem _ h) h1
      · exact h2 h
    have hfirst : E.defaultThrows w.ctors = false := hok 0 (by omega)
    obtain ⟨w1, ps1, pf, hloop, hr2, hv2, hlen, hpf, htr⟩ :=
      ih n l
        { heap := linkBack (w.heap.setValue p (some E.defaultValue)) l.fakeNode p, alloc := s1,
          ctors := w.ctors + 1,
          trace := w.trace ++ [Event.allocate p] ++ [Event.construct p] }
        (ps ++ [p]) (xs ++ [E.defaultValue]) hring hvals hown1 (by omega) hsucc1
        (fun j hj => by
          have := hok (j + 1) (by omega)
          show E.defaultThrows (w.ctors + 1 + j) = false
          rw [Nat.add_assoc, Nat.add_comm 1 j]; exact this)
        (by
          show E.defaultThrows (w.ctors + 1 + i) = true
          rw [Nat.add_assoc, Nat.add_comm 1 i]; exact hthrow)
    refine ⟨w1, p :: ps1, pf, ?_, by simpa using hr2, ?_, by simp [hlen],
      by simpa using hpf, ?_⟩
    · simp only [sizedAllocLoop, nodeAllocate, hA, constructDefault, hfirst]
      exact hloop
    · have e : xs ++ List.replicate (i + 1) E.defaultValue
          = xs ++ [E.defaultValue] ++ List.replicate i E.defaultValue := by
        simp [List.replicate_succ]
      rw [e]
      simpa using hv2
    · rw [htr]
      simp [buildEvents]

/-- The values after `k` iterations at most of the loop of the destructor, on a
well-formed list: the first `k` nodes hold no value any more, and every other address
holds what it held. -/
theorem eraseWhile_values (A : AllocModel H σ) :
    ∀ (k : Nat) (ps : List Ptr) (xs : List T) (l : ListObj H) (w : World σ T),
      WellFormed l w.heap ps xs →
      (∀ p ∈ ps.take k, (eraseWhile A k l w).2.heap.value p = none) ∧
      (∀ u, u ∉ ps.take k → (eraseWhile A k l w).2.heap.value u = w.heap.value u) := by
  intro k
  induction k with
  | zero =>
    intro ps xs l w _
    exact ⟨fun p hp => by simp at hp, fun _ _ => rfl⟩
  | succ k ih =>
    intro ps xs l w hwf
    cases ps with
    | nil =>
      have hsz : ¬ 0 < l.sz := by rw [hwf.size]; simp
      have hstep : eraseWhile A (k + 1) l w = (l, w) := by
        simp only [eraseWhile, if_neg hsz]
      rw [hstep]
      exact ⟨fun p hp => by simp at hp, fun _ _ => rfl⟩
    | cons p ps =>
      have hsz : 0 < l.sz := by rw [hwf.size]; simp
      have hb : begin l w = p := (ring_begin hwf.ring).1
      have hx : (p :: ps)[0]? = some p := by simp
      obtain ⟨hwf1, _, _⟩ := erase_wellFormed A hwf hx
      obtain ⟨_, _, _, _, _, _, e7⟩ := erase_effect A l w p
      simp only [List.take_zero, List.nil_append, zero_add, List.drop_succ_cons,
        List.drop_zero] at hwf1
      obtain ⟨i1, i2⟩ := ih ps (xs.drop 1) _ _ hwf1
      have hstep : eraseWhile A (k + 1) l w
          = eraseWhile A k (erase A l w p).1 (erase A l w p).2 := by
        simp only [eraseWhile, if_pos hsz, hb]
      rw [hstep]
      have htk : (p :: ps).take (k + 1) = p :: ps.take k := rfl
      rw [htk]
      constructor
      · intro q hq
        by_cases hqt : q ∈ ps.take k
        · exact i1 q hqt
        · have hqp : q = p := by
            rcases List.mem_cons.mp hq with h | h
            · exact h
            · exact absurd h hqt
          rw [i2 q hqt, e7, if_pos hqp]
      · intro u hu
        have hup : u ≠ p := fun he => hu (he ▸ List.mem_cons_self _ _)
        have hut : u ∉ ps.take k := fun hm => hu (List.mem_cons_of_mem _ hm)
        rw [i2 u hut, e7, if_neg hup]

end Lemmas

/-! ## The claims -/

section Claims

variable {H σ T : Type}

/-- Claim C1 fails on the code when the destination is empty: with `T` empty at
address 32, `S = [7]` at address 16 and the local `new_list` at address 48, the call
`T = S` returns with `size() == 1`, but `begin()` of `T` is the sentinel of the destroyed
local `new_list`, which holds no value: `T` is not a well-formed ring holding the value of
`S`. -/
theorem assign_empty_destination :
    ∃ l1 w1, assign countingAllocator (plainElem Nat 0) 8 48
        (demoList 32 [] (demoList 16 [7] demoWorld).2).1 (demoList 16 [7] demoWorld).1
        (demoList 32 [] (demoList 16 [7] demoWorld).2).2 = Outcome.ok (l1, w1) ∧
      size l1 = 1 ∧ begin l1 w1 = 48 ∧ w1.heap.value (begin l1 w1) = none ∧
      w1.heap.next 48 = l1.fakeNode ∧
      ¬ ∃ ps, WellFormed l1 w1.heap ps [7] := by
  refine ⟨_, _, rfl, by decide, by decide, by decide, by decide, ?_⟩
  rintro ⟨ps, hwf⟩
  have hlen : ps.length = 1 := by
    have := congrArg List.length hwf.values
    simpa using this
  obtain ⟨q, rfl⟩ := List.length_eq_one.mp hlen
  have hq : q = 48 := (hwf.ring.path.1.1).symm
  subst hq
  have hv := hwf.values
  simp only [List.map_cons, List.map_nil, List.cons.injEq, and_true] at hv
  exact absurd hv (by decide)

/-- Claim C2: for every list obtained from the empty list by a finite sequence of
`insert`, `erase` (not at `end()`), `push_back`, `push_front`, `pop_back` and `pop_front`
(pops on a list of non-zero size), with a conforming allocator: every node `n` reached
from the sentinel by `next` links (the sentinel included) has `n.prev.next == n` and
`n.next.prev == n`; following `next` from `begin()` reaches the sentinel again after
exactly `size()` nodes; and a list of size zero has its sentinel linked to itself in
both directions. -/
theorem ring_invariant {A : AllocModel H σ} {E : ElemModel T}
    {avail : σ → Ptr → Prop} (C : AllocContract A avail) {fake : Ptr} {alloc : H}
    {w0 : World σ T} {l : ListObj H} {w : World σ T}
    (hfake : 0 < fake ∧ fake < SIZE_RANGE) (hown : ¬ avail w0.alloc fake)
    (hreach : Reachable A E fake alloc w0 l w) :
    (∀ n, IsPosition l w n →
      w.heap.next (w.heap.prev n) = n ∧ w.heap.prev (w.heap.next n) = n) ∧
    (∃ ps, walk w.heap l.fakeNode (size l) (begin l w) = some ps ∧
      ps.length = size l ∧ l.fakeNode ∉ ps) ∧
    (size l = 0 →
      w.heap.next l.fakeNode = l.fakeNode ∧ w.heap.prev l.fakeNode = l.fakeNode) := by
  obtain ⟨ps, xs, hwf, _⟩ := reachable_wellFormed C hfake hown hreach
  obtain ⟨hb, he⟩ := ring_begin hwf.ring
  refine ⟨?_, ⟨ps, ?_, hwf.size.symm, ?_⟩, ?_⟩
  · intro n hn
    have := ring_mem_links hwf.ring (position_mem hwf.ring hn)
    exact ⟨this.2.2.1, this.2.2.2⟩
  · have hr : Ring w.heap l.fakeNode ([] ++ ps) := by simpa using hwf.ring
    have := walk_ring [] ps hr
    show walk w.heap l.fakeNode l.sz (w.heap.next l.fakeNode) = some ps
    rw [hwf.size, hb]; exact this
  · exact (List.nodup_cons.mp hwf.ring.nodup).1
  · intro hz
    have : ps = [] := by
      have := hwf.size
      simp only [size] at hz
      rw [hz] at this
      exact List.length_eq_zero.mp this.symm
    subst this
    exact ⟨hb, he⟩

/-- Claim C2 at a concrete input: the list obtained by `push_back(5)` and
`push_back(6)`. -/
theorem ring_invariant_witness :
    (∀ n, IsPosition (demoList 16 [5, 6] demoWorld).1 (demoList 16 [5, 6] demoWorld).2 n →
      (demoList 16 [5, 6] demoWorld).2.heap.next
          ((demoList 16 [5, 6] demoWorld).2.heap.prev n) = n ∧
        (demoList 16 [5, 6] demoWorld).2.heap.prev
          ((demoList 16 [5, 6] demoWorld).2.heap.next n) = n) ∧
    (∃ ps, walk (demoList 16 [5, 6] demoWorld).2.heap (demoList 16 [5, 6] demoWorld).1.fakeNode
        (size (demoList 16 [5, 6] demoWorld).1)
        (begin (demoList 16 [5, 6] demoWorld).1 (demoList 16 [5, 6] demoWorld).2) = some ps ∧
      ps.length = size (demoList 16 [5, 6] demoWorld).1 ∧
      (demoList 16 [5, 6] demoWorld).1.fakeNode ∉ ps) ∧
    (size (demoList 16 [5, 6] demoWorld).1 = 0 →
      (demoList 16 [5, 6] demoWorld).2.heap.next (demoList 16 [5, 6] demoWorld).1.fakeNode
          = (demoList 16 [5, 6] demoWorld).1.fakeNode ∧
        (demoList 16 [5, 6] demoWorld).2.heap.prev (demoList 16 [5, 6] demoWorld).1.fakeNode
          = (demoList 16 [5, 6] demoWorld).1.fakeNode) :=
  ring_invariant countingAllocator_contract (by decide) (by decide)
    (ReachableFrom.push_back
      (ReachableFrom.push_back ReachableFrom.start (v := 5) rfl :
        Reachable countingAllocator (plainElem Nat 0) 16 () demoWorld
          (demoList 16 [5] demoWorld).1 (demoList 16 [5] demoWorld).2)
      (v := 6) rfl :
      Reachable countingAllocator (plainElem Nat 0) 16 () demoWorld
        (demoList 16 [5, 6] demoWorld).1 (demoList 16 [5, 6] demoWorld).2)

/-- Claim C3: on a well-formed list with nodes `ps` holding `xs`, a call `insert(it, v)`
at the position number `k` (`k = size()` being `end()`) for which the allocator returns
a pointer `p` to unused storage and the copy constructor does not throw returns
normally; afterwards the list is well formed with the element sequence
`take k xs ++ [v] ++ drop k xs`, held by the old nodes with `p` spliced in at `k`;
`size()` has grown by exactly one and every node that existed before holds the value it
held. -/
theorem insert_spec {A : AllocModel H σ} {E : ElemModel T} {l : ListObj H}
    {w : World σ T} {ps : List Ptr} {xs : List T} {k : Nat} {it p : Ptr} {s1 : σ} (v : T)
    (hwf : WellFormed l w.heap ps xs)
    (hit : (ps ++ [l.fakeNode])[k]? = some it)
    (hA : A.allocate l.nodeAlloc w.alloc = (some p, s1))
    (hfresh : p ∉ l.fakeNode :: ps) (hrange : 0 < p ∧ p < SIZE_RANGE)
    (hc : E.copyThrows w.ctors v = false) :
    ∃ l1 w1, insert A E l w it v = Outcome.ok (l1, w1) ∧
      WellFormed l1 w1.heap (ps.take k ++ p :: ps.drop k) (xs.take k ++ [v] ++ xs.drop k) ∧
      size l1 = size l + 1 ∧
      ∀ q ∈ ps, w1.heap.value q = w.heap.value q := by
  obtain ⟨w1, hok⟩ := insert_ok_of (E := E) l w it v hA hc
  obtain ⟨p1, s2, hA1, _, hl, _, _, _, hnext, hprev, hval⟩ := insert_ok_inv hok
  rw [hA] at hA1
  simp only [Prod.mk.injEq, Option.some.injEq] at hA1
  obtain ⟨rfl, rfl⟩ := hA1
  obtain ⟨hwf1, hsz⟩ := insert_wellFormed (v := v) hwf hit hfresh hrange hl hnext hprev hval
  refine ⟨_, w1, hok, by simpa using hwf1, hsz, ?_⟩
  intro q hq
  have hne : q ≠ p := fun he => hfresh (List.mem_cons_of_mem _ (he ▸ hq))
  rw [hval, if_neg hne]

/-- Claim C4: on a well-formed list, `erase` at the node `x` number `k` removes exactly
`x`: the list stays well formed with the other nodes in their order holding their
values, `size()` drops by one, the value of `x` is destroyed and `x` is handed to
`deallocate` once, and no other value is touched. -/
theorem erase_spec (A : AllocModel H σ) {l : ListObj H} {w : World σ T} {x : Ptr}
    {ps : List Ptr} {xs : List T} {k : Nat}
    (hwf : WellFormed l w.heap ps xs) (hx : ps[k]? = some x) :
    WellFormed (erase A l w x).1 (erase A l w x).2.heap (ps.eraseIdx k) (xs.eraseIdx k) ∧
      size (erase A l w x).1 + 1 = size l ∧
      x ∉ ps.eraseIdx k ∧
      (erase A l w x).2.heap.value x = none ∧
      (erase A l w x).2.trace = w.trace ++ [Event.destroy x, Event.deallocate x] ∧
      (erase A l w x).2.alloc = A.deallocate l.nodeAlloc x w.alloc ∧
      ∀ q, q ≠ x → (erase A l w x).2.heap.value q = w.heap.value q := by
  obtain ⟨_, e2, _, e4, _, _, e7⟩ := erase_effect A l w x
  obtain ⟨h1, h2, h3⟩ := erase_wellFormed A hwf hx
  rw [List.eraseIdx_eq_take_drop_succ, List.eraseIdx_eq_take_drop_succ]
  refine ⟨h1, h2, h3, (e7 x).trans (if_pos rfl), e4, e2, ?_⟩
  intro q hq
  exact (e7 q).trans (if_neg hq)

/-- Claim C5: when the allocator has returned `p` and the copy constructor then throws,
`insert` ends by the exception; `p` has been handed back to `deallocate` exactly once,
and the list object and the whole node memory (sizes, links, values) are as before the
call. -/
theorem insert_construct_throws (A : AllocModel H σ) (E : ElemModel T) (l : ListObj H)
    (w : World σ T) (it : Ptr) (v : T) {p : Ptr} {s1 : σ}
    (hA : A.allocate l.nodeAlloc w.alloc = (some p, s1))
    (hc : E.copyThrows w.ctors v = true) :
    ∃ w1, insert A E l w it v = Outcome.thrown (l, w1) ∧
      w1.heap = w.heap ∧
      w1.alloc = A.deallocate l.nodeAlloc p s1 ∧
      (∃ evs, w1.trace = w.trace ++ evs ∧ evs.count (Event.deallocate p) = 1 ∧
        ∀ q, Event.construct q ∉ evs) := by
  unfold insert nodeAllocate
  rw [hA]
  simp only [constructCopy, hc, if_true]
  refine ⟨_, rfl, rfl, rfl, [Event.allocate p, Event.deallocate p], ?_, ?_, ?_⟩
  · simp [nodeDeallocate]
  · simp
  · intro q; simp

/-- Claim C3 at a concrete input: inserting `7` at `end()` of the list `[5]`. -/
theorem insert_spec_witness :
    ∃ l1 w1, insert countingAllocator (plainElem Nat 0) (demoList 16 [5] demoWorld).1
        (demoList 16 [5] demoWorld).2 16 7 = Outcome.ok (l1, w1) ∧
      WellFormed l1 w1.heap ([4096].take 1 ++ 4097 :: [4096].drop 1)
        ([5].take 1 ++ [7] ++ [5].drop 1) ∧
      size l1 = size (demoList 16 [5] demoWorld).1 + 1 ∧
      ∀ q ∈ [4096], w1.heap.value q = (demoList 16 [5] demoWorld).2.heap.value q :=
  insert_spec (k := 1) 7
    ⟨⟨by decide, by decide, by decide⟩, by decide, by decide⟩
    (by decide)
    (by decide : countingAllocator.allocate (demoList 16 [5] demoWorld).1.nodeAlloc
      (demoList 16 [5] demoWorld).2.alloc = (some 4097, 4098))
    (by decide) (by decide) (by decide)

/-- Claim C4 at a concrete input: erasing the middle node of the list `[5, 6, 7]`. -/
theorem erase_spec_witness :
    WellFormed (erase countingAllocator (demoList 16 [5, 6, 7] demoWorld).1
        (demoList 16 [5, 6, 7] demoWorld).2 4097).1
      (erase countingAllocator (demoList 16 [5, 6, 7] demoWorld).1
        (demoList 16 [5, 6, 7] demoWorld).2 4097).2.heap
      ([4096, 4097, 4098].eraseIdx 1) ([5, 6, 7].eraseIdx 1) ∧
    size (erase countingAllocator (demoList 16 [5, 6, 7] demoWorld).1
        (demoList 16 [5, 6, 7] demoWorld).2 4097).1 + 1
      = size (demoList 16 [5, 6, 7] demoWorld).1 :=
  have h := erase_spec countingAllocator (k := 1)
    (⟨⟨by decide, by decide, by decide⟩, by decide, by decide⟩ :
      WellFormed (demoList 16 [5, 6, 7] demoWorld).1 (demoList 16 [5, 6, 7] demoWorld).2.heap
        [4096, 4097, 4098] [5, 6, 7])
    (by decide : [4096, 4097, 4098][1]? = some 4097)
  ⟨h.1, h.2.1⟩

/-- Claim C5 at a concrete input: the copy constructor throws on its second call, during
the insertion of `7` into the list `[5]`. -/
theorem insert_construct_throws_witness :
    ∃ w1, insert countingAllocator (throwingElem Nat 0 1)
        (demoList 16 [5] demoWorld).1 (demoList 16 [5] demoWorld).2 16 7
        = Outcome.thrown ((demoList 16 [5] demoWorld).1, w1) ∧
      w1.heap = (demoList 16 [5] demoWorld).2.heap ∧
      w1.alloc = countingAllocator.deallocate () 4097 4098 ∧
      (∃ evs, w1.trace = (demoList 16 [5] demoWorld).2.trace ++ evs ∧
        evs.count (Event.deallocate 4097) = 1 ∧ ∀ q, Event.construct q ∉ evs) :=
  insert_construct_throws countingAllocator (throwingElem Nat 0 1)
    (demoList 16 [5] demoWorld).1 (demoList 16 [5] demoWorld).2 16 7
    (by decide : countingAllocator.allocate (demoList 16 [5] demoWorld).1.nodeAlloc
      (demoList 16 [5] demoWorld).2.alloc = (some 4097, 4098))
    (by decide)

/-- Claim C6 fails on the code for the arena-backed allocator: when the arena returns
the null pointer, `StackAllocator::allocate` returns it and `insert` goes on as if it were
a node: it returns normally, has incremented `sz_`, has written the value and two links
into the node at the null address, and has linked the null address into the ring before
`it`.  No failure reaches the caller. -/
theorem insert_null_allocation (N nodeSize nodeAlign : Nat) (dflt : Ptr) (E : ElemModel T)
    (l : ListObj Ptr) (w : World (Ptr → StackStorage N) T) (it : Ptr) (v : T)
    (hnull : ((w.alloc l.nodeAlloc).allocate 1 nodeAlign nodeSize).1 = nullptr)
    (hc : E.copyThrows w.ctors v = false) :
    ∃ w1, insert (stackAllocator N nodeSize nodeAlign dflt) E l w it v
        = Outcome.ok ({ l with sz := incr l.sz }, w1) ∧
      w1.heap.value nullptr = some v ∧
      w1.heap.prev it = nullptr ∧
      w1.heap.next nullptr = it ∧
      w1.trace = w.trace ++ [Event.allocate nullptr, Event.construct nullptr] := by
  have hA : (stackAllocator N nodeSize nodeAlign dflt).allocate l.nodeAlloc w.alloc
      = (some nullptr, fun x => if x = l.nodeAlloc then
          ((w.alloc l.nodeAlloc).allocate 1 nodeAlign nodeSize).2 else w.alloc x) := by
    show (some ((w.alloc l.nodeAlloc).allocate 1 nodeAlign nodeSize).1, _) = _
    rw [hnull]
  obtain ⟨w1, hok⟩ := insert_ok_of (E := E) l w it v hA hc
  obtain ⟨p, s1, hA1, _, _, _, _, htr, hnext, hprev, hval⟩ := insert_ok_inv hok
  rw [hA] at hA1
  simp only [Prod.mk.injEq, Option.some.injEq] at hA1
  obtain ⟨hp, _⟩ := hA1
  subst hp
  refine ⟨w1, hok, ?_, ?_, ?_, htr⟩
  · rw [hval, if_pos rfl]
  · rw [hprev, if_pos rfl]
  · rw [hnext, if_pos rfl]

/-- Claim C6's failure at a concrete input: `push_back(7)` on an empty list (sentinel at
address 64) whose allocator is bound to a fresh arena of 16 bytes, too small for a node
of 24 bytes. -/
theorem insert_null_allocation_witness :
    ∃ w1, insert (stackAllocator 16 24 8 0) (plainElem Nat 0)
        (mkEmpty 64 1 demoArenaWorld).1
        (mkEmpty 64 1 demoArenaWorld).2 64 7
        = Outcome.ok ({ (mkEmpty 64 1
            demoArenaWorld).1 with
              sz := incr (mkEmpty 64 1
                demoArenaWorld).1.sz }, w1) ∧
      w1.heap.value nullptr = some 7 ∧
      w1.heap.prev 64 = nullptr ∧
      w1.heap.next nullptr = 64 ∧
      w1.trace = (mkEmpty 64 1 demoArenaWorld).2.trace
        ++ [Event.allocate nullptr, Event.construct nullptr] :=
  insert_null_allocation 16 24 8 0 (plainElem Nat 0)
    (mkEmpty 64 1 demoArenaWorld).1
    (mkEmpty 64 1 demoArenaWorld).2 64 7
    (by decide) (by decide)

/-- Claim C7: for a well-formed source list `other` with values `ys`, when the node
allocations succeed (with a conforming allocator) and no copy of an element throws, both
copy constructors `List(other, alloc)` and `List(other)`, run with enough fuel for the
loop over the source, return a well-formed list of the same size holding `ys` in the
same order; the source is unchanged; no node is shared; and any later sequence of
`insert`, `erase`, `push_*` and `pop_*` on the copy leaves the links and values of the
source as they were. -/
theorem copy_construct_spec {A : AllocModel H σ} {E : ElemModel T}
    {avail : σ → Ptr → Prop} (C : AllocContract A avail) {other : ListObj H}
    {w : World σ T} {qs : List Ptr} {ys : List T} {fake : Ptr} {fuel : Nat} (alloc : H)
    (hS : WellFormed other w.heap qs ys) (hownS : Owned avail other w qs)
    (hfake : 0 < fake ∧ fake < SIZE_RANGE) (hfresh : fake ∉ other.fakeNode :: qs)
    (hfa : ¬ avail w.alloc fake)
    (hsucc : AllocSucceeds A alloc qs.length w.alloc)
    (hsucc1 : AllocSucceeds A (A.select_on_container_copy_construction other.nodeAlloc)
      qs.length w.alloc)
    (hcopy : ∀ n, ∀ y ∈ ys, E.copyThrows n y = false) (hfuel : qs.length ≤ fuel) :
    CopyResult A E w other qs ys fake (copyConstructAlloc A E fuel fake other alloc w) ∧
    CopyResult A E w other qs ys fake (copyConstruct A E fuel fake other w) :=
  ⟨copy_core C alloc hS hownS hfake hfresh hfa hsucc hcopy hfuel,
   copy_core C (A.select_on_container_copy_construction other.nodeAlloc) hS hownS hfake
     hfresh hfa hsucc1 hcopy hfuel⟩

/-- Claim C7 at a concrete input: copying the list `[7, 8]` (sentinel at address 16)
into a new list whose sentinel is at address 32. -/
theorem copy_construct_spec_witness :
    CopyResult countingAllocator (plainElem Nat 0) (demoList 16 [7, 8] demoWorld).2
        (demoList 16 [7, 8] demoWorld).1 [4096, 4097] [7, 8] 32
        (copyConstructAlloc countingAllocator (plainElem Nat 0) 2 32
          (demoList 16 [7, 8] demoWorld).1 () (demoList 16 [7, 8] demoWorld).2) ∧
    CopyResult countingAllocator (plainElem Nat 0) (demoList 16 [7, 8] demoWorld).2
        (demoList 16 [7, 8] demoWorld).1 [4096, 4097] [7, 8] 32
        (copyConstruct countingAllocator (plainElem Nat 0) 2 32
          (demoList 16 [7, 8] demoWorld).1 (demoList 16 [7, 8] demoWorld).2) :=
  copy_construct_spec countingAllocator_contract ()
    ⟨⟨by decide, by decide, by decide⟩, by decide, by decide⟩
    (by unfold Owned; decide) (by decide) (by decide) (by decide)
    ⟨by decide, by decide, trivial⟩ ⟨by decide, by decide, trivial⟩
    (fun _ _ _ => rfl) (by decide)

/-- Claim C8, as stated, fails when `count * elementSize` does not fit in `size_t`: on a
fresh arena of 16 bytes at address 4096, the request for `2 ^ 63` elements of 2 bytes
succeeds (the product wraps around to 0), but a region of `2 ^ 63 * 2` bytes from the
returned address does not lie in the buffer. -/
theorem allocate_success_overflow :
    ((StackStorage.fresh 16 4096).allocate (2 ^ 63) 1 2).1 ≠ nullptr ∧
    ¬ (((StackStorage.fresh 16 4096).allocate (2 ^ 63) 1 2).1 + 2 ^ 63 * 2
        ≤ (StackStorage.fresh 16 4096).top + (StackStorage.fresh 16 4096).free) ∧
    ((StackStorage.fresh 16 4096).allocate (2 ^ 63) 1 2).2.free
      = (StackStorage.fresh 16 4096).free := by
  decide

/-- Claim C8, amended: for every arena state and every request (`count`, alignment `a`
a power of two, `size_of_T`) whose byte count `count * size_of_T` fits in `size_t` and on
which `allocate` succeeds: the returned address is a multiple of `a`; it is the cursor
plus the alignment padding; the region of `count * size_of_T` bytes from there lies in
the tail `[top, top + free)` that was unused before the call; the cursor afterwards is
the end of that region; the buffer is the same; and `free` has decreased by exactly the
padding plus `count * size_of_T`. -/
theorem allocate_success_spec {N : Nat} (s : StackStorage N) (count a size_of_T : Nat)
    (ha : ∃ k, a = 2 ^ k) (hfit : count * size_of_T < SIZE_RANGE)
    (hok : (s.allocate count a size_of_T).1 ≠ nullptr) :
    a ∣ (s.allocate count a size_of_T).1 ∧
    (s.allocate count a size_of_T).1 = s.top + padding a s.top ∧
    s.top ≤ (s.allocate count a size_of_T).1 ∧
    (s.allocate count a size_of_T).1 + count * size_of_T ≤ s.top + s.free ∧
    (s.allocate count a size_of_T).2.top
      = (s.allocate count a size_of_T).1 + count * size_of_T ∧
    (s.allocate count a size_of_T).2.storage = s.storage ∧
    (s.allocate count a size_of_T).2.free + (padding a s.top + count * size_of_T)
      = s.free := by
  have hpos := pow_two_pos ha
  have hb : (size_of_T * count) % SIZE_RANGE = count * size_of_T := by
    rw [Nat.mul_comm]; exact Nat.mod_eq_of_lt hfit
  rcases allocate_cases s count a size_of_T hpos with ⟨h1, h2, h3, h4⟩ | ⟨_, h2, _⟩
  · rw [hb] at h1 h4
    rw [h4]
    refine ⟨h3, h2, by omega, by omega, ?_, rfl, ?_⟩
    · show s.top + padding a s.top + count * size_of_T = _
      rw [h2]
    · show s.free - padding a s.top - count * size_of_T + _ = _
      omega
  · exact absurd h2 hok

/-- Claim C8 (amended) at a concrete input: 3 elements of 8 bytes, aligned to 8, from an
arena of 64 bytes whose cursor is at 4099. -/
theorem allocate_success_spec_witness :
    8 ∣ (({ storage := 4096, top := 4099, free := 61 } : StackStorage 64).allocate 3 8 8).1 ∧
    (({ storage := 4096, top := 4099, free := 61 } : StackStorage 64).allocate 3 8 8).1
      = 4099 + padding 8 4099 ∧
    4099 ≤ (({ storage := 4096, top := 4099, free := 61 } : StackStorage 64).allocate 3 8 8).1 ∧
    (({ storage := 4096, top := 4099, free := 61 } : StackStorage 64).allocate 3 8 8).1 + 3 * 8
      ≤ 4099 + 61 ∧
    (({ storage := 4096, top := 4099, free := 61 } : StackStorage 64).allocate 3 8 8).2.top
      = (({ storage := 4096, top := 4099, free := 61 } : StackStorage 64).allocate 3 8 8).1
        + 3 * 8 ∧
    (({ storage := 4096, top := 4099, free := 61 } : StackStorage 64).allocate 3 8 8).2.storage
      = 4096 ∧
    (({ storage := 4096, top := 4099, free := 61 } : StackStorage 64).allocate 3 8 8).2.free
      + (padding 8 4099 + 3 * 8) = 61 :=
  allocate_success_spec { storage := 4096, top := 4099, free := 61 } 3 8 8 ⟨3, by decide⟩
    (by decide) (by decide)

/-- Claim C9, as stated, fails when `count * elementSize` does not fit in `size_t`: on a
fresh arena of 64 bytes at address 4096 the request for `2 ^ 62` elements of 4 bytes,
aligned to 8, needs more than the 64 bytes that remain, and yet `allocate` does not
return the null pointer. -/
theorem allocate_fails_overflow :
    (StackStorage.fresh 64 4096).free < padding 8 (StackStorage.fresh 64 4096).top + 2 ^ 62 * 4 ∧
    ((StackStorage.fresh 64 4096).allocate (2 ^ 62) 8 4).1 ≠ nullptr := by
  decide

/-- Claim C9, amended: for every arena state and every request (`count`, alignment `a`
a power of two, `size_of_T`) whose byte count `count * size_of_T` fits in `size_t`:
`allocate` returns the null pointer exactly when the padding that rounds the cursor up to
a multiple of `a` plus `count * size_of_T` exceeds `free`, and then the arena (cursor and
`free`) is unchanged. -/
theorem allocate_fails_iff {N : Nat} (s : StackStorage N) (count a size_of_T : Nat)
    (hv : s.Valid) (ha : ∃ k, a = 2 ^ k) (hfit : count * size_of_T < SIZE_RANGE) :
    ((s.allocate count a size_of_T).1 = nullptr ↔
      s.free < padding a s.top + count * size_of_T) ∧
    ((s.allocate count a size_of_T).1 = nullptr → (s.allocate count a size_of_T).2 = s) := by
  have hpos := pow_two_pos ha
  have hb : (size_of_T * count) % SIZE_RANGE = count * size_of_T := by
    rw [Nat.mul_comm]; exact Nat.mod_eq_of_lt hfit
  have htop : 0 < s.top := by
    have h1 := hv.pos; have h2 := hv.cursor; have h3 := hv.free_le
    omega
  rcases allocate_cases s count a size_of_T hpos with ⟨h1, h2, _, _⟩ | ⟨h1, h2, h3⟩
  · rw [hb] at h1
    have hne : (s.allocate count a size_of_T).1 ≠ nullptr := by
      rw [h2]; unfold nullptr; omega
    exact ⟨⟨fun h => absurd h hne, fun h => by omega⟩, fun h => absurd h hne⟩
  · rw [hb] at h1
    exact ⟨⟨fun _ => h1, fun _ => h2⟩, fun _ => h3⟩

/-- Claim C9 (amended) at a concrete input: 8 elements of 8 bytes, aligned to 8, do not
fit in the 61 bytes that remain. -/
theorem allocate_fails_iff_witness :
    ((({ storage := 4096, top := 4099, free := 61 } : StackStorage 64).allocate 8 8 8).1
        = nullptr ↔ 61 < padding 8 4099 + 8 * 8) ∧
    ((({ storage := 4096, top := 4099, free := 61 } : StackStorage 64).allocate 8 8 8).1
        = nullptr →
      (({ storage := 4096, top := 4099, free := 61 } : StackStorage 64).allocate 8 8 8).2
        = { storage := 4096, top := 4099, free := 61 }) :=
  allocate_fails_iff { storage := 4096, top := 4099, free := 61 } 8 8 8
    ⟨by decide, by decide, by decide, by decide⟩ ⟨3, by decide⟩ (by decide)

/-- Claim C10, as stated, fails in part (a) when `count * elementSize` does not fit in
`size_t`: an arena of 16 bytes is used up by one allocation of 16 bytes, and the next
request, for `2 ^ 63` elements of 2 bytes, succeeds. -/
theorem arena_exhaustion_overflow :
    ((StackStorage.fresh 16 4096).allocate 16 1 1).1 ≠ nullptr ∧
    ((StackStorage.fresh 16 4096).allocate 16 1 1).2.free = 0 ∧
    1 ≤ 2 ^ 63 * 2 ∧
    (((StackStorage.fresh 16 4096).allocate 16 1 1).2.allocate (2 ^ 63) 1 2).1 ≠ nullptr := by
  decide

/-- Claim C10, amended: (a) in an arena with no byte left, every request for at least
one byte whose byte count `count * size_of_T` fits in `size_t` fails, for every
alignment, and leaves the arena as it is; (b) on a fresh arena of `N` bytes, wherever
its buffer lies, every request with `count * size_of_T + (a - 1) ≤ N` (`a` a power of
two) succeeds. -/
theorem arena_exhaustion {N : Nat} (base : Nat) (hv : (StackStorage.fresh N base).Valid) :
    (∀ (s : StackStorage N) (count a size_of_T : Nat), s.free = 0 →
      1 ≤ count * size_of_T → count * size_of_T < SIZE_RANGE →
      (s.allocate count a size_of_T).1 = nullptr ∧ (s.allocate count a size_of_T).2 = s) ∧
    (∀ (count a size_of_T : Nat), (∃ k, a = 2 ^ k) → count * size_of_T + (a - 1) ≤ N →
      ((StackStorage.fresh N base).allocate count a size_of_T).1 ≠ nullptr) := by
  constructor
  · intro s count a size_of_T hfree h1 hfit
    have hb : (size_of_T * count) % SIZE_RANGE = count * size_of_T := by
      rw [Nat.mul_comm]; exact Nat.mod_eq_of_lt hfit
    have hnone : stdAlign a ((size_of_T * count) % SIZE_RANGE) s.top s.free = none := by
      rw [stdAlign_eq, if_neg (by rw [hb]; omega)]
    unfold StackStorage.allocate
    dsimp only
    rw [hnone]
    exact ⟨rfl, rfl⟩
  · intro count a size_of_T ha hle
    have hpos := pow_two_pos ha
    have h1 : 0 < base := hv.pos
    have h2 : base + N < SIZE_RANGE := hv.fits
    have hb : (size_of_T * count) % SIZE_RANGE = count * size_of_T := by
      rw [Nat.mul_comm]; exact Nat.mod_eq_of_lt (by omega)
    have hpad := padding_lt hpos base
    rcases allocate_cases (StackStorage.fresh N base) count a size_of_T hpos with
      ⟨_, h3, _, _⟩ | ⟨h3, _, _⟩
    · rw [h3]
      show base + padding a base ≠ 0
      omega
    · rw [hb] at h3
      have h4 : N < padding a base + count * size_of_T := h3
      omega

/-- Claim C10 (amended) at a concrete input: an arena of 64 bytes at address 4099. -/
theorem arena_exhaustion_witness :
    (∀ (s : StackStorage 64) (count a size_of_T : Nat), s.free = 0 →
      1 ≤ count * size_of_T → count * size_of_T < SIZE_RANGE →
      (s.allocate count a size_of_T).1 = nullptr ∧ (s.allocate count a size_of_T).2 = s) ∧
    (∀ (count a size_of_T : Nat), (∃ k, a = 2 ^ k) → count * size_of_T + (a - 1) ≤ 64 →
      ((StackStorage.fresh 64 4099).allocate count a size_of_T).1 ≠ nullptr) :=
  arena_exhaustion 4099 ⟨by decide, by decide, by decide, by decide⟩

/-- Claim C11: on a well-formed list with values `xs`, `push_back(v)` gives `xs ++ [v]`
and `push_front(v)` gives `v :: xs` (when the allocator returns unused storage and the
copy does not throw); on a list of non-zero size `pop_back` removes the last element and
`pop_front` the first; each changes `size()` by exactly one; `push_back` and
`push_front` are `insert` at `end()` and `begin()`, `pop_back` and `pop_front` are `erase`
at the last and the first node.  In the scenario `push_back` of 1..5, `pop_front` twice,
`push_back(6)`, the iteration yields 3, 4, 5, 6 and the size is 4. -/
theorem push_pop_spec {A : AllocModel H σ} {E : ElemModel T} {l : ListObj H}
    {w : World σ T} {ps : List Ptr} {xs : List T} (hwf : WellFormed l w.heap ps xs) :
    (∀ (v : T) (p : Ptr) (s1 : σ), A.allocate l.nodeAlloc w.alloc = (some p, s1) →
      p ∉ l.fakeNode :: ps → 0 < p ∧ p < SIZE_RANGE → E.copyThrows w.ctors v = false →
      (∃ l1 w1, push_back A E l w v = Outcome.ok (l1, w1) ∧
        WellFormed l1 w1.heap (ps ++ [p]) (xs ++ [v]) ∧ size l1 = size l + 1) ∧
      (∃ l1 w1, push_front A E l w v = Outcome.ok (l1, w1) ∧
        WellFormed l1 w1.heap (p :: ps) (v :: xs) ∧ size l1 = size l + 1)) ∧
    (0 < size l →
      WellFormed (pop_back A l w).1 (pop_back A l w).2.heap ps.dropLast xs.dropLast ∧
      size (pop_back A l w).1 + 1 = size l ∧
      WellFormed (pop_front A l w).1 (pop_front A l w).2.heap ps.tail xs.tail ∧
      size (pop_front A l w).1 + 1 = size l ∧
      ps.getLast? = some (w.heap.prev (end_ l)) ∧ ps.head? = some (begin l w)) ∧
    (∀ v, push_back A E l w v = insert A E l w (end_ l) v) ∧
    (∀ v, push_front A E l w v = insert A E l w (begin l w) v) ∧
    pop_back A l w = erase A l w (w.heap.prev (end_ l)) ∧
    pop_front A l w = erase A l w (begin l w) ∧
    (WellFormed scenario.1 scenario.2.heap [4098, 4099, 4100, 4101] [3, 4, 5, 6] ∧
      elements scenario.1 scenario.2 4 = some [some 3, some 4, some 5, some 6] ∧
      size scenario.1 = 4) := by
  have hlen := wellFormed_length hwf
  obtain ⟨hb, he⟩ := ring_begin hwf.ring
  refine ⟨?_, ?_, fun _ => rfl, fun _ => rfl, rfl, rfl,
    ⟨⟨⟨by decide, by decide, by decide⟩, by decide, by decide⟩, by decide, by decide⟩⟩
  · intro v p s1 hA hfresh hrange hc
    constructor
    · have hit : (ps ++ [l.fakeNode])[ps.length]? = some (end_ l) := by simp [end_]
      obtain ⟨l1, w1, hok, hwf1, hsz, _⟩ := insert_at (E := E) v hwf hit hA hfresh hrange hc
      have e3 : xs.take ps.length = xs := by rw [hlen]; exact List.take_length _
      have e4 : xs.drop ps.length = [] := by rw [hlen]; exact List.drop_length _
      rw [List.take_length, List.drop_length, e3, e4] at hwf1
      exact ⟨l1, w1, hok, hwf1, hsz⟩
    · have hit : (ps ++ [l.fakeNode])[0]? = some (begin l w) := by
        show _ = some (w.heap.next l.fakeNode)
        rw [hb]
        cases ps <;> simp [firstOr]
      obtain ⟨l1, w1, hok, hwf1, hsz, _⟩ := insert_at (E := E) v hwf hit hA hfresh hrange hc
      exact ⟨l1, w1, hok, by simpa using hwf1, hsz⟩
  · intro hsz
    have hne : ps ≠ [] := by
      intro h0
      have := hwf.size
      rw [h0] at this
      simp only [size, List.length_nil] at hsz this
      omega
    have hxne : xs ≠ [] := by
      intro h0
      rw [h0] at hlen
      exact hne (List.length_eq_zero.mp hlen)
    have hlast : ps[ps.length - 1]? = some (w.heap.prev (end_ l)) := by
      show _ = some (w.heap.prev l.fakeNode)
      rw [he]; exact lastOr_eq_getLast? _ hne
    have hfirst : ps[0]? = some (begin l w) := by
      show _ = some (w.heap.next l.fakeNode)
      rw [hb]
      cases ps with
      | nil => exact absurd rfl hne
      | cons q ps => simp [firstOr]
    obtain ⟨h1, h2, _⟩ := erase_wellFormed A hwf hlast
    obtain ⟨h3, h4, _⟩ := erase_wellFormed A hwf hfirst
    have hpos : 0 < ps.length := List.length_pos.mpr hne
    have e1 : ps.length - 1 + 1 = ps.length := by omega
    have e2 : xs.take (ps.length - 1) = xs.dropLast := by
      rw [List.dropLast_eq_take, hlen]
    rw [e1, List.drop_length, List.append_nil, ← List.dropLast_eq_take, e2] at h1
    have e3 : xs.drop ps.length = [] := by rw [hlen]; exact List.drop_length _
    rw [e3, List.append_nil] at h1
    simp only [List.take_zero, List.nil_append, zero_add, List.drop_one] at h3
    refine ⟨h1, h2, h3, h4, ?_, ?_⟩
    · rw [List.getLast?_eq_getElem?]; exact hlast
    · rw [List.head?_eq_getElem?]; exact hfirst

/-- Claim C11 at a concrete input: the list `[5, 6]`. -/
theorem push_pop_spec_witness :
    WellFormed (pop_back countingAllocator (demoList 16 [5, 6] demoWorld).1
        (demoList 16 [5, 6] demoWorld).2).1
      (pop_back countingAllocator (demoList 16 [5, 6] demoWorld).1
        (demoList 16 [5, 6] demoWorld).2).2.heap [4096, 4097].dropLast [5, 6].dropLast ∧
    size (pop_back countingAllocator (demoList 16 [5, 6] demoWorld).1
        (demoList 16 [5, 6] demoWorld).2).1 + 1 = size (demoList 16 [5, 6] demoWorld).1 :=
  have h := (push_pop_spec (A := countingAllocator) (E := plainElem Nat 0)
    (⟨⟨by decide, by decide, by decide⟩, by decide, by decide⟩ :
      WellFormed (demoList 16 [5, 6] demoWorld).1 (demoList 16 [5, 6] demoWorld).2.heap
        [4096, 4097] [5, 6])).2.1 (by decide)
  ⟨h.1, h.2.1⟩

/-- Claim C12, as stated, fails for every non-empty list: on the list `[5]` (size 1),
following `next` once from the sentinel arrives at the node, not at the sentinel. -/
theorem ring_closure_off_by_one :
    size (demoList 16 [5] demoWorld).1 = 1 ∧
    Nat.iterate (demoList 16 [5] demoWorld).2.heap.next (size (demoList 16 [5] demoWorld).1)
      (demoList 16 [5] demoWorld).1.fakeNode ≠ (demoList 16 [5] demoWorld).1.fakeNode := by
  decide

/-- Claim C12, amended: for every list obtained from the empty list by a sequence of
`push_back`, `push_front`, `pop_back`, `pop_front`, `insert` and `erase` (with a
conforming allocator), following `next` from the sentinel exactly `size() + 1` times
arrives back at the sentinel, and no smaller positive number of steps does. -/
theorem ring_closure {A : AllocModel H σ} {E : ElemModel T}
    {avail : σ → Ptr → Prop} (C : AllocContract A avail) {fake : Ptr} {alloc : H}
    {w0 : World σ T} {l : ListObj H} {w : World σ T}
    (hfake : 0 < fake ∧ fake < SIZE_RANGE) (hown : ¬ avail w0.alloc fake)
    (hreach : Reachable A E fake alloc w0 l w) :
    Nat.iterate w.heap.next (size l + 1) l.fakeNode = l.fakeNode ∧
    ∀ k, 0 < k → k ≤ size l → Nat.iterate w.heap.next k l.fakeNode ≠ l.fakeNode := by
  obtain ⟨ps, xs, hwf, _⟩ := reachable_wellFormed C hfake hown hreach
  have hpath : Path w.heap (l.fakeNode :: (ps ++ [l.fakeNode])) := hwf.ring.path
  have hsz : size l = ps.length := hwf.size
  constructor
  · have := iterate_next_path (size l + 1) _ _ hpath (by rw [hsz]; simp)
    rw [hsz] at this ⊢
    simp only [List.getElem?_cons_succ] at this
    rw [List.getElem?_append_right (le_refl _)] at this
    simpa using this.symm
  · intro k hk0 hk he
    have := iterate_next_path k _ _ hpath (by rw [hsz] at hk; simp; omega)
    obtain ⟨j, rfl⟩ : ∃ j, k = j + 1 := ⟨k - 1, by omega⟩
    simp only [List.getElem?_cons_succ] at this
    rw [hsz] at hk
    rw [List.getElem?_append_left (by omega), he] at this
    have hmem : l.fakeNode ∈ ps := List.mem_iff_getElem?.mpr ⟨_, this⟩
    exact (List.nodup_cons.mp hwf.ring.nodup).1 hmem

/-- Claim C12 (amended) at a concrete input: the list obtained by `push_back(5)`. -/
theorem ring_closure_witness :
    Nat.iterate (demoList 16 [5] demoWorld).2.heap.next (size (demoList 16 [5] demoWorld).1 + 1)
        (demoList 16 [5] demoWorld).1.fakeNode = (demoList 16 [5] demoWorld).1.fakeNode ∧
    ∀ k, 0 < k → k ≤ size (demoList 16 [5] demoWorld).1 →
      Nat.iterate (demoList 16 [5] demoWorld).2.heap.next k
        (demoList 16 [5] demoWorld).1.fakeNode ≠ (demoList 16 [5] demoWorld).1.fakeNode :=
  ring_closure countingAllocator_contract (by decide) (by decide)
    (ReachableFrom.push_back ReachableFrom.start (v := 5) rfl :
      Reachable countingAllocator (plainElem Nat 0) 16 () demoWorld
        (demoList 16 [5] demoWorld).1 (demoList 16 [5] demoWorld).2)

/-- Claim C15: on a well-formed list with `n` nodes `ps`, the loop of the destructor
has, after `k ≤ n` iterations, erased the first `k` nodes in their order and left
`sz_ = n - k`: those nodes hold no value any more and have been handed back to the
allocator, the others are as they were; it makes exactly `n` erases and then stops (more
fuel changes nothing).  The destructor destroys and then releases every node exactly
once, front to back, never the sentinel, which ends linked to itself: afterwards no node
holds a value, the resource of the allocator is what `deallocate` of each node in turn
makes of it, and the values and links of all other memory, the value of the sentinel
included, are untouched. -/
theorem destructor_spec (A : AllocModel H σ) {l : ListObj H} {w : World σ T}
    {ps : List Ptr} {xs : List T} (hwf : WellFormed l w.heap ps xs) :
    (∀ k, k ≤ ps.length →
      (eraseWhile A k l w).1.sz = ps.length - k ∧
      (eraseWhile A k l w).2.trace = w.trace ++ releaseEvents (ps.take k) ∧
      (eraseWhile A k l w).2.alloc
        = (ps.take k).foldl (fun s p => A.deallocate l.nodeAlloc p s) w.alloc ∧
      (∀ p ∈ ps.take k, (eraseWhile A k l w).2.heap.value p = none) ∧
      (∀ u, u ∉ ps.take k → (eraseWhile A k l w).2.heap.value u = w.heap.value u) ∧
      WellFormed (eraseWhile A k l w).1 (eraseWhile A k l w).2.heap (ps.drop k)
        (xs.drop k)) ∧
    (∀ fuel, ps.length ≤ fuel → eraseWhile A fuel l w = eraseWhile A ps.length l w) ∧
    (destructor A l w).trace = w.trace ++ releaseEvents ps ∧
    (∀ p ∈ ps, (releaseEvents ps).count (Event.destroy p) = 1 ∧
      (releaseEvents ps).count (Event.deallocate p) = 1) ∧
    Event.destroy l.fakeNode ∉ releaseEvents ps ∧
    Event.deallocate l.fakeNode ∉ releaseEvents ps ∧
    (destructor A l w).heap.next l.fakeNode = l.fakeNode ∧
    (destructor A l w).heap.prev l.fakeNode = l.fakeNode ∧
    (destructor A l w).alloc
      = ps.foldl (fun s p => A.deallocate l.nodeAlloc p s) w.alloc ∧
    (∀ p ∈ ps, (destructor A l w).heap.value p = none) ∧
    (∀ u, u ∉ ps → (destructor A l w).heap.value u = w.heap.value u) ∧
    (destructor A l w).heap.value l.fakeNode = w.heap.value l.fakeNode ∧
    (∀ u, u ∉ l.fakeNode :: ps →
      (destructor A l w).heap.next u = w.heap.next u ∧
      (destructor A l w).heap.prev u = w.heap.prev u) ∧
    (destructor A l w).ctors = w.ctors := by
  have hfake : l.fakeNode ∉ ps := (List.nodup_cons.mp hwf.ring.nodup).1
  have hnil : ∀ q ∈ ([] : List Ptr), q ∉ l.fakeNode :: ps :=
    fun _ hq => absurd hq (List.not_mem_nil _)
  have hfull := eraseWhile_spec A ps.length ps xs l w hwf hnil
  obtain ⟨f1, f2, _, f4, f5, f6, _⟩ := hfull
  obtain ⟨v1, v2⟩ := eraseWhile_values A ps.length ps xs l w hwf
  rw [List.drop_length] at f1
  rw [List.take_length] at f4
  rw [List.take_length] at f6
  rw [List.take_length] at v1
  rw [List.take_length] at v2
  have hd : destructor A l w = (eraseWhile A ps.length l w).2 := by
    show (eraseWhile A l.sz l w).2 = _
    rw [hwf.size]
  refine ⟨?_, ?_, ?_, ?_, ?_, ?_, ?_, ?_, ?_, ?_, ?_, ?_, ?_, ?_⟩
  · intro k hk
    obtain ⟨h1, _, _, h4, _, h6, _⟩ := eraseWhile_spec A k ps xs l w hwf hnil
    obtain ⟨u1, u2⟩ := eraseWhile_values A k ps xs l w hwf
    refine ⟨?_, h4, h6, u1, u2, h1⟩
    rw [h1.size, List.length_drop]
  · intro fuel hfuel
    obtain ⟨m, rfl⟩ : ∃ m, fuel = ps.length + m := ⟨fuel - ps.length, by omega⟩
    rw [eraseWhile_add]
    exact eraseWhile_stop A m _ _ (by rw [f1.size]; rfl)
  · rw [hd]; exact f4
  · intro p hp
    exact releaseEvents_count (List.nodup_cons.mp hwf.ring.nodup).2 hp
  · intro hm
    obtain ⟨x, hx, h1 | h1⟩ := mem_releaseEvents hm
    · simp only [Event.destroy.injEq] at h1; exact hfake (h1 ▸ hx)
    · simp at h1
  · intro hm
    obtain ⟨x, hx, h1 | h1⟩ := mem_releaseEvents hm
    · simp at h1
    · simp only [Event.deallocate.injEq] at h1; exact hfake (h1 ▸ hx)
  · rw [hd]
    have := (ring_begin f1.ring).1
    rw [f2] at this
    exact this
  · rw [hd]
    have := (ring_begin f1.ring).2
    rw [f2] at this
    exact this
  · rw [hd]; exact f6
  · intro p hp
    rw [hd]; exact v1 p hp
  · intro u hu
    rw [hd]; exact v2 u hu
  · rw [hd]; exact v2 _ hfake
  · intro u hu
    obtain ⟨_, _, _, _, _, _, g7⟩ := eraseWhile_spec (Q := [u]) A ps.length ps xs l w hwf
      (fun q hq => by rw [List.mem_singleton.mp hq]; exact hu)
    rw [hd]
    obtain ⟨a1, a2, _⟩ := g7 u (List.mem_singleton_self u)
    exact ⟨a1, a2⟩
  · rw [hd]; exact f5

/-- Claim C15 at a concrete input: destroying the list `[5, 6, 7]`. -/
theorem destructor_spec_witness :
    (destructor countingAllocator (demoList 16 [5, 6, 7] demoWorld).1
        (demoList 16 [5, 6, 7] demoWorld).2).trace
      = (demoList 16 [5, 6, 7] demoWorld).2.trace ++ releaseEvents [4096, 4097, 4098] ∧
    (destructor countingAllocator (demoList 16 [5, 6, 7] demoWorld).1
        (demoList 16 [5, 6, 7] demoWorld).2).heap.next (demoList 16 [5, 6, 7] demoWorld).1.fakeNode
      = (demoList 16 [5, 6, 7] demoWorld).1.fakeNode ∧
    (destructor countingAllocator (demoList 16 [5, 6, 7] demoWorld).1
        (demoList 16 [5, 6, 7] demoWorld).2).alloc
      = [4096, 4097, 4098].foldl
          (fun s p => countingAllocator.deallocate
            (demoList 16 [5, 6, 7] demoWorld).1.nodeAlloc p s)
          (demoList 16 [5, 6, 7] demoWorld).2.alloc ∧
    (∀ p ∈ [4096, 4097, 4098],
      (destructor countingAllocator (demoList 16 [5, 6, 7] demoWorld).1
        (demoList 16 [5, 6, 7] demoWorld).2).heap.value p = none) :=
  have h := destructor_spec countingAllocator
    (⟨⟨by decide, by decide, by decide⟩, by decide, by decide⟩ :
      WellFormed (demoList 16 [5, 6, 7] demoWorld).1 (demoList 16 [5, 6, 7] demoWorld).2.heap
        [4096, 4097, 4098] [5, 6, 7])
  ⟨h.2.2.1, h.2.2.2.2.2.2.1, h.2.2.2.2.2.2.2.2.1, h.2.2.2.2.2.2.2.2.2.1⟩

/-- Claim C14: when the allocations succeed (with a conforming allocator) and no
construction throws, `List(sz, value)` and `List(sz, value, alloc)` return a well-formed
list of exactly `sz` elements, each equal to `value`, and `List(sz)` and
`List(sz, alloc)` return a well-formed list of exactly `sz` default-valued elements; in
all four the size counter is the number of linked nodes. -/
theorem sized_construct_spec {A : AllocModel H σ} {avail : σ → Ptr → Prop}
    (C : AllocContract A avail) (E : ElemModel T) {w : World σ T} {fake : Ptr}
    (garbage : Ptr) (sz : Nat) (value : T) (alloc : H)
    (hfake : 0 < fake ∧ fake < SIZE_RANGE) (hfa : ¬ avail w.alloc fake)
    (hsucc0 : AllocSucceeds A A.defaultAlloc sz w.alloc)
    (hsucc1 : AllocSucceeds A alloc sz w.alloc)
    (hdef : ∀ k, E.defaultThrows k = false) (hcopy : ∀ k, E.copyThrows k value = false) :
    SizedResult sz value fake (sizedValue A E fake garbage sz value w) ∧
    SizedResult sz value fake (sizedValueAlloc A E fake garbage sz value alloc w) ∧
    SizedResult sz E.defaultValue fake (sizedDefault A E fake garbage sz w) ∧
    SizedResult sz E.defaultValue fake (sizedAlloc A E fake sz alloc w) := by
  have hc : ∀ (p : Ptr) (w1 : World σ T), constructCopy E p value w1 =
      (true, { w1 with heap := w1.heap.setValue p (some value), ctors := w1.ctors + 1,
                       trace := w1.trace ++ [Event.construct p] }) := by
    intro p w1; simp [constructCopy, hcopy]
  have hd : ∀ (p : Ptr) (w1 : World σ T), constructDefault E p w1 =
      (true, { w1 with heap := w1.heap.setValue p (some E.defaultValue),
                       ctors := w1.ctors + 1,
                       trace := w1.trace ++ [Event.construct p] }) := by
    intro p w1; simp [constructDefault, hdef]
  refine ⟨sized_core C hc garbage sz A.defaultAlloc hfake hfa hsucc0,
    sized_core C hc garbage sz alloc hfake hfa hsucc1,
    sized_core C hd garbage sz A.defaultAlloc hfake hfa hsucc0, ?_⟩
  have hown0 : Owned avail { (mkEmpty fake alloc w).1 with sz := sz } (mkEmpty fake alloc w).2
      [] := by
    intro q hq
    simp only [mkEmpty, List.mem_singleton] at hq
    rw [hq]; exact hfa
  have h0 := mkEmpty_wellFormed fake alloc w hfake
  obtain ⟨w1, ps1, hloop, hr, hv, hlen⟩ :=
    sizedAllocLoop_spec (E := E) C hdef sz { (mkEmpty fake alloc w).1 with sz := sz }
      (mkEmpty fake alloc w).2 [] [] h0.ring rfl hown0 hsucc1
  simp only [List.nil_append] at hr hv
  have hwf : WellFormed { (mkEmpty fake alloc w).1 with sz := sz } w1.heap ps1
      (List.replicate sz E.defaultValue) := ⟨hr, hlen.symm, hv⟩
  have hres : sizedAlloc A E fake sz alloc w
      = Outcome.ok ({ (mkEmpty fake alloc w).1 with sz := sz }, w1) := by
    unfold sizedAlloc
    dsimp only
    rw [hloop]
    rfl
  rw [hres]
  exact sizedResult_of rfl hwf

/-- Claim C14 at a concrete input: the four constructors for size 3 (and value 7). -/
theorem sized_construct_spec_witness :
    SizedResult 3 7 16 (sizedValue countingAllocator (plainElem Nat 0) 16 0 3 7 demoWorld) ∧
    SizedResult 3 7 16
      (sizedValueAlloc countingAllocator (plainElem Nat 0) 16 0 3 7 () demoWorld) ∧
    SizedResult 3 (plainElem Nat 0).defaultValue 16
      (sizedDefault countingAllocator (plainElem Nat 0) 16 0 3 demoWorld) ∧
    SizedResult 3 (plainElem Nat 0).defaultValue 16
      (sizedAlloc countingAllocator (plainElem Nat 0) 16 3 () demoWorld) :=
  sized_construct_spec countingAllocator_contract (plainElem Nat 0) 0 3 7 ()
    (by decide) (by decide) ⟨by decide, by decide, by decide, trivial⟩
    ⟨by decide, by decide, by decide, trivial⟩ (fun _ => rfl) (fun _ => rfl)

/-- Claim C16: on a well-formed list with `n` nodes `ps` holding `xs`: `begin()` is the
successor of the sentinel; `end()` and the const `end()`/`cend()` (computed as
`fakeNode_.next->prev`) are the sentinel; `k` applications of `++` to `begin()` give the
node number `k`, and `end()` after exactly `n` steps and not before; the iteration
yields `xs` front to back; `k` applications of `--` to `end()` give the node number `k`
from the back, `n` of them arrive at `begin()`, and the values met are `xs` reversed. -/
theorem iteration_spec {l : ListObj H} {w : World σ T} {ps : List Ptr} {xs : List T}
    (hwf : WellFormed l w.heap ps xs) :
    size l = ps.length ∧
    begin l w = w.heap.next l.fakeNode ∧ end_ l = l.fakeNode ∧
    cend l w = l.fakeNode ∧ cbegin l w = begin l w ∧
    (∀ k, k ≤ ps.length →
      (ps ++ [end_ l])[k]? = some (Nat.iterate (increment w) k (begin l w))) ∧
    Nat.iterate (increment w) ps.length (begin l w) = end_ l ∧
    (∀ k, k < ps.length → Nat.iterate (increment w) k (begin l w) ≠ end_ l) ∧
    elements l w ps.length = some (xs.map some) ∧
    (∀ k, k ≤ ps.length →
      (end_ l :: ps.reverse)[k]? = some (Nat.iterate (decrement w) k (end_ l))) ∧
    Nat.iterate (decrement w) ps.length (end_ l) = begin l w ∧
    (List.range ps.length).map
      (fun k => deref w (Nat.iterate (decrement w) (k + 1) (end_ l))) = xs.reverse.map some := by
  have hinc : increment w = w.heap.next := rfl
  have hdec : decrement w = w.heap.prev := rfl
  have hfake : l.fakeNode ∉ ps := (List.nodup_cons.mp hwf.ring.nodup).1
  obtain ⟨hb, he⟩ := ring_begin hwf.ring
  have hnext := iterate_next_ring hwf.ring
  have hprev := iterate_prev_ring hwf.ring
  refine ⟨hwf.size, rfl, rfl, (ring_mem_links hwf.ring (List.mem_cons_self _ _)).2.2.2, rfl,
    ?_, ?_, ?_, ?_, ?_, ?_, ?_⟩
  · intro k hk
    rw [hinc]; exact hnext k hk
  · have := hnext ps.length (le_refl _)
    rw [List.getElem?_append_right (le_refl _)] at this
    rw [hinc]
    simpa using this.symm
  · intro k hk he1
    have := hnext k (le_of_lt hk)
    rw [List.getElem?_append_left hk] at this
    rw [hinc] at he1
    have he2 : Nat.iterate w.heap.next k (w.heap.next l.fakeNode) = l.fakeNode := he1
    rw [he2] at this
    exact hfake (List.mem_iff_getElem?.mpr ⟨_, this⟩)
  · have hr : Ring w.heap l.fakeNode ([] ++ ps) := by simpa using hwf.ring
    have hw := walk_ring [] ps hr
    rw [← hb] at hw
    show (walk w.heap l.fakeNode ps.length (w.heap.next l.fakeNode)).map _ = _
    rw [hw]
    show some (ps.map w.heap.value) = _
    rw [hwf.values]
  · intro k hk
    rw [hdec]; exact hprev k hk
  · rw [hdec]
    have := hprev ps.length (le_refl _)
    cases ps with
    | nil => exact hb.symm
    | cons q ps =>
      have hb1 : begin l w = q := hb
      rw [hb1]
      simp only [List.length_cons, List.getElem?_cons_succ, List.reverse_cons] at this
      rw [List.getElem?_append_right (by simp)] at this
      simp only [List.length_reverse, Nat.sub_self, List.getElem?_cons_zero,
        Option.some.injEq] at this
      exact this.symm
  · have hrev : ∀ k, k < ps.reverse.length →
        ps.reverse[k]? = some (Nat.iterate (decrement w) (k + 1) (end_ l)) := by
      intro k hk
      have := hprev (k + 1) (by simpa using hk)
      simpa [hdec] using this
    have h1 := map_range_of_getElem? hrev
    rw [List.length_reverse] at h1
    have h2 : (List.range ps.length).map
        (fun k => deref w (Nat.iterate (decrement w) (k + 1) (end_ l)))
        = ((List.range ps.length).map
            (fun k => Nat.iterate (decrement w) (k + 1) (end_ l))).map w.heap.value := by
      rw [List.map_map]; rfl
    rw [h2, h1, List.map_reverse, hwf.values, List.map_reverse]

/-- Claim C16 at a concrete input: the list `[5, 6, 7]`. -/
theorem iteration_spec_witness :
    elements (demoList 16 [5, 6, 7] demoWorld).1 (demoList 16 [5, 6, 7] demoWorld).2
        [4096, 4097, 4098].length = some ([5, 6, 7].map some) ∧
    Nat.iterate (decrement (demoList 16 [5, 6, 7] demoWorld).2) [4096, 4097, 4098].length
        (end_ (demoList 16 [5, 6, 7] demoWorld).1)
      = begin (demoList 16 [5, 6, 7] demoWorld).1 (demoList 16 [5, 6, 7] demoWorld).2 :=
  have h := iteration_spec
    (⟨⟨by decide, by decide, by decide⟩, by decide, by decide⟩ :
      WellFormed (demoList 16 [5, 6, 7] demoWorld).1 (demoList 16 [5, 6, 7] demoWorld).2.heap
        [4096, 4097, 4098] [5, 6, 7])
  ⟨h.2.2.2.2.2.2.2.2.1, h.2.2.2.2.2.2.2.2.2.2.1⟩

/-- Claim C18: on an arena of `N` bytes, default-constructed at any address `base`, after
every finite sequence `cs` of `allocate` and `deallocate` calls (succeeding or failing,
of any element size and count, alignments being powers of two) the buffer is where it
was, the offset of the cursor from the start of the buffer plus the remaining capacity is
`N`, and the cursor lies inside the buffer or one past its end; any further call `c`
does not increase the remaining capacity and keeps the sum; and `deallocate` leaves the
arena, cursor and remaining capacity included, exactly as it is. -/
theorem arena_invariant {N : Nat} (base : Nat) (hv : (StackStorage.fresh N base).Valid)
    (cs : List ArenaCall) (hcs : ∀ d ∈ cs, d.Aligned) (c : ArenaCall) (hc : c.Aligned) :
    (runCalls cs (StackStorage.fresh N base)).storage = base ∧
    ((runCalls cs (StackStorage.fresh N base)).top - base)
      + (runCalls cs (StackStorage.fresh N base)).free = N ∧
    base ≤ (runCalls cs (StackStorage.fresh N base)).top ∧
    (runCalls cs (StackStorage.fresh N base)).top ≤ base + N ∧
    (runCalls cs (StackStorage.fresh N base)).free ≤ N ∧
    runCalls (cs ++ [c]) (StackStorage.fresh N base)
      = c.run (runCalls cs (StackStorage.fresh N base)) ∧
    (c.run (runCalls cs (StackStorage.fresh N base))).free
      ≤ (runCalls cs (StackStorage.fresh N base)).free ∧
    ((c.run (runCalls cs (StackStorage.fresh N base))).top - base)
      + (c.run (runCalls cs (StackStorage.fresh N base))).free = N ∧
    (∀ (p : Ptr) (n : Nat) (s : StackStorage N), (ArenaCall.deallocate p n).run s = s) := by
  obtain ⟨h1, h2, h3, h4⟩ := runCalls_valid cs (StackStorage.fresh N base) hcs hv
  obtain ⟨k1, k2, k3, k4⟩ := arenaCall_run_valid hc h1
  have e2 : (runCalls cs (StackStorage.fresh N base)).storage = base := h2
  have e4 : base ≤ (runCalls cs (StackStorage.fresh N base)).top := h4
  have c1 := h1.cursor
  have c2 := h1.free_le
  have c3 := k1.cursor
  rw [k2] at c3
  rw [e2] at c1 c3
  refine ⟨e2, ?_, e4, ?_, c2, ?_, k3, ?_, fun _ _ _ => rfl⟩
  · omega
  · omega
  · unfold runCalls
    rw [List.foldl_append]
    rfl
  · omega

/-- Claim C18 at a concrete input: an arena of 64 bytes at address 4096, after a
successful `allocate`, a `deallocate` and a failing `allocate`, followed by one more
`allocate`. -/
theorem arena_invariant_witness :
    (StackStorage.fresh 64 4096).Valid ∧
    (runCalls [ArenaCall.allocate 24 1 8, ArenaCall.deallocate 4096 1,
        ArenaCall.allocate 100 1 8] (StackStorage.fresh 64 4096)).storage = 4096 ∧
    ((runCalls [ArenaCall.allocate 24 1 8, ArenaCall.deallocate 4096 1,
        ArenaCall.allocate 100 1 8] (StackStorage.fresh 64 4096)).top - 4096)
      + (runCalls [ArenaCall.allocate 24 1 8, ArenaCall.deallocate 4096 1,
        ArenaCall.allocate 100 1 8] (StackStorage.fresh 64 4096)).free = 64 ∧
    ((ArenaCall.allocate 8 1 8).run (runCalls [ArenaCall.allocate 24 1 8,
        ArenaCall.deallocate 4096 1, ArenaCall.allocate 100 1 8]
        (StackStorage.fresh 64 4096))).free
      ≤ (runCalls [ArenaCall.allocate 24 1 8, ArenaCall.deallocate 4096 1,
        ArenaCall.allocate 100 1 8] (StackStorage.fresh 64 4096)).free :=
  have hv : (StackStorage.fresh 64 4096).Valid := ⟨by decide, by decide, by decide, by decide⟩
  have h := arena_invariant 4096 hv
    [ArenaCall.allocate 24 1 8, ArenaCall.deallocate 4096 1, ArenaCall.allocate 100 1 8]
    (by
      intro d hd
      simp only [List.mem_cons, List.mem_singleton, List.not_mem_nil, or_false] at hd
      rcases hd with rfl | rfl | rfl
      · exact ⟨3, rfl⟩
      · trivial
      · exact ⟨3, rfl⟩)
    (ArenaCall.allocate 8 1 8) ⟨3, rfl⟩
  ⟨hv, h.1, h.2.1, h.2.2.2.2.2.2.1⟩

/-- Claim C17: converting a `StackAllocator` to another element type gives a handle on
the same arena; and on an arena of 1024 bytes, default-constructed at any address
`base`, the ten one-node allocations for nodes of 24 bytes aligned to 8, followed by the
five one-node allocations through the converted handle for nodes of 32 bytes aligned to
`a2` (a power of two, at most 16) all return a non-null, suitably aligned address inside
the buffer; the fifteen regions lie one after the other without overlap; and the bytes
consumed, padding included (the offset of the cursor, which is the capacity minus what
remains), are at most 545, hence at most 1024. -/
theorem shared_arena (base : Nat) (hv : (StackStorage.fresh 1024 base).Valid)
    (a2 : Nat) (ha2 : ∃ k, a2 = 2 ^ k) (hle : a2 ≤ 16) (h d1 d2 : Ptr)
    (s : Ptr → StackStorage 1024) (hs : s h = StackStorage.fresh 1024 base) :
    (∀ other : Ptr, StackAllocator.convert other = other) ∧
    StackAllocator.convert (StackAllocator.bind h) = StackAllocator.bind h ∧
    ∃ ptrs1 ptrs2 : List Nat,
      (sharedArenaRun a2 h d1 d2 s).1 = ptrs1.map some ∧
      (sharedArenaRun a2 h d1 d2 s).2.1 = ptrs2.map some ∧
      ptrs1.length = 10 ∧ ptrs2.length = 5 ∧
      (∀ p ∈ ptrs1, p ≠ nullptr ∧ 8 ∣ p ∧ base ≤ p ∧ p + 24 ≤ base + 1024) ∧
      (∀ p ∈ ptrs2, p ≠ nullptr ∧ a2 ∣ p ∧ base ≤ p ∧ p + 32 ≤ base + 1024) ∧
      DisjointInOrder (ptrs1.map (fun p => (p, 24)) ++ ptrs2.map (fun p => (p, 32))) ∧
      ((sharedArenaRun a2 h d1 d2 s).2.2 h).storage = base ∧
      ((sharedArenaRun a2 h d1 d2 s).2.2 h).top - base
        = 1024 - ((sharedArenaRun a2 h d1 d2 s).2.2 h).free ∧
      1024 - ((sharedArenaRun a2 h d1 d2 s).2.2 h).free ≤ 545 ∧
      1024 - ((sharedArenaRun a2 h d1 d2 s).2.2 h).free ≤ 1024 := by
  refine ⟨fun _ => rfl, rfl, ?_⟩
  have hpos := pow_two_pos ha2
  have hv0 : (s h).Valid := by rw [hs]; exact hv
  have hfree0 : (s h).free = 1024 := by rw [hs]; rfl
  have htop0 : (s h).top = base := by rw [hs]; rfl
  have hst0 : (s h).storage = base := by rw [hs]; rfl
  obtain ⟨ptrs1, i1, i2, i3, i4, i5, i6, i7, i8⟩ :=
    allocateTimes_stack 24 8 d1 h (by decide) (by decide) 10 s hv0
      (by rw [hfree0]; decide)
  obtain ⟨ptrs2, j1, j2, j3, j4, j5, j6, j7, j8⟩ :=
    allocateTimes_stack 32 a2 d2 h hpos (by decide) 5
      (allocateTimes (stackAllocator 1024 24 8 d1) h 10 s).2 i5 (by omega)
  have c5 := j5.cursor
  generalize hs1 : (allocateTimes (stackAllocator 1024 24 8 d1) h 10 s).2 = s1
    at i3 i5 i6 i7 i8 j1 j3 j5 j6 j7 j8 c5
  have e1 : sharedArenaRun a2 h d1 d2 s
      = (ptrs1.map some, ptrs2.map some,
          (allocateTimes (stackAllocator 1024 32 a2 d2) h 5 s1).2) := by
    unfold sharedArenaRun StackAllocator.convert StackAllocator.bind
    simp only [i1, hs1, j1]
  rw [e1]
  dsimp only
  generalize (allocateTimes (stackAllocator 1024 32 a2 d2) h 5 s1).2 h = s2
    at j3 j5 j6 j7 j8 c5
  have hs2 : s2.storage = base := by rw [j6, i6, hst0]
  rw [hs2] at c5
  rw [htop0] at i3 i8
  rw [hfree0] at i7
  refine ⟨ptrs1, ptrs2, rfl, rfl, i2, j2, ?_, ?_, ?_, hs2, ?_, ?_, ?_⟩
  · intro p hp
    obtain ⟨a1, a2, a3, a4⟩ := i3 p hp
    exact ⟨a2, a3, a1, by omega⟩
  · intro p hp
    obtain ⟨a1, a2, a3, a4⟩ := j3 p hp
    exact ⟨a2, a3, by omega, by omega⟩
  · refine disjointInOrder_append i4 j4 ?_
    intro r hr q hq
    obtain ⟨p1, hp1, rfl⟩ := List.mem_map.mp hr
    obtain ⟨p2, hp2, rfl⟩ := List.mem_map.mp hq
    have := (i3 p1 hp1).2.2.2
    have := (j3 p2 hp2).1
    show p1 + 24 ≤ p2
    omega
  · omega
  · omega
  · omega

/-- Claim C17 at a concrete input: the arena at address 4096, the second node type
aligned to 16. -/
theorem shared_arena_witness :
    (StackStorage.fresh 1024 4096).Valid ∧
    ∃ ptrs1 ptrs2 : List Nat,
      (sharedArenaRun 16 1 0 0 demoArenas).1 = ptrs1.map some ∧
      (sharedArenaRun 16 1 0 0 demoArenas).2.1 = ptrs2.map some ∧
      ptrs1.length = 10 ∧ ptrs2.length = 5 ∧
      (∀ p ∈ ptrs1, p ≠ nullptr ∧ 8 ∣ p ∧ 4096 ≤ p ∧ p + 24 ≤ 4096 + 1024) ∧
      (∀ p ∈ ptrs2, p ≠ nullptr ∧ 16 ∣ p ∧ 4096 ≤ p ∧ p + 32 ≤ 4096 + 1024) ∧
      DisjointInOrder (ptrs1.map (fun p => (p, 24)) ++ ptrs2.map (fun p => (p, 32))) ∧
      ((sharedArenaRun 16 1 0 0 demoArenas).2.2 1).storage = 4096 ∧
      ((sharedArenaRun 16 1 0 0 demoArenas).2.2 1).top - 4096
        = 1024 - ((sharedArenaRun 16 1 0 0 demoArenas).2.2 1).free ∧
      1024 - ((sharedArenaRun 16 1 0 0 demoArenas).2.2 1).free ≤ 545 ∧
      1024 - ((sharedArenaRun 16 1 0 0 demoArenas).2.2 1).free ≤ 1024 :=
  have hv : (StackStorage.fresh 1024 4096).Valid :=
    ⟨by decide, by decide, by decide, by decide⟩
  ⟨hv, (shared_arena 4096 hv 16 ⟨4, rfl⟩ (by decide) 1 0 0 demoArenas rfl).2.2⟩

/-- Claim C19 fails on the code.  For `List(sz, value)`, `List(sz, value, alloc)` and
`List(sz)` with an allocator that meets the allocator requirements and an element type
whose constructors do not throw: when `allocate` throws for the element number `i`
(`i < sz`, the `i` allocations before it succeeding), the exception leaves the
constructor, but the `catch` block first calls `deallocate(last_node)`, and `last_node`
is then the node of the element before, which is linked and alive and which the loop
`erase(begin())` destroys and releases again: for `0 < i` that node is released twice
(the first time before its value is destroyed), and for `i = 0` the pointer passed to
`deallocate` is the uninitialised `last_node`, which `allocate` never returned. -/
theorem sized_allocate_throws {A : AllocModel H σ} {avail : σ → Ptr → Prop}
    (C : AllocContract A avail) (E : ElemModel T) {w : World σ T} {fake : Ptr}
    (garbage : Ptr) (sz i : Nat) (value : T) (alloc : H)
    (hfake : 0 < fake ∧ fake < SIZE_RANGE) (hfa : ¬ avail w.alloc fake) (hi : i < sz)
    (hsucc0 : AllocSucceeds A A.defaultAlloc i w.alloc)
    (hfail0 : (A.allocate A.defaultAlloc
      (allocateTimes A A.defaultAlloc i w.alloc).2).1 = none)
    (hsucc1 : AllocSucceeds A alloc i w.alloc)
    (hfail1 : (A.allocate alloc (allocateTimes A alloc i w.alloc).2).1 = none)
    (hdef : ∀ k, E.defaultThrows k = false) (hcopy : ∀ k, E.copyThrows k value = false) :
    AllocFailureCleanup i garbage w (sizedValue A E fake garbage sz value w) ∧
    AllocFailureCleanup i garbage w (sizedValueAlloc A E fake garbage sz value alloc w) ∧
    AllocFailureCleanup i garbage w (sizedDefault A E fake garbage sz w) := by
  have hc : ∀ (p : Ptr) (w1 : World σ T), constructCopy E p value w1 =
      (true, { w1 with heap := w1.heap.setValue p (some value), ctors := w1.ctors + 1,
                       trace := w1.trace ++ [Event.construct p] }) := by
    intro p w1; simp [constructCopy, hcopy]
  have hd : ∀ (p : Ptr) (w1 : World σ T), constructDefault E p w1 =
      (true, { w1 with heap := w1.heap.setValue p (some E.defaultValue),
                       ctors := w1.ctors + 1,
                       trace := w1.trace ++ [Event.construct p] }) := by
    intro p w1; simp [constructDefault, hdef]
  exact ⟨sized_allocate_fails_core C hc garbage sz i A.defaultAlloc hfake hfa hi hsucc0 hfail0,
    sized_allocate_fails_core C hc garbage sz i alloc hfake hfa hi hsucc1 hfail1,
    sized_allocate_fails_core C hd garbage sz i A.defaultAlloc hfake hfa hi hsucc0 hfail0⟩

/-- Claim C19 at a concrete input: size 2 (and value 7) with an allocator that throws at
its second allocation, so `i = 1`; `last_node` starts as the address 99.  The events of
that run, and of the run in which the first allocation throws, are spelled out. -/
theorem sized_allocate_throws_witness :
    AllocFailureCleanup 1 99 demoWorld
      (sizedValue (boundedAllocator 4097) (plainElem Nat 0) 16 99 2 7 demoWorld) ∧
    AllocFailureCleanup 1 99 demoWorld
      (sizedValueAlloc (boundedAllocator 4097) (plainElem Nat 0) 16 99 2 7 () demoWorld) ∧
    AllocFailureCleanup 1 99 demoWorld
      (sizedDefault (boundedAllocator 4097) (plainElem Nat 0) 16 99 2 demoWorld) ∧
    (∃ l1 w1, sizedValue (boundedAllocator 4097) (plainElem Nat 0) 16 99 2 7 demoWorld
        = Outcome.thrown (l1, w1) ∧
      w1.trace = [Event.allocate 4096, Event.construct 4096, Event.deallocate 4096,
        Event.destroy 4096, Event.deallocate 4096]) ∧
    (∃ l1 w1, sizedValue (boundedAllocator 4096) (plainElem Nat 0) 16 99 2 7 demoWorld
        = Outcome.thrown (l1, w1) ∧
      w1.trace = [Event.deallocate 99]) :=
  have h := sized_allocate_throws (boundedAllocator_contract 4097) (plainElem Nat 0) 99 2 1 7
    () (by decide) (by decide) (by decide) ⟨by decide, trivial⟩ (by decide)
    ⟨by decide, trivial⟩ (by decide) (fun _ => rfl) (fun _ => rfl)
  ⟨h.1, h.2.1, h.2.2, ⟨_, _, rfl, rfl⟩, ⟨_, _, rfl, rfl⟩⟩

/-- Claim C20 fails on the code.  For `List(sz, alloc)` with an allocator that meets
the allocator requirements: when the default construction of the element number `i`
throws (`i < sz`, the constructions before it and the `i + 1` allocations succeeding),
the exception leaves the constructor body, which has no `try` block, with `sz_ = sz`
while `i` nodes are linked; the destructor then makes `sz` erases: the `i` nodes are
destroyed and released once each, and the remaining `sz - i` erases destroy and release
the sentinel, which was never allocated; the node allocated for the element number `i`
is never released. -/
theorem sized_alloc_construct_throws {A : AllocModel H σ} {avail : σ → Ptr → Prop}
    (C : AllocContract A avail) (E : ElemModel T) {w : World σ T} {fake : Ptr}
    (sz i : Nat) (alloc : H)
    (hfake : 0 < fake ∧ fake < SIZE_RANGE) (hfa : ¬ avail w.alloc fake) (hi : i < sz)
    (hsucc : AllocSucceeds A alloc (i + 1) w.alloc)
    (hok : ∀ j, j < i → E.defaultThrows (w.ctors + j) = false)
    (hthrow : E.defaultThrows (w.ctors + i) = true) :
    DefaultFailureUnwind sz i fake w
      (sizedAllocLoop A E sz { (mkEmpty fake alloc w).1 with sz := sz }
        (mkEmpty fake alloc w).2)
      (sizedAlloc A E fake sz alloc w) := by
  have hown0 : Owned avail { (mkEmpty fake alloc w).1 with sz := sz } (mkEmpty fake alloc w).2
      [] := by
    intro q hq
    simp only [mkEmpty, List.mem_singleton] at hq
    rw [hq]; exact hfa
  have h0 := mkEmpty_wellFormed fake alloc w hfake
  obtain ⟨w0, ps, pf, hloop, hr, hv, hlen, hpf, htr⟩ :=
    sizedAllocLoop_construct_fails (E := E) C i sz { (mkEmpty fake alloc w).1 with sz := sz }
      (mkEmpty fake alloc w).2 [] [] h0.ring rfl hown0 hi hsucc hok hthrow
  simp only [List.nil_append] at hr hv hpf
  have hr0 : Ring w0.heap fake ps := hr
  have hpf0 : pf ∉ fake :: ps := hpf
  have htr0 : w0.trace = w.trace ++ buildEvents ps ++ [Event.allocate pf] := by
    rw [htr]; rfl
  have hfps : fake ∉ ps := (List.nodup_cons.mp hr0.nodup).1
  have hwf : WellFormed ({ fakeNode := fake, sz := i, nodeAlloc := alloc } : ListObj H)
      w0.heap ps (List.replicate i E.defaultValue) := ⟨hr0, hlen.symm, hv⟩
  obtain ⟨f1, f2, _, f4, _⟩ := eraseWhile_spec (Q := []) A i ps
    (List.replicate i E.defaultValue) _ w0 hwf (fun _ hq => absurd hq (List.not_mem_nil _))
  have hdrop : ps.drop i = [] := by rw [← hlen]; exact List.drop_length ps
  have htake : ps.take i = ps := by rw [← hlen]; exact List.take_length ps
  rw [hdrop] at f1
  rw [htake] at f4
  obtain ⟨g1, g2⟩ := eraseWhile_sz A i
    ({ fakeNode := fake, sz := i, nodeAlloc := alloc } : ListObj H) w0 sz (le_refl i)
    (le_of_lt hi)
  have g1a : (eraseWhile A i ({ fakeNode := fake, sz := sz, nodeAlloc := alloc } : ListObj H)
      w0).2 = (eraseWhile A i ({ fakeNode := fake, sz := i, nodeAlloc := alloc } : ListObj H)
      w0).2 := g1
  have g2a : (eraseWhile A i ({ fakeNode := fake, sz := sz, nodeAlloc := alloc } : ListObj H)
      w0).1 = { (eraseWhile A i ({ fakeNode := fake, sz := i, nodeAlloc := alloc } : ListObj H)
      w0).1 with sz := sz - i } := g2
  have hsplit : eraseWhile A sz ({ fakeNode := fake, sz := sz, nodeAlloc := alloc } : ListObj H)
      w0 = eraseWhile A (sz - i)
        (eraseWhile A i ({ fakeNode := fake, sz := sz, nodeAlloc := alloc } : ListObj H) w0).1
        (eraseWhile A i ({ fakeNode := fake, sz := sz, nodeAlloc := alloc } : ListObj H) w0).2
      := by
    have := eraseWhile_add A (sz - i) i
      ({ fakeNode := fake, sz := sz, nodeAlloc := alloc } : ListObj H) w0
    rwa [Nat.add_sub_cancel' (le_of_lt hi)] at this
  have hb := ring_begin f1.ring
  simp only [firstOr, lastOr] at hb
  rw [f2] at hb
  have hfk : (eraseWhile A i ({ fakeNode := fake, sz := sz, nodeAlloc := alloc } : ListObj H)
      w0).1.fakeNode = fake := by rw [g2a]; exact f2
  have hszk : (eraseWhile A i ({ fakeNode := fake, sz := sz, nodeAlloc := alloc } : ListObj H)
      w0).1.sz = sz - i := by rw [g2a]
  obtain ⟨s1, _⟩ := eraseWhile_sentinel A (sz - i)
    (eraseWhile A i ({ fakeNode := fake, sz := sz, nodeAlloc := alloc } : ListObj H) w0).1
    (eraseWhile A i ({ fakeNode := fake, sz := sz, nodeAlloc := alloc } : ListObj H) w0).2
    (by rw [hfk, g1a]; exact hb.1) (by rw [hfk, g1a]; exact hb.2) (by rw [hszk])
  rw [← hsplit, hfk, g1a, f4, htr0] at s1
  have hres : sizedAlloc A E fake sz alloc w
      = Outcome.thrown (({ fakeNode := fake, sz := sz, nodeAlloc := alloc } : ListObj H),
          (eraseWhile A sz ({ fakeNode := fake, sz := sz, nodeAlloc := alloc } : ListObj H)
            w0).2) := by
    unfold sizedAlloc
    dsimp only
    rw [hloop]
    rfl
  refine ⟨_, w0, _, ps, pf, _, hloop, rfl, hr0, hlen, hpf0, hres, ?_, rfl, ?_, ?_, ?_, ?_⟩
  · rw [s1]
    simp
  · simp
  · intro hm
    simp only [List.mem_append, List.mem_cons] at hm
    rcases hm with hm | hm | hm | hm
    · obtain ⟨x, _, h1 | h1⟩ := mem_buildEvents hm <;> simp at h1
    · simp at hm
    · obtain ⟨x, hx, h1 | h1⟩ := mem_releaseEvents hm
      · simp at h1
      · simp only [Event.deallocate.injEq] at h1
        exact hpf0 (List.mem_cons_of_mem _ (h1 ▸ hx))
    · obtain ⟨x, hx, h1 | h1⟩ := mem_releaseEvents hm
      · simp at h1
      · simp only [Event.deallocate.injEq] at h1
        have := List.eq_of_mem_replicate hx
        exact hpf0 (by rw [h1, this]; exact List.mem_cons_self _ _)
  · intro hm
    simp only [List.mem_append, List.mem_cons] at hm
    rcases hm with hm | hm | hm | hm
    · obtain ⟨x, hx, h1 | h1⟩ := mem_buildEvents hm
      · simp only [Event.allocate.injEq] at h1
        exact hfps (h1 ▸ hx)
      · simp at h1
    · simp only [Event.allocate.injEq] at hm
      exact hpf0 (by rw [← hm]; exact List.mem_cons_self _ _)
    · obtain ⟨x, _, h1 | h1⟩ := mem_releaseEvents hm <;> simp at h1
    · obtain ⟨x, _, h1 | h1⟩ := mem_releaseEvents hm <;> simp at h1
  · have c1 : (buildEvents ps).count (Event.deallocate fake) = 0 := by
      refine List.count_eq_zero.mpr (fun hm => ?_)
      obtain ⟨x, _, h1 | h1⟩ := mem_buildEvents hm <;> simp at h1
    have c2 : (releaseEvents ps).count (Event.deallocate fake) = 0 := by
      refine List.count_eq_zero.mpr (fun hm => ?_)
      obtain ⟨x, hx, h1 | h1⟩ := mem_releaseEvents hm
      · simp at h1
      · simp only [Event.deallocate.injEq] at h1
        exact hfps (h1 ▸ hx)
    rw [List.count_append, List.count_cons, List.count_append, c1, c2,
      releaseEvents_replicate_count]
    simp

/-- Claim C20 at a concrete input: `List(2, alloc)` for an element type whose second
default construction throws, so `i = 1`; the sentinel is at address 16 and the nodes come
from address 4096 on.  The events of the run are spelled out. -/
theorem sized_alloc_construct_throws_witness :
    DefaultFailureUnwind 2 1 16 demoWorld
      (sizedAllocLoop countingAllocator (throwingElem Nat 0 1) 2
        { (mkEmpty 16 () demoWorld).1 with sz := 2 } (mkEmpty 16 () demoWorld).2)
      (sizedAlloc countingAllocator (throwingElem Nat 0 1) 16 2 () demoWorld) ∧
    (∃ l1 w1, sizedAlloc countingAllocator (throwingElem Nat 0 1) 16 2 () demoWorld
        = Outcome.thrown (l1, w1) ∧
      w1.trace = [Event.allocate 4096, Event.construct 4096, Event.allocate 4097,
        Event.destroy 4096, Event.deallocate 4096, Event.destroy 16,
        Event.deallocate 16]) :=
  ⟨sized_alloc_construct_throws countingAllocator_contract (throwingElem Nat 0 1) 2 1 ()
    (by decide) (by decide) (by decide) ⟨by decide, by decide, trivial⟩ (by decide)
    (by decide), ⟨_, _, rfl, rfl⟩⟩

end Claims

end StackList
